import Mathlib

/-!
# Verification development for `common.go` of the minify package

A byte is modelled as a natural number (the values that occur are below 256), a
Go byte slice as a `List Nat`.  Go's `int` and `int64` variables are modelled as
`Int`; the `int64` arithmetic on the exponent wraps explicitly (`wrap64`).  Every
indexing, slicing and `copy` is bounds-checked: a Go run-time panic is the result
`none`.  The capacity of the input slice is taken to be its length.

The development covers the three functions of the file.  `Number` and
`ContentType` rewrite their argument in place and are embedded with the buffer
as explicit state.  `DataURI` takes the parser `parse.DataURI` and the dispatch
`Bytes` as parameters; the functions of other packages that the file calls
(`parse.Int`, `parse.IsWhitespace`, `parse.ToLower`, `parse.DataURI`,
`base64.StdEncoding`, `url.QueryEscape`) are not part of the sources and are
modelled, each under a comment that says so.  The floating-point computation
`int(math.Log10(float64(exp)))` of line 173 is the parameter `lg` of the
embedding of `Number`; `Number` itself is the instance with the exact integer
logarithm, and the general theorems ask of `lg` only that it give the true
number of digits of the exponent that is written.
-/

namespace Minify

/-- The bytes of an ASCII string. -/
def bytes (s : String) : List Nat := s.toList.map Char.toNat

/-- Two's complement wrap-around of `int64` arithmetic. -/
def wrap64 (x : Int) : Int := (x + 2 ^ 63) % 2 ^ 64 - 2 ^ 63

/-- The package variable `zeroBytes = []byte("0")`. -/
def zeroBytes : List Nat := [48]

/-- The read `num[i]`; `none` is an index out of range. -/
def getB (num : List Nat) (i : Int) : Option Nat :=
  if 0 ≤ i then num.get? i.toNat else none

/-- The write `num[i] = v`; `none` is an index out of range. -/
def setB (num : List Nat) (i : Int) (v : Nat) : Option (List Nat) :=
  if 0 ≤ i ∧ i < num.length then some (num.set i.toNat v) else none

/-- The slice expression `num[lo:hi]`; `none` is a slice bound out of range. -/
def slice (num : List Nat) (lo hi : Int) : Option (List Nat) :=
  if 0 ≤ lo ∧ lo ≤ hi ∧ hi ≤ num.length then
    some ((num.drop lo.toNat).take (hi - lo).toNat)
  else none

/-- The call `copy(num[d:], src)`, where `src` is the content of the source slice
before the call (Go copies as if through a temporary, so overlap is harmless):
`min(len(num)-d, len(src))` bytes are written from index `d` on. -/
def copyAt (num : List Nat) (d : Int) (src : List Nat) : Option (List Nat) :=
  if 0 ≤ d ∧ d ≤ num.length then
    let n := min (num.length - d.toNat) src.length
    some (num.take d.toNat ++ src.take n ++ num.drop (d.toNat + n))
  else none

/-- Modelled from the spec: `parse.Int` of the package `github.com/tdewolff/parse`,
which is imported by `common.go` and is not part of the sources.  It reads an
optional sign and then decimal digits up to the first other byte, and reports
failure when the digits do not fit: the accumulator is a `uint64`, the scan
fails once it exceeds `MaxUint64/10` before the next byte, and the result must
lie in the `int64` range. -/
def parseIntLoop : List Nat → Nat → Option Nat
  | [], n => some n
  | c :: rest, n =>
    if n > (2 ^ 64 - 1) / 10 then none
    else if 48 ≤ c ∧ c ≤ 57 then parseIntLoop rest ((n * 10 + (c - 48)) % 2 ^ 64)
    else some n

/-- Modelled from the spec: `parse.Int`, see `parseIntLoop`.  `none` is the
result `ok = false`. -/
def parseInt (b : List Nat) : Option Int :=
  let neg := decide (b.head? = some 45)
  let ds := if b.head? = some 43 ∨ b.head? = some 45 then b.tail else b
  match parseIntLoop ds 0 with
  | none => none
  | some n =>
    if (!neg ∧ n > 2 ^ 63 - 1) ∨ n > 2 ^ 63 then none
    else if neg then some (-(n : Int))
    else some (n : Int)

/-- Outcome of the scanning loop of `Number` (lines 93-108): either the early
`return num`, or the values of `dot`, `end` and `exp` after the loop. -/
inductive ScanOut where
  | ret : ScanOut
  | go (dot end_ exp : Int) : ScanOut
  deriving DecidableEq, Repr

/-- The loop `for i, c := range num` of lines 93-108.  `rest` is the part of
`num` from index `i` on. -/
def scanLoop (pInt : List Nat → Option Int) (num : List Nat) :
    List Nat → Int → Int → Int → ScanOut
  | [], _, dot, end_ => ScanOut.go dot end_ 0
  | c :: rest, i, dot, end_ =>
    if c = 46 then scanLoop pInt num rest (i + 1) i end_
    else if c = 101 ∨ c = 69 then
      let j := if getB num (i + 1) = some 43 then i + 2 else i + 1
      match pInt (num.drop j.toNat) with
      | none => ScanOut.ret
      | some e => ScanOut.go dot i e
    else scanLoop pInt num rest (i + 1) dot end_

/-- The loop `for start < end && num[start] == '0' { start++ }` of lines 114-116. -/
def trimLeading (num : List Nat) (end_ : Int) : Nat → Int → Option Int
  | 0, _ => none
  | fuel + 1, start =>
    if start < end_ then
      match getB num start with
      | none => none
      | some c => if c = 48 then trimLeading num end_ fuel (start + 1) else some start
    else some start

/-- The loop of lines 118-127 over `i`, together with the test `i == dot` that
follows it; the result is the new value of `end`. -/
def trimTrailing (num : List Nat) (dot : Int) : Nat → Int → Int → Option Int
  | 0, _, _ => none
  | fuel + 1, i, end_ =>
    if dot < i then
      match getB num i with
      | none => none
      | some c => if c ≠ 48 then some (i + 1) else trimTrailing num dot fuel (i - 1) end_
    else if i = dot then some dot
    else some end_

/-- The loop of lines 134-140 (`end == dot`): trailing zeros of the integer
part move into the exponent.  The result is the pair `(exp, end)`. -/
def foldZeros (num : List Nat) (start end_ exp : Int) : Nat → Int → Option (Int × Int)
  | 0, _ => none
  | fuel + 1, i =>
    if start ≤ i then
      match getB num i with
      | none => none
      | some c =>
        if c ≠ 48 then some (wrap64 (exp + (end_ - i - 1)), i + 1)
        else foldZeros num start end_ exp fuel (i - 1)
    else some (exp, end_)

/-- The loop of lines 144-150 (`start == dot`): the fraction digits from the
first non-zero one on are moved to `dot`.  The result is the pair `(num, end)`. -/
def skipFracZeros (dot end_ : Int) : Nat → List Nat → Int → Option (List Nat × Int)
  | 0, _, _ => none
  | fuel + 1, num, i =>
    if i < end_ then
      match getB num i with
      | none => none
      | some c =>
        if c ≠ 48 then
          match slice num i end_ with
          | none => none
          | some src =>
            match copyAt num dot src with
            | none => none
            | some num1 => some (num1, end_ - (i - dot))
        else skipFracZeros dot end_ fuel num (i + 1)
    else some (num, end_)

/-- The exact integer logarithm to the base ten of a positive number, the
number of its decimal digits less one, by repeated division. -/
def log10Loop : Nat → Nat → Nat
  | 0, _ => 0
  | fuel + 1, x => if x < 10 then 0 else log10Loop fuel (x / 10) + 1

/-- The exact integer logarithm: what `int(math.Log10(float64(exp)))` of line
173 would be if the floating-point logarithm made no rounding error.  The
embedding of `Number` does not rest on it: the floating-point value is a
parameter there (`lg`), and `intLog10` is the instance that is used to
evaluate the model.  For `exp <= 0`, where the conversion of the not-a-number
result to `int` is implementation-defined, it has the smallest `int`, as on
amd64. -/
def intLog10 (exp : Int) : Int :=
  if 0 < exp then (log10Loop 20 exp.toNat : Int) else -(2 ^ 63)

/-- The byte `byte(exp%10) + '0'` of line 175: Go's remainder has the sign of
`exp`, the conversion keeps the low eight bits, the addition wraps. -/
def digitByte (exp : Int) : Nat :=
  ((Int.tmod exp 10 % 256 + 48) % 256).toNat

/-- The loop of lines 174-177, which writes the decimal digits of `exp` from
index `i` downwards to index `end`. -/
def writeExp (end_ : Int) : Nat → List Nat → Int → Int → Option (List Nat)
  | 0, _, _, _ => none
  | fuel + 1, num, i, exp =>
    if end_ ≤ i then
      match setB num i (digitByte exp) with
      | none => none
      | some num1 => writeExp end_ fuel num1 (i - 1) (Int.tdiv exp 10)
    else some num

/-- The loop `for i := 1; i < -int(relExp)+1; i++ { num[start+i] = '0' }` of
lines 187-189. -/
def padZeros (start bound : Int) : Nat → List Nat → Int → Option (List Nat)
  | 0, _, _ => none
  | fuel + 1, num, i =>
    if i < bound then
      match setB num (start + i) 48 with
      | none => none
      | some num1 => padZeros start bound fuel num1 (i + 1)
    else some num

/-- Lines 200-204: the sign is put back and the window is returned. -/
def finish (num : List Nat) (neg : Bool) (start end_ : Int) : Option (List Nat) :=
  if neg then
    match setB num (start - 1) 45 with
    | none => none
    | some num1 => slice num1 (start - 1) end_
  else slice num start end_

/-- Lines 173-178 and 200-204: the decimal digits of `exp` are written from
index `end` on, and the window is returned.  The parameter `lg` is the
floating-point computation `int(math.Log10(float64(exp)))` of line 173. -/
def writeDigits (lg : Int → Int) (num : List Nat) (neg : Bool) (start end_ exp : Int) :
    Option (List Nat) :=
  let n := lg exp + 1
  match writeExp end_ (n.toNat + 1) num (end_ + n - 1) exp with
  | none => none
  | some num1 => finish num1 neg start (end_ + n)

/-- Lines 166-178: the scientific form, `e`, a `-` for a negative exponent, and
the digits of its magnitude. -/
def emitSci (lg : Int → Int) (num : List Nat) (neg : Bool) (start end_ exp : Int) :
    Option (List Nat) :=
  match setB num end_ 101 with
  | none => none
  | some num1 =>
    if exp < 0 then
      match setB num1 (end_ + 1) 45 with
      | none => none
      | some num2 => writeDigits lg num2 neg start (end_ + 1 + 1) (wrap64 (-exp))
    else writeDigits lg num1 neg start (end_ + 1) exp

/-- Lines 180-184: a point is inserted `relExp` digits after `start`. -/
def emitPoint (num : List Nat) (neg : Bool) (start end_ relExp : Int) : Option (List Nat) :=
  match slice num (start + relExp) end_ with
  | none => none
  | some src =>
    match copyAt num (start + relExp + 1) src with
    | none => none
    | some num1 =>
      match setB num1 (start + relExp) 46 with
      | none => none
      | some num2 => finish num2 neg start (end_ + 1)

/-- Lines 185-190: the digits move right to make room for a point and
`-relExp` zeros. -/
def emitFrac (num : List Nat) (neg : Bool) (start end_ relExp : Int) : Option (List Nat) :=
  match slice num start end_ with
  | none => none
  | some src =>
    match copyAt num (start - relExp + 1) src with
    | none => none
    | some num1 =>
      match setB num1 start 46 with
      | none => none
      | some num2 =>
        match padZeros start (-relExp + 1) (num.length + 1) num2 1 with
        | none => none
        | some num3 => finish num3 neg start (end_ - (relExp - 1))

/-- Lines 193-197: one or two zeros are appended. -/
def emitZeros (num : List Nat) (neg : Bool) (start end_ exp : Int) : Option (List Nat) :=
  match setB num end_ 48 with
  | none => none
  | some num1 =>
    match (if exp = 2 then setB num1 (end_ + 1) 48 else some num1) with
    | none => none
    | some num2 => finish num2 neg start (end_ + exp)

/-- Lines 157-204: the exponent is appended, or the mantissa is changed to
incorporate it. -/
def emit (lg : Int → Int) (num : List Nat) (neg : Bool) (start end_ exp : Int) :
    Option (List Nat) :=
  let relExp := wrap64 (exp + (end_ - start))
  if exp = 0 then finish num neg start end_
  else if relExp < -2 ∨ 2 < exp then emitSci lg num neg start end_ exp
  else if exp < 0 then
    if relExp > 0 then emitPoint num neg start end_ relExp
    else emitFrac num neg start end_ relExp
  else emitZeros num neg start end_ exp

/-- Lines 132-155: the mantissa is shortened by increasing or decreasing the
exponent.  The result is the triple `(num, end, exp)`. -/
def shorten (num : List Nat) (start dot end_ exp : Int) : Option (List Nat × Int × Int) :=
  if end_ = dot then
    match foldZeros num start end_ exp (num.length + 1) (end_ - 1) with
    | none => none
    | some r => some (num, r.2, r.1)
  else
    let exp1 := wrap64 (exp - (end_ - dot - 1))
    if start = dot then
      match skipFracZeros dot end_ (num.length + 1) num (dot + 1) with
      | none => none
      | some r => some (r.1, r.2, exp1)
    else
      match slice num (dot + 1) end_ with
      | none => none
      | some src =>
        match copyAt num dot src with
        | none => none
        | some num1 => some (num1, end_ - 1, exp1)

/-- Lines 109-204 of `Number`: what follows the scanning loop, from the values
of `neg`, `start`, `dot`, `end` and `exp` it leaves. -/
def afterScan (lg : Int → Int) (num : List Nat) (neg : Bool) (start0 dot0 end1 exp : Int) :
    Option (List Nat) :=
  let dot := if dot0 = -1 then end1 else dot0
  match trimLeading num end1 (num.length + 1) start0 with
  | none => none
  | some start =>
    match trimTrailing num dot (num.length + 1) (end1 - 1) end1 with
    | none => none
    | some end2 =>
      if start = end2 then some zeroBytes
      else
        match shorten num start dot end2 exp with
        | none => none
        | some r => emit lg r.1 neg start r.2.1 r.2.2

/-- The function `Number` of lines 77-205, with `parse.Int` as the parameter
`pInt` and the floating-point computation `int(math.Log10(float64(exp)))` of
line 173 as the parameter `lg`.  `none` is a run-time panic. -/
def NumberWith (pInt : List Nat → Option Int) (lg : Int → Int) (num0 : List Nat) :
    Option (List Nat) :=
  let neg := decide (num0.head? = some 45)
  let start0 : Int := if neg then 1 else 0
  let num := if num0.head? = some 43 then num0.tail else num0
  match scanLoop pInt num num 0 (-1) num.length with
  | ScanOut.ret => some num
  | ScanOut.go dot0 end1 exp => afterScan lg num neg start0 dot0 end1 exp

/-- The function `Number` of `common.go`, with the modelled `parse.Int` and with
the exact integer logarithm for the floating-point computation of line 173. -/
def Number (num : List Nat) : Option (List Nat) := NumberWith parseInt intLog10 num

/-! ## Numeric literals and the values they denote -/

/-- Whether a byte is a decimal digit. -/
def isDigit (c : Nat) : Bool := decide (48 ≤ c ∧ c ≤ 57)

/-- Whether a byte is a sign, `+` or `-`. -/
def isSign (c : Nat) : Bool := decide (c = 43 ∨ c = 45)

/-- A decimal literal split into its parts: the sign bytes (none or one), the
digits before the point, whether there is a point, the digits after it, and the
exponent part (whether present, its marker byte, its sign bytes, its digits). -/
structure Lit where
  sg : List Nat
  ip : List Nat
  pt : Bool
  fp : List Nat
  he : Bool
  em : Nat
  es : List Nat
  ed : List Nat
  deriving DecidableEq, Repr

/-- The bytes of a literal. -/
def Lit.render (L : Lit) : List Nat :=
  L.sg ++ (L.ip ++ ((if L.pt then 46 :: L.fp else []) ++
    (if L.he then L.em :: (L.es ++ L.ed) else [])))

/-- Splits an optional leading sign byte off. -/
def takeSign : List Nat → List Nat × List Nat
  | [] => ([], [])
  | c :: r => if isSign c then ([c], r) else ([], c :: r)

/-- Reads a decimal literal: an optional sign, digits with an optional point
(at least one digit in all), and an optional exponent part made of `e` or `E`,
an optional sign and at least one digit.  `none` when the bytes are not such a
literal. -/
def parseLit (s : List Nat) : Option Lit :=
  let sr := takeSign s
  let ip := sr.2.takeWhile isDigit
  let r1 := sr.2.dropWhile isDigit
  let pt := decide (r1.head? = some 46)
  let fp := if pt then r1.tail.takeWhile isDigit else []
  let r2 := if pt then r1.tail.dropWhile isDigit else r1
  if ip ++ fp = [] then none
  else
    match r2 with
    | [] => some ⟨sr.1, ip, pt, fp, false, 0, [], []⟩
    | c :: t =>
      if c = 101 ∨ c = 69 then
        let er := takeSign t
        if er.2 ≠ [] ∧ er.2.all isDigit then some ⟨sr.1, ip, pt, fp, true, c, er.1, er.2⟩
        else none
      else none

/-- A syntactically valid decimal literal. -/
def validNumber (s : List Nat) : Bool := (parseLit s).isSome

/-- The natural number written by a list of digit bytes. -/
def natVal (ds : List Nat) : Nat := ds.foldl (fun a c => 10 * a + (c - 48)) 0

/-- The integer written by the exponent part of a literal, `0` without one. -/
def Lit.expVal (L : Lit) : Int :=
  if L.he then (if L.es = [45] then -(natVal L.ed : Int) else (natVal L.ed : Int)) else 0

/-- The exact rational value of a literal. -/
def Lit.value (L : Lit) : ℚ :=
  (if L.sg = [45] then -1 else 1) * (natVal (L.ip ++ L.fp) : ℚ) *
    (10 : ℚ) ^ (L.expVal - (L.fp.length : Int))

/-- The exact rational value denoted by a byte sequence, `none` when it is not
a valid literal. -/
def valueOf (s : List Nat) : Option ℚ := (parseLit s).map Lit.value

/-- The slice `num` after the sign handling of lines 84-92: a leading `+` is
cut off by `num = num[1:]`. -/
def dropPlus (num : List Nat) : List Nat :=
  if num.head? = some 43 then num.tail else num

/-- The exponent portion of a byte sequence: the bytes after the first `e` or
`E` and an optional `+`; `none` when there is no `e` or `E`. -/
def expPortion (body : List Nat) : Option (List Nat) :=
  match body.dropWhile (fun c => !(c == 101 || c == 69)) with
  | [] => none
  | _ :: r => some (if r.head? = some 43 then r.tail else r)

/-! ## The closed form of `Number` on a literal -/

/-- A run of `n` zero digits. -/
def zeros (n : Nat) : List Nat := List.replicate n 48

/-- The decimal digits of a natural number, most significant first, without
leading zeros (none for `0`). -/
def expDigits (x : Nat) : List Nat := (Nat.digits 10 x).reverse.map (· + 48)

/-- Digits without their leading zeros. -/
def stripLead (ds : List Nat) : List Nat := ds.dropWhile (· == 48)

/-- Digits without their trailing zeros. -/
def stripTrail : List Nat → List Nat
  | [] => []
  | c :: l => if c = 48 ∧ stripTrail l = [] then [] else c :: stripTrail l

/-- The canonical mantissa of a digit string: no leading and no trailing zeros. -/
def mantissa (ds : List Nat) : List Nat := stripTrail (stripLead ds)

/-- A literal is well formed: its sign is absent, `+` or `-`; its parts are
digits, at least one in all; digits follow a point only; the exponent part, if
present, has the marker `e` or `E`, a sign that is absent, `+` or `-`, and at
least one digit. -/
def Lit.WF (L : Lit) : Prop :=
  (L.sg = [] ∨ L.sg = [43] ∨ L.sg = [45]) ∧
  (∀ c ∈ L.ip, isDigit c = true) ∧ (∀ c ∈ L.fp, isDigit c = true) ∧
  (L.pt = false → L.fp = []) ∧ L.ip ++ L.fp ≠ [] ∧
  (if L.he then (L.em = 101 ∨ L.em = 69) ∧ (L.es = [] ∨ L.es = [43] ∨ L.es = [45]) ∧
      L.ed ≠ [] ∧ (∀ c ∈ L.ed, isDigit c = true)
   else L.em = 0 ∧ L.es = [] ∧ L.ed = [])

/-- The canonical mantissa of a literal. -/
def Lit.mant (L : Lit) : List Nat := mantissa (L.ip ++ L.fp)

/-- The change of the exponent when the digits of a literal are replaced by
its canonical mantissa: the digits after the point count negatively, the
trailing zeros that are dropped count positively. -/
def Lit.shift (L : Lit) : Int :=
  -(L.fp.length : Int) + (((stripLead (L.ip ++ L.fp)).length : Int) - ((L.mant).length : Int))

/-- The canonical exponent of a literal: the value is the canonical mantissa
times ten to this power. -/
def Lit.exp10 (L : Lit) : Int := L.expVal + L.shift

/-- The bytes that `Number` hands to `parse.Int`: the exponent part after its
marker and after a `+`. -/
def Lit.expArg (L : Lit) : List Nat := (if L.es = [43] then [] else L.es) ++ L.ed

/-- The exponent that `Number` starts from: what `parse.Int` makes of the
exponent part, `0` without one; `none` is the failure of `parse.Int`. -/
def Lit.parsedExp (pInt : List Nat → Option Int) (L : Lit) : Option Int :=
  if L.he then pInt L.expArg else some 0

/-- The sign bytes that `Number` keeps: `-` only. -/
def Lit.minus (L : Lit) : List Nat := if L.sg = [45] then [45] else []

/-- The number of leading zeros of the integer part. -/
def Lit.leadZeros (L : Lit) : Nat := (L.ip.takeWhile (· == 48)).length

/-- The number of bytes of the buffer behind the canonical mantissa once
`Number` has moved it into place: what follows the kept sign, the leading zeros
of the integer part and the mantissa. -/
def Lit.room (L : Lit) : Nat :=
  (dropPlus L.render).length - L.minus.length - L.leadZeros - L.mant.length

/-- The closed form of `emit` for a window holding the digits `m`, followed by
`room` more bytes of buffer, and an exponent `e` that is not the smallest
`int64`: the bytes returned after the sign, `none` when they do not fit. -/
def emitSpec (m : List Nat) (e : Int) (room : Nat) : Option (List Nat) :=
  let relExp := e + (m.length : Int)
  if e = 0 then some m
  else if relExp < -2 ∨ 2 < e then
    let out := m ++ 101 :: ((if e < 0 then [45] else []) ++ expDigits e.natAbs)
    if out.length ≤ m.length + room then some out else none
  else if e < 0 then
    if 0 < relExp then
      if 1 ≤ room then some (m.take relExp.toNat ++ 46 :: m.drop relExp.toNat) else none
    else
      if 1 - relExp ≤ (room : Int) then some (46 :: (zeros (-relExp).toNat ++ m)) else none
  else
    if e ≤ (room : Int) then some (m ++ zeros e.toNat) else none

/-- The closed form of `Number` on a well-formed literal: the fail-soft return
when `parse.Int` fails, the canonical zero, and otherwise the kept sign followed
by the emitted form of the canonical mantissa and the (wrapped) exponent. -/
def NumberSpec (pInt : List Nat → Option Int) (L : Lit) : Option (List Nat) :=
  match L.parsedExp pInt with
  | none => some (dropPlus L.render)
  | some e0 =>
    if L.mant = [] then some zeroBytes
    else
      let e := wrap64 (e0 + L.shift)
      if e = -(2 ^ 63) then none
      else (emitSpec L.mant e L.room).map (fun r => L.minus ++ r)

/-- The `n` low decimal digits of `x`, most significant first. -/
def lowDigits : Nat → Nat → List Nat
  | 0, _ => []
  | n + 1, x => lowDigits n (x / 10) ++ [x % 10 + 48]

/-- The sign byte that `finish` puts back. -/
def signBytes (neg : Bool) : List Nat := if neg then [45] else []

/-- The point of a literal and the digits behind it, as bytes. -/
def Lit.pointPart (L : Lit) : List Nat := if L.pt then 46 :: L.fp else []

/-- The exponent part of a literal, as bytes. -/
def Lit.expPart (L : Lit) : List Nat := if L.he then L.em :: (L.es ++ L.ed) else []

/-- The integer written by the exponent part of a byte sequence that is a valid
literal, `0` without an exponent part. -/
def exponentOf (s : List Nat) : Int :=
  match parseLit s with
  | some L => L.expVal
  | none => 0

/-- A literal with its sign bytes replaced. -/
def Lit.withSign (L : Lit) (sg : List Nat) : Lit := { L with sg := sg }

/-- The canonical mantissa of a byte sequence that is a valid literal: its
digits without leading and trailing zeros. -/
def mantissaOf (s : List Nat) : List Nat :=
  match parseLit s with
  | some L => L.mant
  | none => []

/-- The canonical exponent of a byte sequence that is a valid literal: the
magnitude of its value is the canonical mantissa times ten to this power. -/
def exp10Of (s : List Nat) : Int :=
  match parseLit s with
  | some L => L.exp10
  | none => 0

/-- The length of the form that `emit` gives to a mantissa of `k` digits with
the exponent `e`, without the sign. -/
def outLen (k : Nat) (e : Int) : Nat :=
  if e = 0 then k
  else if e + k < -2 ∨ 2 < e then
    k + 1 + (if e < 0 then 1 else 0) + (expDigits e.natAbs).length
  else if e < 0 then (if 0 < e + k then k + 1 else k + 1 + (-(e + k)).toNat)
  else k + e.toNat

/-- The literal that `emit` writes for the sign bytes `sg`, the canonical
mantissa `m` and the exponent `e`, split into its parts. -/
def outLit (sg m : List Nat) (e : Int) : Lit :=
  if e = 0 then ⟨sg, m, false, [], false, 0, [], []⟩
  else if e + (m.length : Int) < -2 ∨ 2 < e then
    ⟨sg, m, false, [], true, 101, (if e < 0 then [45] else []), expDigits e.natAbs⟩
  else if e < 0 then
    if 0 < e + (m.length : Int) then
      ⟨sg, m.take (e + (m.length : Int)).toNat, true, m.drop (e + (m.length : Int)).toNat,
        false, 0, [], []⟩
    else ⟨sg, [], true, zeros (-(e + (m.length : Int))).toNat ++ m, false, 0, [], []⟩
  else ⟨sg, m ++ zeros e.toNat, false, [], false, 0, [], []⟩

/-- A canonical mantissa: digits, at least one, the first and the last not zero. -/
def Canonical (m : List Nat) : Prop :=
  (∀ c ∈ m, isDigit c = true) ∧ m ≠ [] ∧ m.head? ≠ some 48 ∧ m.getLast? ≠ some 48

/-! ## `ContentType` -/

/-- Modelled from the spec: `parse.IsWhitespace` of the package
`github.com/tdewolff/parse`, which is not part of the sources.  The whitespace
bytes are the space, the tab, the newline, the carriage return and the form
feed. -/
def isWhitespace (c : Nat) : Bool := c == 32 || c == 9 || c == 10 || c == 13 || c == 12

/-- The lower-case form of one byte: the ASCII capitals move up by
`'a' - 'A'`, every other byte stays. -/
def toLowerByte (c : Nat) : Nat := if 65 ≤ c ∧ c ≤ 90 then c + 32 else c

/-- Modelled from the spec: `parse.ToLower` of the package
`github.com/tdewolff/parse`, which is not part of the sources.  It replaces
every ASCII capital of the slice by its lower-case letter, in place, and
returns the slice. -/
def toLower (b : List Nat) : List Nat := b.map toLowerByte

/-- The number of bytes that `copy(b[j:], src)` reports as copied. -/
def copyCount (b : List Nat) (j : Int) (src : List Nat) : Int :=
  min ((b.length : Int) - j) src.length

/-- The loop `for i, c := range b` of `ContentType`, with `n` iterations left:
the buffer, `j`, `start` and `inString` are the loop state, and the result is
the buffer, `j` and `start` after the last iteration. -/
def contentLoop : Nat → Int → List Nat → Int → Int → Bool → Option (List Nat × Int × Int)
  | 0, _, b, j, start, _ => some (b, j, start)
  | n + 1, i, b, j, start, inString =>
    match getB b i with
    | none => none
    | some c =>
      if !inString && isWhitespace c then
        if start ≠ 0 then
          match slice b start i with
          | none => none
          | some src =>
            match copyAt b j src with
            | none => none
            | some b1 => contentLoop n (i + 1) b1 (j + copyCount b j src) (i + 1) inString
        else contentLoop n (i + 1) b (j + i) (i + 1) inString
      else if c = 34 then contentLoop n (i + 1) b j start (!inString)
      else contentLoop n (i + 1) b j start inString

/-- The statements of `ContentType` after the loop. -/
def contentEnd (b : List Nat) (j start : Int) : Option (List Nat) :=
  if start ≠ 0 then
    match slice b start b.length with
    | none => none
    | some src =>
      match copyAt b j src with
      | none => none
      | some b1 => (slice b1 0 (j + copyCount b j src)).map toLower
  else some (toLower b)

/-- The function `ContentType`; `none` is a run-time panic. -/
def ContentType (b : List Nat) : Option (List Nat) :=
  match contentLoop b.length 0 b 0 0 false with
  | none => none
  | some (b1, j, start) => contentEnd b1 j start

/-- The bytes that the reference definition keeps: reading from the left with
the quoted state `q`, a whitespace byte outside quotes is deleted, every other
byte is kept, and the state is toggled at every `"`. -/
def keepBytes : Bool → List Nat → List Nat
  | _, [] => []
  | q, c :: cs =>
    if !q && isWhitespace c then keepBytes (if c = 34 then !q else q) cs
    else c :: keepBytes (if c = 34 then !q else q) cs

/-- The reference definition of `ContentType`, following the words of the
specification: delete the whitespace outside quotes, then lower-case. -/
def ContentTypeSpec (b : List Nat) : List Nat := (keepBytes false b).map toLowerByte

/-- The quoted state in which `ContentType` examines the byte at index `i`: it
starts off and has been toggled at every `"` before `i`. -/
def quoteState (b : List Nat) (i : Nat) : Bool :=
  (b.take i).foldl (fun q c => if c = 34 then !q else q) false

/-- The number of bytes before index `i` that the reference definition keeps:
the index in the result of the byte at index `i`, when that byte is kept. -/
def keptBefore (b : List Nat) (i : Nat) : Nat := (keepBytes false (b.take i)).length

/-- The input of the example of the specification:
` Text/HTML ; Charset="UTF 8" `. -/
def contentExample : List Nat :=
  bytes " Text/HTML ; Charset=" ++ [34] ++ bytes "UTF 8" ++ [34] ++ bytes " "

/-! ## `DataURI` -/

/-- The test of line 50: the bytes that the cost loop counts once, the ASCII
letters and digits, `-`, `_`, `.`, `~` and the space. -/
def isUnreserved (c : Nat) : Bool :=
  (65 ≤ c && c ≤ 90) || (97 ≤ c && c ≤ 122) || (48 ≤ c && c ≤ 57) || c == 45 || c == 95 ||
    c == 46 || c == 126 || c == 32

/-- Modelled from the spec: `base64.StdEncoding.EncodedLen` of the Go standard
library, which is not part of the sources: the length of the padded base64
encoding of `n` bytes, four bytes for every group of up to three. -/
def encodedLen (n : Nat) : Nat := (n + 2) / 3 * 4

/-- The base64 alphabet `A-Z`, `a-z`, `0-9`, `+`, `/`: the byte that stands
for the six-bit value `n`. -/
def b64Char (n : Nat) : Nat :=
  if n < 26 then 65 + n else if n < 52 then 71 + n else if n < 62 then n - 4
  else if n = 62 then 43 else 47

/-- Modelled from the spec: `base64.StdEncoding.Encode` of the Go standard
library, which is not part of the sources: the standard base64 encoding
(RFC 4648) with `=` padding.  The result is the content of the destination
slice, which `DataURI` allocates with the encoded length. -/
def base64Encode : List Nat → List Nat
  | [] => []
  | [a] => [b64Char (a / 4), b64Char (a % 4 * 16), 61, 61]
  | [a, b] => [b64Char (a / 4), b64Char (a % 4 * 16 + b / 16), b64Char (b % 16 * 4), 61]
  | a :: b :: c :: rest =>
    b64Char (a / 4) :: b64Char (a % 4 * 16 + b / 16) :: b64Char (b % 16 * 4 + c / 64) ::
      b64Char (c % 64) :: base64Encode rest

/-- The upper-case hexadecimal digit of a value below sixteen. -/
def hexDigit (n : Nat) : Nat := if n < 10 then 48 + n else 55 + n

/-- The bytes that `url.QueryEscape` leaves as they are: the ASCII letters and
digits, `-`, `_`, `.` and `~`. -/
def isPlain (c : Nat) : Bool :=
  (65 ≤ c && c ≤ 90) || (97 ≤ c && c ≤ 122) || (48 ≤ c && c ≤ 57) || c == 45 || c == 95 ||
    c == 46 || c == 126

/-- Modelled from the spec: `url.QueryEscape` of the Go standard library, which
is not part of the sources: a space becomes `+`, the letters, digits, `-`, `_`,
`.` and `~` stay, and every other byte becomes `%` and its two upper-case
hexadecimal digits. -/
def queryEscape : List Nat → List Nat
  | [] => []
  | c :: cs =>
    (if c = 32 then [43] else if isPlain c then [c]
      else [37, hexDigit (c / 16), hexDigit (c % 16)]) ++ queryEscape cs

/-- The call of `bytes.Replace` of line 66: every double quote is replaced by a
backslash and a double quote. -/
def escapeQuotes : List Nat → List Nat
  | [] => []
  | c :: cs => if c = 34 then 92 :: 34 :: escapeQuotes cs else c :: escapeQuotes cs

/-- The test `bytes.HasPrefix(b, p)`. -/
def startsWith : List Nat → List Nat → Bool
  | _, [] => true
  | [], _ :: _ => false
  | c :: cs, p :: ps => c == p && startsWith cs ps

/-- The cost loop of lines 49-58 with its `break`: the value of `asciiLen`
after the loop.  The lengths of a slice and the two estimates are far below
the range of `int`, so they are natural numbers here. -/
def costLoop (base64Len : Nat) : List Nat → Nat → Nat
  | [], asciiLen => asciiLen
  | c :: cs, asciiLen =>
    let asciiLen1 := if isUnreserved c then asciiLen + 1 else asciiLen + 2
    if asciiLen1 > base64Len then asciiLen1 else costLoop base64Len cs asciiLen1

/-- The cost loop without the `break`: a full scan of the payload. -/
def costLoopFull : List Nat → Nat → Nat
  | [], asciiLen => asciiLen
  | c :: cs, asciiLen => costLoopFull cs (if isUnreserved c then asciiLen + 1 else asciiLen + 2)

/-- Lines 68-70: a mediatype that begins with `text/plain` loses these ten
bytes. -/
def compactMediatype (mediatype : List Nat) : List Nat :=
  if mediatype.length ≥ (bytes "text/plain").length ∧
      startsWith mediatype (bytes "text/plain") = true
  then mediatype.drop (bytes "text/plain").length else mediatype

/-- The function `DataURI`, with the parser `parse.DataURI` and the dispatch
`Bytes(m, mediatype, data)` as parameters (`none` from the parser is its
error).  The second component of the result lists the calls of the dispatch
function, with their arguments. -/
def DataURIWith (parseDataURI : List Nat → Option (List Nat × List Nat))
    (m : List Nat → List Nat → List Nat) (dataURI : List Nat) :
    List Nat × List (List Nat × List Nat) :=
  match parseDataURI dataURI with
  | some (mediatype, data) =>
    let dataURI1 := m mediatype data
    let base64Len := (bytes ";base64").length + encodedLen dataURI1.length
    let asciiLen := costLoop base64Len dataURI1 dataURI1.length
    let enc : List Nat × List Nat :=
      if asciiLen > base64Len then (base64Encode dataURI1, mediatype ++ bytes ";base64")
      else (escapeQuotes (queryEscape dataURI1), mediatype)
    (bytes "data:" ++ compactMediatype enc.2 ++ [44] ++ enc.1, [(mediatype, data)])
  | none => (dataURI, [])

/-- The call `Trim(b, IsWhitespace)` of the parser: `b` without the whitespace
at its two ends. -/
def trimWhitespace (b : List Nat) : List Nat :=
  ((b.dropWhile isWhitespace).reverse.dropWhile isWhitespace).reverse

/-- The six-bit value of a byte of the base64 alphabet. -/
def b64Val (c : Nat) : Option Nat :=
  if 65 ≤ c ∧ c ≤ 90 then some (c - 65) else if 97 ≤ c ∧ c ≤ 122 then some (c - 71)
  else if 48 ≤ c ∧ c ≤ 57 then some (c + 4) else if c = 43 then some 62
  else if c = 47 then some 63 else none

/-- The decoding of padded base64 text, four bytes at a time; `none` is
corrupt input. -/
def base64Quanta : List Nat → Option (List Nat)
  | [] => some []
  | a :: b :: c :: d :: rest =>
    if c = 61 ∧ d = 61 ∧ rest = [] then
      (b64Val a).bind fun x => (b64Val b).bind fun y => some [x * 4 + y / 16]
    else if d = 61 ∧ rest = [] then
      (b64Val a).bind fun x => (b64Val b).bind fun y => (b64Val c).bind fun z =>
        some [x * 4 + y / 16, y % 16 * 16 + z / 4]
    else
      (b64Val a).bind fun x => (b64Val b).bind fun y => (b64Val c).bind fun z =>
        (b64Val d).bind fun w => (base64Quanta rest).map fun r =>
          (x * 4 + y / 16) :: (y % 16 * 16 + z / 4) :: (z % 4 * 64 + w) :: r
  | _ => none

/-- Modelled from the spec: `base64.StdEncoding.Decode` of the Go standard
library, which is not part of the sources: carriage returns and newlines are
skipped, the rest is decoded as padded standard base64, and `none` is the
error for corrupt input. -/
def base64Decode (src : List Nat) : Option (List Nat) :=
  base64Quanta (src.filter fun c => !(c == 13 || c == 10))

/-- The value of a hexadecimal digit, of either case. -/
def hexVal (c : Nat) : Option Nat :=
  if 48 ≤ c ∧ c ≤ 57 then some (c - 48) else if 65 ≤ c ∧ c ≤ 70 then some (c - 55)
  else if 97 ≤ c ∧ c ≤ 102 then some (c - 87) else none

/-- Modelled from the spec: `url.QueryUnescape` of the Go standard library,
which is not part of the sources: `+` becomes a space, `%` and two hexadecimal
digits become the byte they denote, and `none` is the error for a `%` that is
not followed by two hexadecimal digits. -/
def queryUnescape : List Nat → Option (List Nat)
  | [] => some []
  | c :: cs =>
    if c = 37 then
      match cs with
      | h :: l :: rest =>
        (hexVal h).bind fun x => (hexVal l).bind fun y =>
          (queryUnescape rest).map fun r => (16 * x + y) :: r
      | _ => none
    else (queryUnescape cs).map fun r => (if c = 43 then 32 else c) :: r

/-- The return of the parser at the comma: an empty mediatype, or one that
begins with `;`, is `text/plain`; the data are decoded from base64 when the
marker was seen (corrupt input is the error), and query-unescaped otherwise
(left as they are when that fails). -/
def finishURI (inBase64 : Bool) (mediatype data : List Nat) : Option (List Nat × List Nat) :=
  let mediatype1 := if mediatype = [] ∨ mediatype.head? = some 59 then bytes "text/plain"
    else mediatype
  if inBase64 then (base64Decode data).map fun d => (mediatype1, d)
  else some (mediatype1, (queryUnescape data).getD data)

/-- The loop of the parser over the bytes after `data:`.  `seg` holds the bytes
since the last separator.  At `=`, `;` and `,` the trimmed segment is added to
the mediatype, except that a segment `base64` before `;` or `,` sets the
base64 marker, takes the last byte from the mediatype and lets the next
segment begin at the separator.  The loop returns at the first comma; the end
of the input without a comma is the error. -/
def scanURI : List Nat → Bool → List Nat → List Nat → Option (List Nat × List Nat)
  | [], _, _, _ => none
  | c :: rest, inBase64, mediatype, seg =>
    if c = 61 ∨ c = 59 ∨ c = 44 then
      if c ≠ 61 ∧ trimWhitespace seg = bytes "base64" then
        if c = 44 then finishURI true mediatype.dropLast rest
        else scanURI rest true mediatype.dropLast [c]
      else if c ≠ 44 then scanURI rest inBase64 (mediatype ++ trimWhitespace seg ++ [c]) []
      else finishURI inBase64 (mediatype ++ trimWhitespace seg) rest
    else scanURI rest inBase64 mediatype (seg ++ [c])

/-- Modelled from the spec: `parse.DataURI` of the package
`github.com/tdewolff/parse`, which is not part of the sources; the
specification only calls it the external parser that decomposes a data URI
into mediatype and payload.  The model follows that library: the input must
be longer than five bytes and begin with `data:`; the mediatype is read up to
the first comma, the payload is what follows it.  `none` is the error. -/
def parseDataURI (dataURI : List Nat) : Option (List Nat × List Nat) :=
  if dataURI.length > 5 ∧ dataURI.take 5 = bytes "data:" then
    scanURI (dataURI.drop 5) false [] []
  else none

/-- The function `DataURI` with the modelled parser; the dispatch function is
the parameter `m`. -/
def DataURI (m : List Nat → List Nat → List Nat) (dataURI : List Nat) : List Nat :=
  (DataURIWith parseDataURI m dataURI).1

/-- The dispatch function that returns the payload as it is. -/
def identityDispatch (_ : List Nat) (data : List Nat) : List Nat := data

/-- The base64 form of the output: `;base64` is appended to the mediatype and
the payload is base64. -/
def base64Form (mediatype p : List Nat) : List Nat :=
  bytes "data:" ++ compactMediatype (mediatype ++ bytes ";base64") ++ [44] ++ base64Encode p

/-- The percent-escaped form of the output. -/
def percentForm (mediatype p : List Nat) : List Nat :=
  bytes "data:" ++ compactMediatype mediatype ++ [44] ++ escapeQuotes (queryEscape p)

/-- The percent-escape estimate in the words of the specification: the sum
over the bytes of the payload of 1 for an unreserved byte and 2 for any
other byte. -/
def escapeEstimate (p : List Nat) : Nat := (p.map fun c => if isUnreserved c then 1 else 2).sum

/-- The length of the percent-escaped payload: 1 for an unreserved byte, 3 for
any other byte. -/
def escapedLen (p : List Nat) : Nat := (p.map fun c => if isUnreserved c then 1 else 3).sum

/-- The `-` of a negative literal: `[45]` when the byte sequence begins with
`-`, nothing otherwise. -/
def minusOf (s : List Nat) : List Nat := if s.head? = some 45 then [45] else []

/-- Whether the parser finds the base64 marker in a mediatype that is followed
by the comma: `seg` holds the bytes since the last separator, and a segment
that is `base64` after trimming, before `;` or before the comma, is the
marker. -/
def hasMarker : List Nat → List Nat → Bool
  | [], seg => decide (trimWhitespace seg = bytes "base64")
  | c :: rest, seg =>
    if c = 61 then hasMarker rest []
    else if c = 59 then decide (trimWhitespace seg = bytes "base64") || hasMarker rest []
    else hasMarker rest (seg ++ [c])

/-! ## Basic facts about the buffer operations -/

theorem getB_append_right (pre rest : List Nat) (k : Nat) :
    getB (pre ++ rest) ((pre.length : Int) + k) = rest.get? k := by
  unfold getB
  have h : (0 : Int) ≤ (pre.length : Int) + k := by omega
  have h2 : ((pre.length : Int) + k).toNat = pre.length + k := by omega
  rw [if_pos h, h2]
  simp [List.getElem?_append_right]

theorem drop_append_toNat (pre rest : List Nat) (k : Nat) :
    (pre ++ rest).drop ((pre.length : Int) + k).toNat = rest.drop k := by
  have h2 : ((pre.length : Int) + k).toNat = pre.length + k := by omega
  rw [h2, List.drop_append]

/-! ## The fail-soft return -/

theorem scanLoop_failSoft (pInt : List Nat → Option Int) (p : List Nat)
    (hp : pInt p = none) :
    ∀ (rest pre : List Nat) (dot end_ : Int), expPortion rest = some p →
      scanLoop pInt (pre ++ rest) rest pre.length dot end_ = ScanOut.ret := by
  intro rest
  induction rest with
  | nil => intro pre dot end_ h; simp [expPortion] at h
  | cons c rest ih =>
    intro pre dot end_ h
    unfold scanLoop
    by_cases hc : c = 101 ∨ c = 69
    · have h46 : c ≠ 46 := by omega
      rw [if_neg h46, if_pos hc]
      have hdw : (c :: rest).dropWhile (fun c => !(c == 101 || c == 69)) = c :: rest := by
        rcases hc with hc | hc <;> subst hc <;> simp [List.dropWhile]
      have hg : getB (pre ++ c :: rest) ((pre.length : Int) + 1) = rest.head? := by
        have := getB_append_right pre (c :: rest) 1
        simpa [List.head?_eq_getElem?] using this
      have hd1 : (pre ++ c :: rest).drop ((pre.length : Int) + 1).toNat = rest := by
        have := drop_append_toNat pre (c :: rest) 1
        simpa using this
      have hd2 : (pre ++ c :: rest).drop ((pre.length : Int) + 2).toNat = rest.tail := by
        have := drop_append_toNat pre (c :: rest) 2
        simpa using this
      simp only [expPortion, hdw, Option.some.injEq] at h
      simp only [hg]
      by_cases hh : rest.head? = some 43
      · rw [if_pos hh] at h ⊢
        rw [hd2, h, hp]
      · rw [if_neg hh] at h ⊢
        rw [hd1, h, hp]
    · have hdw : (c :: rest).dropWhile (fun c => !(c == 101 || c == 69)) =
          rest.dropWhile (fun c => !(c == 101 || c == 69)) := by
        have : ¬ (c = 101) ∧ ¬ (c = 69) := by omega
        apply List.dropWhile_cons_of_pos
        simp [this.1, this.2]
      have h2 : expPortion rest = some p := by
        unfold expPortion at h ⊢
        rw [hdw] at h
        exact h
      have ih2 := fun d => ih (pre ++ [c]) d end_ h2
      have hlen : ((pre ++ [c]).length : Int) = (pre.length : Int) + 1 := by simp
      simp only [List.append_assoc, List.singleton_append, hlen] at ih2
      rw [if_neg hc]
      by_cases h46 : c = 46
      · rw [if_pos h46]; exact ih2 _
      · rw [if_neg h46]; exact ih2 _

/-- Claim C10, as amended: whatever `parse.Int` is, when it reports failure on
the exponent portion of the input, `Number` returns the input without its
leading `+` if it has one, and the input unchanged otherwise. -/
theorem Number_failSoft (pInt : List Nat → Option Int) (lg : Int → Int) (num p : List Nat)
    (h : expPortion (dropPlus num) = some p) (hp : pInt p = none) :
    NumberWith pInt lg num = some (dropPlus num) := by
  have hs := scanLoop_failSoft pInt p hp (dropPlus num) [] (-1) (dropPlus num).length h
  simp only [List.nil_append, List.length_nil, Int.Nat.cast_ofNat_Int] at hs
  unfold NumberWith
  simp only []
  unfold dropPlus at hs ⊢
  rw [hs]

/-- The fail-soft return at a concrete input: the exponent of `+1e99999999999999999999`
does not fit, and the result is the input without its `+`. -/
theorem Number_failSoft_witness :
    expPortion (dropPlus (bytes "+1e99999999999999999999")) = some (bytes "99999999999999999999") ∧
    parseInt (bytes "99999999999999999999") = none ∧
    NumberWith parseInt intLog10 (bytes "+1e99999999999999999999")
      = some (bytes "1e99999999999999999999") :=
  ⟨by decide, by decide,
    Number_failSoft parseInt intLog10 (bytes "+1e99999999999999999999")
      (bytes "99999999999999999999")
      (by decide) (by decide)⟩

/-- Claim C10 as stated fails: on `+1e99999999999999999999` the exponent portion
is rejected by `parse.Int`, and the result is not the input. -/
theorem Number_failSoft_plus_changed :
    ¬ (parseInt (bytes "99999999999999999999") = none →
        Number (bytes "+1e99999999999999999999") = some (bytes "+1e99999999999999999999")) := by
  decide

/-! ## Concrete literals -/

/-- Claim C9, as amended: `Number` maps "100" to "100", "1200" to "1200" and
"0.001" to ".001"; none of them is put in scientific form, since the exponents
2 and -3 (relative exponent -2) lie on the fixed-point side of the thresholds. -/
theorem Number_examples_fixed :
    Number (bytes "100") = some (bytes "100") ∧
    Number (bytes "1200") = some (bytes "1200") ∧
    Number (bytes "0.001") = some (bytes ".001") := by
  decide

/-- Claim C9 as stated fails: `Number` maps none of "100", "1200" and "0.001"
to the scientific forms "1e2", "12e2" and "1e-3". -/
theorem Number_examples_not_scientific :
    Number (bytes "100") ≠ some (bytes "1e2") ∧
    Number (bytes "1200") ≠ some (bytes "12e2") ∧
    Number (bytes "0.001") ≠ some (bytes "1e-3") := by
  decide

theorem getB_mid (pre : List Nat) (c : Nat) (rest : List Nat) (i : Int)
    (hi : i = pre.length) : getB (pre ++ c :: rest) i = some c := by
  subst hi
  have := getB_append_right pre (c :: rest) 0
  simpa using this

theorem getB_none (num : List Nat) (i : Int) (h : (num.length : Int) ≤ i) :
    getB num i = none := by
  unfold getB
  have h0 : (0 : Int) ≤ i := by omega
  rw [if_pos h0]
  apply List.get?_eq_none.mpr
  omega

theorem setB_mid (pre : List Nat) (c : Nat) (rest : List Nat) (i : Int) (v : Nat)
    (hi : i = pre.length) : setB (pre ++ c :: rest) i v = some (pre ++ v :: rest) := by
  subst hi
  unfold setB
  have h : (0 : Int) ≤ (pre.length : Int) ∧
      (pre.length : Int) < ((pre ++ c :: rest).length : Int) := by
    simp
  rw [if_pos h]
  simp

theorem setB_none (num : List Nat) (i : Int) (v : Nat) (h : (num.length : Int) ≤ i) :
    setB num i v = none := by
  unfold setB
  rw [if_neg]
  omega

theorem setB_length (num num1 : List Nat) (i : Int) (v : Nat)
    (h : setB num i v = some num1) : num1.length = num.length := by
  unfold setB at h
  split at h
  · cases h; simp
  · cases h

theorem slice_mid (pre m post : List Nat) (lo hi : Int) (hlo : lo = pre.length)
    (hhi : hi = (pre.length : Int) + m.length) :
    slice (pre ++ (m ++ post)) lo hi = some m := by
  subst hlo hhi
  unfold slice
  have h : (0 : Int) ≤ (pre.length : Int) ∧
      (pre.length : Int) ≤ (pre.length : Int) + m.length ∧
      (pre.length : Int) + m.length ≤ ((pre ++ (m ++ post)).length : Int) := by
    simp
  rw [if_pos h]
  have h2 : ((pre.length : Int) + m.length - pre.length).toNat = m.length := by omega
  simp [h2]

theorem slice_none (num : List Nat) (lo hi : Int) (h : (num.length : Int) < hi) :
    slice num lo hi = none := by
  unfold slice
  rw [if_neg]
  omega

theorem copyAt_mid (pre x post src : List Nat) (d : Int) (hd : d = pre.length)
    (hx : x.length = src.length) :
    copyAt (pre ++ (x ++ post)) d src = some (pre ++ (src ++ post)) := by
  subst hd
  unfold copyAt
  have h : (0 : Int) ≤ (pre.length : Int) ∧
      (pre.length : Int) ≤ ((pre ++ (x ++ post)).length : Int) := by
    simp; omega
  rw [if_pos h]
  have hmin : min ((pre ++ (x ++ post)).length - pre.length) src.length
      = src.length := by
    simp; omega
  simp only [Int.toNat_ofNat, hmin]
  rw [List.take_left, List.take_of_length_le (le_refl _)]
  have : pre.length + src.length = (pre ++ x).length := by simp [hx]
  rw [this, ← List.append_assoc pre x post, List.drop_left]
  simp

theorem copyAt_length (num num1 src : List Nat) (d : Int)
    (h : copyAt num d src = some num1) : num1.length = num.length := by
  unfold copyAt at h
  split at h
  · rename_i hd
    cases h
    simp only [List.length_append, List.length_take, List.length_drop]
    have : (d.toNat : Int) = d := by omega
    omega
  · cases h

theorem lowDigits_length (n x : Nat) : (lowDigits n x).length = n := by
  induction n generalizing x with
  | zero => rfl
  | succ n ih => simp [lowDigits, ih]

theorem lowDigits_digits (x : Nat) : lowDigits (Nat.digits 10 x).length x = expDigits x := by
  induction x using Nat.strong_induction_on with
  | _ x ih =>
    by_cases hx : x = 0
    · subst hx; simp [lowDigits, expDigits]
    · have hpos : 0 < x := Nat.pos_of_ne_zero hx
      have hd := Nat.digits_def' (by norm_num : 1 < 10) hpos
      have hlt : x / 10 < x := Nat.div_lt_self hpos (by norm_num)
      have := ih (x / 10) hlt
      rw [expDigits, hd]
      simp only [List.length_cons, lowDigits, this, expDigits, List.reverse_cons,
        List.map_append, List.map_cons, List.map_nil]

theorem log10Loop_digits (fuel x : Nat) (hx : 0 < x) (hf : x < 10 ^ fuel) :
    log10Loop fuel x + 1 = (Nat.digits 10 x).length := by
  induction fuel generalizing x with
  | zero => simp at hf; omega
  | succ f ih =>
    have hd := Nat.digits_def' (by norm_num : 1 < 10) hx
    unfold log10Loop
    by_cases h10 : x < 10
    · rw [if_pos h10, hd]
      have : x / 10 = 0 := by omega
      simp [this]
    · rw [if_neg h10, hd]
      have h1 : 0 < x / 10 := by omega
      have h2 : x / 10 < 10 ^ f := by
        rw [pow_succ] at hf
        omega
      rw [ih (x / 10) h1 h2]
      simp

theorem intLog10_digits (x : Nat) (hx : 0 < x) (hf : x < 2 ^ 63) :
    intLog10 (x : Int) + 1 = ((Nat.digits 10 x).length : Int) := by
  unfold intLog10
  have h : (0 : Int) < (x : Int) := by omega
  rw [if_pos h]
  have h2 : x < 10 ^ 20 := by
    have : (2 : Nat) ^ 63 < 10 ^ 20 := by norm_num
    omega
  have := log10Loop_digits 20 x hx h2
  simp only [Int.toNat_ofNat]
  omega

theorem digitByte_nat (x : Nat) : digitByte (x : Int) = x % 10 + 48 := by
  unfold digitByte
  have h : Int.tmod (x : Int) 10 = ((x % 10 : Nat) : Int) := by
    rw [Int.ofNat_tmod]; rfl
  rw [h]
  omega

theorem tdiv_nat (x : Nat) : Int.tdiv (x : Int) 10 = ((x / 10 : Nat) : Int) := by
  rw [Int.ofNat_tdiv]; rfl

theorem writeExp_eq (n : Nat) : ∀ (x : Nat) (A X B : List Nat) (fuel : Nat) (i end_ : Int),
    X.length = n → end_ = A.length → i = (A.length : Int) + n - 1 → n < fuel →
    writeExp end_ fuel (A ++ (X ++ B)) i (x : Int) = some (A ++ (lowDigits n x ++ B)) := by
  induction n with
  | zero =>
    intro x A X B fuel i end_ hX hE hi hf
    have : X = [] := List.length_eq_zero.mp hX
    subst this
    obtain ⟨f, rfl⟩ : ∃ f, fuel = f + 1 := ⟨fuel - 1, by omega⟩
    unfold writeExp
    rw [if_neg (by omega)]
    simp [lowDigits]
  | succ n ih =>
    intro x A X B fuel i end_ hX hE hi hf
    obtain ⟨f, rfl⟩ : ∃ f, fuel = f + 1 := ⟨fuel - 1, by omega⟩
    have hne : X ≠ [] := by intro h; simp [h] at hX
    obtain ⟨X1, c, rfl⟩ : ∃ X1 c, X = X1 ++ [c] :=
      ⟨X.dropLast, X.getLast hne, (List.dropLast_append_getLast hne).symm⟩
    have hX1 : X1.length = n := by simpa using hX
    unfold writeExp
    rw [if_pos (by push_cast at hi; omega)]
    have hs : setB (A ++ (X1 ++ [c] ++ B)) i (digitByte (x : Int)) =
        some ((A ++ X1) ++ digitByte (x : Int) :: B) := by
      have := setB_mid (A ++ X1) c B i (digitByte (x : Int))
        (by simp only [List.length_append]; push_cast at hi ⊢; omega)
      simpa using this
    rw [hs]
    simp only []
    rw [tdiv_nat, digitByte_nat]
    have := ih (x / 10) A X1 ((x % 10 + 48) :: B) f (i - 1) end_ hX1 hE
      (by push_cast at hi; omega) (by omega)
    simp only [List.append_assoc] at this ⊢
    rw [this]
    simp [lowDigits]

theorem writeExp_length (end_ : Int) : ∀ (fuel : Nat) (num num1 : List Nat) (i x : Int),
    writeExp end_ fuel num i x = some num1 → num1.length = num.length := by
  intro fuel
  induction fuel with
  | zero => intro num num1 i x h; simp [writeExp] at h
  | succ f ih =>
    intro num num1 i x h
    unfold writeExp at h
    split at h
    · split at h
      · cases h
      · rename_i num2 hs
        rw [ih _ _ _ _ h, setB_length _ _ _ _ hs]
    · cases h; rfl

theorem padZeros_length (start bound : Int) : ∀ (fuel : Nat) (num num1 : List Nat) (i : Int),
    padZeros start bound fuel num i = some num1 → num1.length = num.length := by
  intro fuel
  induction fuel with
  | zero => intro num num1 i h; simp [padZeros] at h
  | succ f ih =>
    intro num num1 i h
    unfold padZeros at h
    split at h
    · split at h
      · cases h
      · rename_i num2 hs
        rw [ih _ _ _ h, setB_length _ _ _ _ hs]
    · cases h; rfl

theorem padZeros_eq : ∀ (X A B : List Nat) (fuel : Nat) (start bound i : Int),
    start + i = A.length → bound = i + X.length → X.length < fuel →
    padZeros start bound fuel (A ++ (X ++ B)) i = some (A ++ (zeros X.length ++ B)) := by
  intro X
  induction X with
  | nil =>
    intro A B fuel start bound i hA hb hf
    obtain ⟨f, rfl⟩ : ∃ f, fuel = f + 1 := ⟨fuel - 1, by omega⟩
    unfold padZeros
    rw [if_neg (by simp at hb; omega)]
    simp [zeros]
  | cons c X ih =>
    intro A B fuel start bound i hA hb hf
    obtain ⟨f, rfl⟩ : ∃ f, fuel = f + 1 := ⟨fuel - 1, by omega⟩
    unfold padZeros
    rw [if_pos (by simp at hb; omega)]
    have hs := setB_mid A c (X ++ B) (start + i) 48 hA
    simp only [List.cons_append] at hs ⊢
    rw [hs]
    simp only []
    have := ih (A ++ [48]) B f start bound (i + 1) (by simp; omega)
      (by simp at hb ⊢; omega) (by simp at hf; omega)
    simp only [List.append_assoc, List.singleton_append] at this
    rw [this]
    simp [zeros, List.replicate_succ]

theorem wrap64_id (x : Int) (h1 : -(2 ^ 63) ≤ x) (h2 : x < 2 ^ 63) : wrap64 x = x := by
  unfold wrap64
  omega

theorem finish_eq (P out J : List Nat) (neg : Bool) (start end_ : Int)
    (hs : start = P.length) (hE : end_ = (P.length : Int) + out.length)
    (hneg : neg = true → P ≠ []) :
    finish (P ++ (out ++ J)) neg start end_ = some (signBytes neg ++ out) := by
  unfold finish signBytes
  cases neg with
  | false =>
    simp only [Bool.false_eq_true, if_false]
    rw [slice_mid P out J start end_ hs hE]
    simp
  | true =>
    simp only [if_true]
    have hne := hneg rfl
    obtain ⟨P1, c, rfl⟩ : ∃ P1 c, P = P1 ++ [c] :=
      ⟨P.dropLast, P.getLast hne, (List.dropLast_append_getLast hne).symm⟩
    have h1 : setB (P1 ++ [c] ++ (out ++ J)) (start - 1) 45 = some (P1 ++ 45 :: (out ++ J)) := by
      have := setB_mid P1 c (out ++ J) (start - 1) 45 (by simp at hs; omega)
      simpa using this
    rw [h1]
    simp only []
    have h2 := slice_mid P1 (45 :: out) J (start - 1) end_ (by simp at hs; omega)
      (by simp at hE ⊢; omega)
    simp only [List.cons_append] at h2
    rw [h2]
    simp

theorem finish_none (num : List Nat) (neg : Bool) (start end_ : Int)
    (h : (num.length : Int) < end_) : finish num neg start end_ = none := by
  unfold finish
  cases neg with
  | false => simp only [Bool.false_eq_true, if_false]; exact slice_none _ _ _ h
  | true =>
    simp only [if_true]
    split
    · rfl
    · rename_i num1 hs
      apply slice_none
      rw [setB_length _ _ _ _ hs]; exact h

theorem writeExp_none (end_ : Int) (fuel : Nat) (num : List Nat) (i x : Int)
    (h1 : end_ ≤ i) (h2 : (num.length : Int) ≤ i) :
    writeExp end_ fuel num i x = none := by
  cases fuel with
  | zero => rfl
  | succ f =>
    unfold writeExp
    rw [if_pos h1, setB_none _ _ _ h2]

theorem expDigits_length_pos (x : Nat) (hx : 0 < x) : 0 < (expDigits x).length := by
  unfold expDigits
  rw [Nat.digits_def' (by norm_num) hx]
  simp

theorem expDigits_length (x : Nat) : (expDigits x).length = (Nat.digits 10 x).length := by
  simp [expDigits]

theorem writeDigits_eq (P out X B : List Nat) (neg : Bool) (start end_ : Int) (x : Nat)
    (hx : 0 < x) (hx2 : x < 2 ^ 63)
    (hs : start = P.length) (hE : end_ = (P.length : Int) + out.length)
    (hX : X.length = (expDigits x).length) (hneg : neg = true → P ≠ []) :
    writeDigits intLog10 (P ++ (out ++ (X ++ B))) neg start end_ (x : Int) =
      some (signBytes neg ++ (out ++ expDigits x)) := by
  unfold writeDigits
  simp only []
  rw [intLog10_digits x hx hx2]
  rw [expDigits_length] at hX
  have hw := writeExp_eq (Nat.digits 10 x).length x (P ++ out) X B
    ((Nat.digits 10 x).length + 1) (end_ + ((Nat.digits 10 x).length : Int) - 1) end_
    hX (by simp; omega) (by simp; omega) (by omega)
  simp only [List.append_assoc, Int.toNat_ofNat] at hw ⊢
  rw [hw, lowDigits_digits]
  simp only []
  have := finish_eq P (out ++ expDigits x) B neg start
    (end_ + ((Nat.digits 10 x).length : Int)) hs
    (by simp [expDigits_length]; omega) hneg
  simpa using this

theorem writeDigits_none (num : List Nat) (neg : Bool) (start end_ : Int) (x : Nat)
    (hx : 0 < x) (hx2 : x < 2 ^ 63)
    (h : (num.length : Int) < end_ + (expDigits x).length) :
    writeDigits intLog10 num neg start end_ (x : Int) = none := by
  unfold writeDigits
  simp only []
  rw [intLog10_digits x hx hx2]
  rw [expDigits_length] at h
  have hp := expDigits_length_pos x hx
  rw [expDigits_length] at hp
  rw [writeExp_none]
  · omega
  · omega

theorem emitSci_eq (P m X B : List Nat) (neg : Bool) (start end_ e : Int)
    (he0 : e ≠ 0) (he1 : -(2 ^ 63) < e) (he2 : e < 2 ^ 63)
    (hs : start = P.length) (hE : end_ = (P.length : Int) + m.length)
    (hX : X.length = 1 + (if e < 0 then [45] else []).length + (expDigits e.natAbs).length)
    (hneg : neg = true → P ≠ []) :
    emitSci intLog10 (P ++ (m ++ (X ++ B))) neg start end_ e =
      some (signBytes neg ++ (m ++ 101 :: ((if e < 0 then [45] else []) ++ expDigits e.natAbs))) := by
  unfold emitSci
  obtain ⟨c, X1, rfl⟩ : ∃ c X1, X = c :: X1 := by
    cases X with
    | nil => simp at hX; omega
    | cons c X1 => exact ⟨c, X1, rfl⟩
  have h1 : setB (P ++ (m ++ (c :: X1 ++ B))) end_ 101 = some (P ++ (m ++ 101 :: (X1 ++ B))) := by
    have := setB_mid (P ++ m) c (X1 ++ B) end_ 101 (by simp; omega)
    simpa using this
  rw [h1]
  simp only []
  have hpos : 0 < e.natAbs := by omega
  have hlt : e.natAbs < 2 ^ 63 := by omega
  by_cases hneg0 : e < 0
  · rw [if_pos hneg0] at hX ⊢
    rw [if_pos hneg0]
    obtain ⟨c2, X2, rfl⟩ : ∃ c X2, X1 = c :: X2 := by
      cases X1 with
      | nil => simp at hX; have := expDigits_length_pos _ hpos; omega
      | cons c X2 => exact ⟨c, X2, rfl⟩
    have h2 : setB (P ++ (m ++ 101 :: (c2 :: X2 ++ B))) (end_ + 1) 45 =
        some (P ++ (m ++ 101 :: 45 :: (X2 ++ B))) := by
      have := setB_mid (P ++ (m ++ [101])) c2 (X2 ++ B) (end_ + 1) 45 (by simp; omega)
      simpa using this
    rw [h2]
    simp only []
    have hw : wrap64 (-e) = (e.natAbs : Int) := by
      rw [wrap64_id _ (by omega) (by omega)]; omega
    rw [hw]
    have := writeDigits_eq P (m ++ [101, 45]) X2 B neg start (end_ + 1 + 1) e.natAbs hpos hlt hs
      (by simp; omega) (by simp at hX; omega) hneg
    simpa using this
  · rw [if_neg hneg0] at hX ⊢
    rw [if_neg hneg0]
    obtain ⟨n, rfl⟩ : ∃ n : Nat, e = (n : Int) := ⟨e.toNat, by omega⟩
    simp only [Int.natAbs_ofNat] at hX hpos hlt ⊢
    have := writeDigits_eq P (m ++ [101]) X1 B neg start (end_ + 1) n hpos hlt hs
      (by simp; omega) (by simp at hX; omega) hneg
    simpa using this

theorem emitSci_none (num : List Nat) (neg : Bool) (start end_ e : Int)
    (he0 : e ≠ 0) (he1 : -(2 ^ 63) < e) (he2 : e < 2 ^ 63)
    (h : (num.length : Int) <
      end_ + 1 + (if e < 0 then [45] else []).length + (expDigits e.natAbs).length) :
    emitSci intLog10 num neg start end_ e = none := by
  unfold emitSci
  have hpos : 0 < e.natAbs := by omega
  have hlt : e.natAbs < 2 ^ 63 := by omega
  split
  · rfl
  · rename_i num1 hs1
    have hl1 := setB_length _ _ _ _ hs1
    by_cases hneg0 : e < 0
    · rw [if_pos hneg0] at h ⊢
      split
      · rfl
      · rename_i num2 hs2
        have hl2 := setB_length _ _ _ _ hs2
        have hw : wrap64 (-e) = (e.natAbs : Int) := by
          rw [wrap64_id _ (by omega) (by omega)]; omega
        rw [hw]
        apply writeDigits_none _ _ _ _ _ hpos hlt
        simp at h
        omega
    · rw [if_neg hneg0] at h ⊢
      obtain ⟨n, rfl⟩ : ∃ n : Nat, e = (n : Int) := ⟨e.toNat, by omega⟩
      simp only [Int.natAbs_ofNat] at h hpos hlt ⊢
      apply writeDigits_none _ _ _ _ _ hpos hlt
      simp only [List.length_nil, Nat.cast_zero, add_zero] at h
      omega

theorem emitPoint_eq (P m1 m2 B : List Nat) (c : Nat) (neg : Bool) (start end_ relExp : Int)
    (hs : start = P.length) (hE : end_ = (P.length : Int) + (m1.length + m2.length))
    (hr : relExp = m1.length) (hm2 : m2 ≠ [])
    (hneg : neg = true → P ≠ []) :
    emitPoint (P ++ (m1 ++ m2 ++ c :: B)) neg start end_ relExp =
      some (signBytes neg ++ (m1 ++ 46 :: m2)) := by
  unfold emitPoint
  have h1 : slice (P ++ (m1 ++ m2 ++ c :: B)) (start + relExp) end_ = some m2 := by
    have := slice_mid (P ++ m1) m2 (c :: B) (start + relExp) end_ (by simp; omega)
      (by simp; omega)
    simpa using this
  rw [h1]
  simp only []
  obtain ⟨h, t, rfl⟩ : ∃ h t, m2 = h :: t := by
    cases m2 with
    | nil => exact absurd rfl hm2
    | cons h t => exact ⟨h, t, rfl⟩
  have h2 : copyAt (P ++ (m1 ++ h :: t ++ c :: B)) (start + relExp + 1) (h :: t) =
      some (P ++ (m1 ++ h :: h :: t ++ B)) := by
    have := copyAt_mid (P ++ (m1 ++ [h])) (t ++ [c]) B (h :: t) (start + relExp + 1)
      (by simp; omega) (by simp)
    simpa using this
  rw [h2]
  simp only []
  have h3 : setB (P ++ (m1 ++ h :: h :: t ++ B)) (start + relExp) 46 =
      some (P ++ (m1 ++ 46 :: h :: t ++ B)) := by
    have := setB_mid (P ++ m1) h (h :: t ++ B) (start + relExp) 46 (by simp; omega)
    simpa using this
  rw [h3]
  simp only []
  have := finish_eq P (m1 ++ 46 :: h :: t) B neg start (end_ + 1) hs
    (by simp at hE ⊢; omega) hneg
  simpa using this

theorem emitPoint_none (num : List Nat) (neg : Bool) (start end_ relExp : Int)
    (h : (num.length : Int) < end_ + 1) : emitPoint num neg start end_ relExp = none := by
  unfold emitPoint
  split
  · rfl
  · split
    · rfl
    · rename_i num1 hc
      split
      · rfl
      · rename_i num2 hs
        apply finish_none
        rw [setB_length _ _ _ _ hs, copyAt_length _ _ _ _ hc]; exact h

theorem emitFrac_eq (P m X B : List Nat) (neg : Bool) (start end_ relExp : Int)
    (hs : start = P.length) (hE : end_ = (P.length : Int) + m.length)
    (hr : relExp ≤ 0) (hX : (X.length : Int) = 1 - relExp)
    (hneg : neg = true → P ≠ []) :
    emitFrac (P ++ (m ++ (X ++ B))) neg start end_ relExp =
      some (signBytes neg ++ (46 :: (zeros (-relExp).toNat ++ m))) := by
  unfold emitFrac
  have h1 : slice (P ++ (m ++ (X ++ B))) start end_ = some m :=
    slice_mid P m (X ++ B) start end_ hs hE
  rw [h1]
  simp only []
  -- the first `1 - relExp` bytes behind `start`, and the rest
  have hsplit : m ++ X = (m ++ X).take X.length ++ (m ++ X).drop X.length :=
    (List.take_append_drop _ _).symm
  have hYl : ((m ++ X).take X.length).length = X.length := by simp
  have hxl : ((m ++ X).drop X.length).length = m.length := by simp
  generalize hY : (m ++ X).take X.length = Y at hsplit hYl
  generalize hx : (m ++ X).drop X.length = x at hsplit hxl
  have hnum : P ++ (m ++ (X ++ B)) = (P ++ Y) ++ (x ++ B) := by
    rw [← List.append_assoc m X B, hsplit]; simp
  rw [hnum]
  have h2 : copyAt (P ++ Y ++ (x ++ B)) (start - relExp + 1) m = some (P ++ Y ++ (m ++ B)) :=
    copyAt_mid (P ++ Y) x B m _ (by simp; omega) hxl
  rw [h2]
  simp only []
  obtain ⟨y0, Y1, rfl⟩ : ∃ y0 Y1, Y = y0 :: Y1 := by
    cases Y with
    | nil => simp at hYl; omega
    | cons y0 Y1 => exact ⟨y0, Y1, rfl⟩
  have h3 : setB (P ++ y0 :: Y1 ++ (m ++ B)) start 46 = some (P ++ 46 :: (Y1 ++ (m ++ B))) := by
    have := setB_mid P y0 (Y1 ++ (m ++ B)) start 46 hs
    simpa using this
  rw [h3]
  simp only []
  have hY1 : (Y1.length : Int) = -relExp := by simp at hYl; omega
  have h4 : padZeros start (-relExp + 1) ((P ++ y0 :: Y1 ++ (x ++ B)).length + 1)
      (P ++ 46 :: (Y1 ++ (m ++ B))) 1 = some (P ++ 46 :: (zeros Y1.length ++ (m ++ B))) := by
    have := padZeros_eq Y1 (P ++ [46]) (m ++ B) ((P ++ y0 :: Y1 ++ (x ++ B)).length + 1)
      start (-relExp + 1) 1 (by simp; omega) (by omega) (by simp; omega)
    simpa using this
  rw [h4]
  simp only []
  have hz : (-relExp).toNat = Y1.length := by omega
  rw [hz]
  have := finish_eq P (46 :: (zeros Y1.length ++ m)) B neg start (end_ - (relExp - 1)) hs
    (by simp [zeros]; omega) hneg
  simpa using this

theorem emitFrac_none (num : List Nat) (neg : Bool) (start end_ relExp : Int)
    (h : (num.length : Int) < end_ - (relExp - 1)) : emitFrac num neg start end_ relExp = none := by
  unfold emitFrac
  split
  · rfl
  · split
    · rfl
    · rename_i num1 hc
      split
      · rfl
      · rename_i num2 hs
        split
        · rfl
        · rename_i num3 hp
          apply finish_none
          rw [padZeros_length _ _ _ _ _ _ hp, setB_length _ _ _ _ hs, copyAt_length _ _ _ _ hc]
          exact h

theorem emitZeros_eq (P m X B : List Nat) (neg : Bool) (start end_ e : Int)
    (hs : start = P.length) (hE : end_ = (P.length : Int) + m.length)
    (he : e = 1 ∨ e = 2) (hX : (X.length : Int) = e)
    (hneg : neg = true → P ≠ []) :
    emitZeros (P ++ (m ++ (X ++ B))) neg start end_ e =
      some (signBytes neg ++ (m ++ zeros e.toNat)) := by
  unfold emitZeros
  obtain ⟨c, X1, rfl⟩ : ∃ c X1, X = c :: X1 := by
    cases X with
    | nil => simp at hX; omega
    | cons c X1 => exact ⟨c, X1, rfl⟩
  have h1 : setB (P ++ (m ++ (c :: X1 ++ B))) end_ 48 = some (P ++ (m ++ 48 :: (X1 ++ B))) := by
    have := setB_mid (P ++ m) c (X1 ++ B) end_ 48 (by simp; omega)
    simpa using this
  rw [h1]
  simp only []
  rcases he with he | he
  · subst he
    rw [if_neg (by norm_num)]
    simp only []
    have hX1 : X1 = [] := by
      apply List.length_eq_zero.mp
      simp only [List.length_cons] at hX; push_cast at hX; omega
    subst hX1
    have := finish_eq P (m ++ [48]) B neg start (end_ + 1) hs (by simp; omega) hneg
    simpa [zeros] using this
  · subst he
    rw [if_pos rfl]
    obtain ⟨c2, X2, rfl⟩ : ∃ c X2, X1 = c :: X2 := by
      cases X1 with
      | nil => simp at hX
      | cons c X2 => exact ⟨c, X2, rfl⟩
    have hX2 : X2 = [] := by
      apply List.length_eq_zero.mp
      simp only [List.length_cons] at hX; push_cast at hX; omega
    subst hX2
    have h2 : setB (P ++ (m ++ 48 :: ([c2] ++ B))) (end_ + 1) 48 =
        some (P ++ (m ++ 48 :: 48 :: B)) := by
      have := setB_mid (P ++ (m ++ [48])) c2 B (end_ + 1) 48 (by simp; omega)
      simpa using this
    rw [h2]
    simp only []
    have := finish_eq P (m ++ [48, 48]) B neg start (end_ + 2) hs (by simp; omega) hneg
    simpa [zeros, List.replicate] using this

theorem emitZeros_none (num : List Nat) (neg : Bool) (start end_ e : Int)
    (h : (num.length : Int) < end_ + e) : emitZeros num neg start end_ e = none := by
  unfold emitZeros
  split
  · rfl
  · rename_i num1 hs1
    split
    · rfl
    · rename_i num2 hs2
      apply finish_none
      have hl1 := setB_length _ _ _ _ hs1
      split at hs2
      · rw [setB_length _ _ _ _ hs2, hl1]; exact h
      · cases hs2; rw [hl1]; exact h

theorem split_at_length (J : List Nat) (r : Nat) (h : r ≤ J.length) :
    ∃ X B, J = X ++ B ∧ X.length = r :=
  ⟨J.take r, J.drop r, (List.take_append_drop r J).symm, by simp; omega⟩

theorem emit_eq (P m J : List Nat) (neg : Bool) (start end_ e : Int)
    (hs : start = P.length) (hE : end_ = (P.length : Int) + m.length)
    (hneg : neg = true → P ≠ [])
    (he1 : -(2 ^ 63) < e) (he2 : e < 2 ^ 63)
    (hlen : ((P.length + m.length + J.length : Nat) : Int) < 2 ^ 62) :
    emit intLog10 (P ++ (m ++ J)) neg start end_ e =
      (emitSpec m e J.length).map (fun r => signBytes neg ++ r) := by
  unfold emit emitSpec
  simp only []
  have hd : end_ - start = (m.length : Int) := by omega
  rw [hd]
  by_cases h0 : e = 0
  · rw [if_pos h0, if_pos h0]
    have := finish_eq P m J neg start end_ hs hE hneg
    simpa using this
  rw [if_neg h0, if_neg h0]
  have hcond : (wrap64 (e + (m.length : Int)) < -2 ∨ 2 < e) ↔ (e + (m.length : Int) < -2 ∨ 2 < e) := by
    by_cases h2 : 2 < e
    · simp [h2]
    · rw [wrap64_id _ (by push_cast at hlen; omega) (by push_cast at hlen; omega)]
  by_cases hsci : e + (m.length : Int) < -2 ∨ 2 < e
  · rw [if_pos (hcond.mpr hsci), if_pos hsci]
    by_cases hfit : (m ++ 101 :: ((if e < 0 then [45] else []) ++ expDigits e.natAbs)).length
        ≤ m.length + J.length
    · rw [if_pos hfit]
      obtain ⟨X, B, rfl, hX⟩ := split_at_length J
        (1 + (if e < 0 then [45] else []).length + (expDigits e.natAbs).length)
        (by simp at hfit ⊢; omega)
      rw [emitSci_eq P m X B neg start end_ e h0 he1 he2 hs hE hX hneg]
      simp
    · rw [if_neg hfit]
      rw [emitSci_none _ _ _ _ _ h0 he1 he2]
      · simp
      · simp at hfit ⊢; omega
  rw [if_neg (fun h => hsci (hcond.mp h)), if_neg hsci]
  have hw : wrap64 (e + (m.length : Int)) = e + m.length :=
    wrap64_id _ (by push_cast at hlen; omega) (by push_cast at hlen; omega)
  rw [hw]
  by_cases hneg0 : e < 0
  · rw [if_pos hneg0, if_pos hneg0]
    by_cases hrel : e + (m.length : Int) > 0
    · rw [if_pos hrel, if_pos (by omega)]
      by_cases hroom : 1 ≤ J.length
      · rw [if_pos hroom]
        obtain ⟨c, B, rfl⟩ : ∃ c B, J = c :: B := by
          cases J with
          | nil => simp at hroom
          | cons c B => exact ⟨c, B, rfl⟩
        have hk : (e + (m.length : Int)).toNat < m.length := by omega
        have hm : m = m.take (e + (m.length : Int)).toNat ++ m.drop (e + (m.length : Int)).toNat :=
          (List.take_append_drop _ _).symm
        have hl1 : (m.take (e + (m.length : Int)).toNat).length = (e + (m.length : Int)).toNat := by
          simp; omega
        have hl2 : (m.drop (e + (m.length : Int)).toNat) ≠ [] := by
          intro h
          have := congrArg List.length h
          simp at this; omega
        have := emitPoint_eq P (m.take (e + (m.length : Int)).toNat)
          (m.drop (e + (m.length : Int)).toNat) B c neg start end_ (e + m.length) hs
          (by rw [hE]; simp; omega) (by rw [hl1]; omega) hl2 hneg
        rw [← hm] at this
        rw [this]
        simp
      · rw [if_neg hroom]
        rw [emitPoint_none]
        · simp
        · simp at hroom ⊢; subst hroom; simp; omega
    · rw [if_neg hrel, if_neg (by omega)]
      by_cases hroom : 1 - (e + (m.length : Int)) ≤ (J.length : Int)
      · rw [if_pos hroom]
        obtain ⟨X, B, rfl, hX⟩ := split_at_length J (1 - (e + (m.length : Int))).toNat (by omega)
        rw [emitFrac_eq P m X B neg start end_ _ hs hE (by omega) (by omega) hneg]
        simp
      · rw [if_neg hroom]
        rw [emitFrac_none]
        · simp
        · simp; omega
  · rw [if_neg hneg0, if_neg hneg0]
    have he12 : e = 1 ∨ e = 2 := by omega
    by_cases hroom : e ≤ (J.length : Int)
    · rw [if_pos hroom]
      obtain ⟨X, B, rfl, hX⟩ := split_at_length J e.toNat (by omega)
      rw [emitZeros_eq P m X B neg start end_ e hs hE he12 (by omega) hneg]
      simp
    · rw [if_neg hroom]
      rw [emitZeros_none]
      · simp
      · simp; omega

/-- When the exponent is the smallest `int64`, its negation wraps to itself and
`emit` cannot return. -/
theorem emit_minInt (num : List Nat) (neg : Bool) (start end_ : Int)
    (hs : 0 ≤ start) (hE : start ≤ end_) (hE2 : end_ ≤ num.length)
    (hlen : (num.length : Int) < 2 ^ 62) :
    emit intLog10 num neg start end_ (-(2 ^ 63)) = none := by
  unfold emit
  simp only []
  rw [if_neg (by norm_num)]
  have hw : wrap64 (-(2 ^ 63) + (end_ - start)) < -2 ∨ (2 : Int) < -(2 ^ 63) := by
    left
    rw [wrap64_id _ (by omega) (by omega)]; omega
  rw [if_pos hw]
  unfold emitSci
  split
  · rfl
  · rename_i num1 hs1
    have hl1 := setB_length _ _ _ _ hs1
    rw [if_pos (by norm_num)]
    split
    · rfl
    · rename_i num2 hs2
      have hl2 := setB_length _ _ _ _ hs2
      have hw2 : wrap64 (- -(2 ^ 63)) = -(2 ^ 63) := by unfold wrap64; omega
      rw [hw2]
      unfold writeDigits
      simp only []
      have hlog : intLog10 (-(2 ^ 63)) = -(2 ^ 63) := by
        unfold intLog10; rw [if_neg (by norm_num)]
      rw [hlog]
      have hend : end_ < num.length := by
        unfold setB at hs1
        split at hs1
        · omega
        · cases hs1
      have hfuel : (-(2 ^ 63) + 1 : Int).toNat + 1 = 1 := by omega
      rw [hfuel]
      unfold writeExp
      rw [if_neg (by omega)]
      simp only []
      unfold finish
      cases neg with
      | false =>
        simp only [Bool.false_eq_true, if_false]
        unfold slice
        rw [if_neg (by omega)]
      | true =>
        simp only [if_true]
        split
        · rfl
        · unfold slice
          rw [if_neg (by omega)]

/-! ## Leading and trailing zeros of digit strings -/

theorem zeros_length (k : Nat) : (zeros k).length = k := by simp [zeros]

theorem zeros_succ (k : Nat) : zeros (k + 1) = 48 :: zeros k := by
  simp [zeros, List.replicate_succ]

theorem zeros_succ_append (k : Nat) (R : List Nat) : zeros (k + 1) ++ R = zeros k ++ 48 :: R := by
  induction k with
  | zero => simp [zeros]
  | succ k ih => rw [zeros_succ, List.cons_append, ih, zeros_succ, List.cons_append]

theorem mem_zeros (k c : Nat) (h : c ∈ zeros k) : c = 48 := by
  unfold zeros at h
  exact (List.mem_replicate.mp h).2

theorem takeWhile_zeros (ds : List Nat) :
    ds.takeWhile (· == 48) = zeros (ds.takeWhile (· == 48)).length := by
  unfold zeros
  apply List.eq_replicate_iff.mpr
  refine ⟨rfl, ?_⟩
  intro b hb
  have := List.mem_takeWhile_imp hb
  simpa using this

theorem stripLead_split (ds : List Nat) :
    ds = zeros (ds.takeWhile (· == 48)).length ++ stripLead ds := by
  rw [← takeWhile_zeros]
  exact (List.takeWhile_append_dropWhile _ ds).symm

theorem getLast?_cons_ne (c : Nat) (l : List Nat) (hl : l ≠ []) :
    (c :: l).getLast? = l.getLast? := by
  cases l with
  | nil => exact absurd rfl hl
  | cons d l => simp

theorem stripLead_head (ds : List Nat) : (stripLead ds).head? ≠ some 48 := by
  unfold stripLead
  induction ds with
  | nil => simp
  | cons c l ih =>
    by_cases hc : c = 48
    · subst hc; simpa [List.dropWhile] using ih
    · rw [List.dropWhile_cons_of_neg (by simpa using hc)]
      simpa using hc

theorem stripLead_zeros_append (k : Nat) (l : List Nat) : stripLead (zeros k ++ l) = stripLead l := by
  induction k with
  | zero => simp [zeros]
  | succ k ih => rw [zeros_succ]; simpa [stripLead, List.dropWhile] using ih

theorem stripLead_of_head (l : List Nat) (h : l.head? ≠ some 48) : stripLead l = l := by
  cases l with
  | nil => rfl
  | cons c l =>
    have : c ≠ 48 := by simpa using h
    unfold stripLead
    rw [List.dropWhile_cons_of_neg (by simpa using this)]

theorem stripTrail_split (ds : List Nat) : ∃ k, ds = stripTrail ds ++ zeros k := by
  induction ds with
  | nil => exact ⟨0, by simp [stripTrail, zeros]⟩
  | cons c l ih =>
    obtain ⟨k, hk⟩ := ih
    unfold stripTrail
    by_cases h : c = 48 ∧ stripTrail l = []
    · rw [if_pos h]
      refine ⟨k + 1, ?_⟩
      rw [h.2] at hk
      rw [h.1, zeros_succ]
      simpa using hk
    · rw [if_neg h]
      exact ⟨k, by simpa using hk⟩

theorem stripTrail_last (ds : List Nat) : (stripTrail ds).getLast? ≠ some 48 := by
  induction ds with
  | nil => simp [stripTrail]
  | cons c l ih =>
    unfold stripTrail
    by_cases h : c = 48 ∧ stripTrail l = []
    · rw [if_pos h]; simp
    · rw [if_neg h]
      by_cases hl : stripTrail l = []
      · rw [hl]
        have : c ≠ 48 := fun hc => h ⟨hc, hl⟩
        simpa using this
      · rw [getLast?_cons_ne _ _ hl]; exact ih

theorem stripTrail_of_last (l : List Nat) (h : l.getLast? ≠ some 48) : stripTrail l = l := by
  induction l with
  | nil => rfl
  | cons c l ih =>
    unfold stripTrail
    by_cases hl : l = []
    · subst hl
      have : c ≠ 48 := by simpa using h
      simp [stripTrail, this]
    · have h2 : l.getLast? ≠ some 48 := by
        rw [getLast?_cons_ne _ _ hl] at h; exact h
      have := ih h2
      rw [this, if_neg (fun hh => hl hh.2)]

theorem stripTrail_zeros (k : Nat) : stripTrail (zeros k) = [] := by
  induction k with
  | zero => rfl
  | succ k ih => rw [zeros_succ]; unfold stripTrail; rw [if_pos ⟨rfl, ih⟩]

theorem stripTrail_append_zeros (l : List Nat) (k : Nat) : stripTrail (l ++ zeros k) = stripTrail l := by
  induction l with
  | nil => simpa [stripTrail] using stripTrail_zeros k
  | cons c l ih =>
    rw [List.cons_append]
    unfold stripTrail
    rw [ih]

theorem stripTrail_idem_append (a b : List Nat) (hb : b ≠ []) (h : b.getLast? ≠ some 48) :
    stripTrail (a ++ b) = a ++ b := by
  apply stripTrail_of_last
  rw [List.getLast?_append_of_ne_nil _ hb]
  exact h

/-! ## The loops of `Number` on a buffer split into its parts -/

theorem trimLeading_eq : ∀ (zs pre rest : List Nat) (end_ : Int) (fuel : Nat),
    (∀ c ∈ zs, c = 48) → rest.head? ≠ some 48 →
    (pre.length : Int) + zs.length ≤ end_ →
    end_ ≤ (pre.length : Int) + zs.length + rest.length → zs.length < fuel →
    trimLeading (pre ++ (zs ++ rest)) end_ fuel pre.length =
      some ((pre.length : Int) + zs.length) := by
  intro zs
  induction zs with
  | nil =>
    intro pre rest end_ fuel _ hh h1 h2 hf
    obtain ⟨f, rfl⟩ : ∃ f, fuel = f + 1 := ⟨fuel - 1, by simp at hf; omega⟩
    unfold trimLeading
    by_cases hlt : (pre.length : Int) < end_
    · rw [if_pos hlt]
      cases rest with
      | nil => simp at h2; omega
      | cons c r =>
        have hc : c ≠ 48 := by simpa using hh
        rw [List.nil_append, getB_mid pre c r _ rfl]
        simp [hc]
    · rw [if_neg hlt]; simp
  | cons z zs ih =>
    intro pre rest end_ fuel hz hh h1 h2 hf
    obtain ⟨f, rfl⟩ : ∃ f, fuel = f + 1 := ⟨fuel - 1, by simp at hf; omega⟩
    have hz0 : z = 48 := hz z (List.mem_cons_self _ _)
    subst hz0
    unfold trimLeading
    rw [if_pos (by simp at h1; omega)]
    rw [List.cons_append, getB_mid pre 48 (zs ++ rest) _ rfl]
    simp only [if_true]
    have := ih (pre ++ [48]) rest end_ f (fun c hc => hz c (List.mem_cons_of_mem _ hc)) hh
      (by simp at h1 ⊢; omega) (by simp at h2 ⊢; omega) (by simp at hf; omega)
    simp only [List.append_assoc, List.singleton_append, List.length_append,
      List.length_singleton] at this
    push_cast at this
    rw [this]
    simp; omega

theorem trimTrailing_noDot (num : List Nat) (dot end1 : Int) (fuel : Nat) (hf : 0 < fuel)
    (hd : dot = end1) : trimTrailing num dot fuel (end1 - 1) end1 = some end1 := by
  obtain ⟨f, rfl⟩ : ∃ f, fuel = f + 1 := ⟨fuel - 1, by omega⟩
  unfold trimTrailing
  rw [if_neg (by omega), if_neg (by omega)]

theorem trimTrailing_eq (k : Nat) : ∀ (A F R : List Nat) (dot i end1 : Int) (fuel : Nat),
    dot = (A.length : Int) - 1 → i = (A.length : Int) + F.length + k - 1 →
    F.getLast? ≠ some 48 → k < fuel →
    trimTrailing (A ++ (F ++ (zeros k ++ R))) dot fuel i end1 =
      some (if F = [] then dot else (A.length : Int) + F.length) := by
  induction k with
  | zero =>
    intro A F R dot i end1 fuel hd hi hF hf
    obtain ⟨f, rfl⟩ : ∃ f, fuel = f + 1 := ⟨fuel - 1, by omega⟩
    unfold trimTrailing
    by_cases hFn : F = []
    · subst hFn
      rw [if_neg (by simp at hi; omega), if_pos (by simp at hi; omega)]
      simp
    · obtain ⟨F1, c, rfl⟩ : ∃ F1 c, F = F1 ++ [c] :=
        ⟨F.dropLast, F.getLast hFn, (List.dropLast_append_getLast hFn).symm⟩
      have hc : c ≠ 48 := by simpa using hF
      rw [if_pos (by simp at hi; omega)]
      have hg : getB (A ++ (F1 ++ [c] ++ (zeros 0 ++ R))) i = some c := by
        have := getB_mid (A ++ F1) c (zeros 0 ++ R) i (by simp at hi ⊢; omega)
        simpa using this
      rw [hg]
      simp only [hc, ne_eq, not_false_eq_true, if_true, if_neg hFn]
      simp at hi ⊢; omega
  | succ k ih =>
    intro A F R dot i end1 fuel hd hi hF hf
    obtain ⟨f, rfl⟩ : ∃ f, fuel = f + 1 := ⟨fuel - 1, by omega⟩
    unfold trimTrailing
    rw [if_pos (by push_cast at hi; omega)]
    rw [zeros_succ_append]
    have hg : getB (A ++ (F ++ (zeros k ++ 48 :: R))) i = some 48 := by
      have := getB_mid (A ++ (F ++ zeros k)) 48 R i
        (by simp [zeros_length] at hi ⊢; omega)
      simpa using this
    rw [hg]
    simp only [ne_eq, not_true_eq_false, if_false]
    exact ih A F (48 :: R) dot (i - 1) end1 f hd (by push_cast at hi; omega) hF (by omega)

theorem foldZeros_eq (k : Nat) : ∀ (Q M R : List Nat) (start end_ exp i : Int) (fuel : Nat),
    M ≠ [] → M.getLast? ≠ some 48 → start ≤ Q.length →
    i = (Q.length : Int) + M.length + k - 1 → k < fuel →
    foldZeros (Q ++ (M ++ (zeros k ++ R))) start end_ exp fuel i =
      some (wrap64 (exp + (end_ - ((Q.length : Int) + M.length))), (Q.length : Int) + M.length) := by
  induction k with
  | zero =>
    intro Q M R start end_ exp i fuel hM hl hs hi hf
    obtain ⟨f, rfl⟩ : ∃ f, fuel = f + 1 := ⟨fuel - 1, by omega⟩
    obtain ⟨M1, c, rfl⟩ : ∃ M1 c, M = M1 ++ [c] :=
      ⟨M.dropLast, M.getLast hM, (List.dropLast_append_getLast hM).symm⟩
    have hc : c ≠ 48 := by simpa using hl
    unfold foldZeros
    rw [if_pos (by simp at hi; omega)]
    have hg : getB (Q ++ (M1 ++ [c] ++ (zeros 0 ++ R))) i = some c := by
      have := getB_mid (Q ++ M1) c (zeros 0 ++ R) i (by simp at hi ⊢; omega)
      simpa using this
    rw [hg]
    simp only [hc, ne_eq, not_false_eq_true, if_true]
    have h1 : end_ - i - 1 = end_ - ((Q.length : Int) + (M1 ++ [c]).length) := by
      simp at hi ⊢; omega
    have h2 : i + 1 = (Q.length : Int) + (M1 ++ [c]).length := by
      simp at hi ⊢; omega
    rw [h1, h2]
  | succ k ih =>
    intro Q M R start end_ exp i fuel hM hl hs hi hf
    obtain ⟨f, rfl⟩ : ∃ f, fuel = f + 1 := ⟨fuel - 1, by omega⟩
    unfold foldZeros
    have hMl : 0 < M.length := List.length_pos.mpr hM
    rw [if_pos (by push_cast at hi; omega)]
    rw [zeros_succ_append]
    have hg : getB (Q ++ (M ++ (zeros k ++ 48 :: R))) i = some 48 := by
      have := getB_mid (Q ++ (M ++ zeros k)) 48 R i
        (by simp [zeros_length] at hi ⊢; omega)
      simpa using this
    rw [hg]
    simp only [ne_eq, not_true_eq_false, if_false]
    exact ih Q M (48 :: R) start end_ exp (i - 1) f hM hl hs (by push_cast at hi; omega) (by omega)

theorem skipFracZeros_eq : ∀ (zs P W M R : List Nat) (dot end_ i : Int) (fuel : Nat),
    (∀ c ∈ zs, c = 48) → M.head? ≠ some 48 → M ≠ [] → W ≠ [] →
    dot = P.length → i = (P.length : Int) + W.length →
    end_ = (P.length : Int) + W.length + zs.length + M.length → zs.length < fuel →
    ∃ J, J.length = W.length + zs.length + R.length ∧
      skipFracZeros dot end_ fuel (P ++ (W ++ (zs ++ (M ++ R)))) i =
        some (P ++ (M ++ J), (P.length : Int) + M.length) := by
  intro zs
  induction zs with
  | nil =>
    intro P W M R dot end_ i fuel _ hh hM hW hd hi hE hf
    obtain ⟨f, rfl⟩ : ∃ f, fuel = f + 1 := ⟨fuel - 1, by simp at hf; omega⟩
    obtain ⟨c, M1, rfl⟩ : ∃ c M1, M = c :: M1 := by
      cases M with
      | nil => exact absurd rfl hM
      | cons c M1 => exact ⟨c, M1, rfl⟩
    have hc : c ≠ 48 := by simpa using hh
    unfold skipFracZeros
    rw [if_pos (by simp at hE ⊢; omega)]
    have hg : getB (P ++ (W ++ ([] ++ (c :: M1 ++ R)))) i = some c := by
      have := getB_mid (P ++ W) c (M1 ++ R) i (by simp; omega)
      simpa using this
    rw [hg]
    simp only [hc, ne_eq, not_false_eq_true, if_true]
    have hsl : slice (P ++ (W ++ ([] ++ (c :: M1 ++ R)))) i end_ = some (c :: M1) := by
      have := slice_mid (P ++ W) (c :: M1) R i end_ (by simp; omega) (by simp at hE ⊢; omega)
      simpa using this
    rw [hsl]
    simp only []
    -- the bytes from `dot` on: as many as the mantissa has, and the rest
    have hsplit : W ++ (c :: M1) = (W ++ (c :: M1)).take (c :: M1).length ++
        (W ++ (c :: M1)).drop (c :: M1).length := (List.take_append_drop _ _).symm
    have hxl : ((W ++ (c :: M1)).take (c :: M1).length).length = (c :: M1).length := by simp
    have hJl : ((W ++ (c :: M1)).drop (c :: M1).length).length = W.length := by simp
    generalize (W ++ (c :: M1)).take (c :: M1).length = x at hsplit hxl
    generalize (W ++ (c :: M1)).drop (c :: M1).length = J0 at hsplit hJl
    have hnum : P ++ (W ++ ([] ++ (c :: M1 ++ R))) = P ++ (x ++ (J0 ++ R)) := by
      have : W ++ ([] ++ (c :: M1 ++ R)) = (W ++ (c :: M1)) ++ R := by simp
      rw [this, hsplit]; simp
    rw [hnum, copyAt_mid P x (J0 ++ R) (c :: M1) dot hd hxl]
    refine ⟨J0 ++ R, by simp [hJl], ?_⟩
    simp only [Prod.mk.injEq, Option.some.injEq, true_and]
    simp at hE ⊢; omega
  | cons z zs ih =>
    intro P W M R dot end_ i fuel hz hh hM hW hd hi hE hf
    obtain ⟨f, rfl⟩ : ∃ f, fuel = f + 1 := ⟨fuel - 1, by simp at hf; omega⟩
    have hz0 : z = 48 := hz z (List.mem_cons_self _ _)
    subst hz0
    have hMl : 0 < M.length := List.length_pos.mpr hM
    unfold skipFracZeros
    rw [if_pos (by simp at hE ⊢; omega)]
    have hg : getB (P ++ (W ++ (48 :: zs ++ (M ++ R)))) i = some 48 := by
      have := getB_mid (P ++ W) 48 (zs ++ (M ++ R)) i (by simp; omega)
      simpa using this
    rw [hg]
    simp only [ne_eq, not_true_eq_false, if_false]
    obtain ⟨J, hJ, hres⟩ := ih P (W ++ [48]) M R dot end_ (i + 1) f
      (fun c hc => hz c (List.mem_cons_of_mem _ hc)) hh hM (by simp) hd
      (by simp; omega) (by simp at hE ⊢; omega) (by simp at hf; omega)
    refine ⟨J, by simp at hJ ⊢; omega, ?_⟩
    simp only [List.append_assoc, List.singleton_append] at hres
    simpa using hres

theorem stripLead_last (X : List Nat) (hl : X.getLast? ≠ some 48) (hX : X ≠ []) :
    stripLead X ≠ [] ∧ (stripLead X).getLast? = X.getLast? := by
  induction X with
  | nil => exact absurd rfl hX
  | cons c l ih =>
    by_cases hc : c = 48
    · subst hc
      have hne : l ≠ [] := by
        intro h; subst h; simp at hl
      have h1 : stripLead (48 :: l) = stripLead l := by
        simp [stripLead, List.dropWhile]
      rw [h1, getLast?_cons_ne _ _ hne]
      rw [getLast?_cons_ne _ _ hne] at hl
      exact ih hl hne
    · have h1 : stripLead (c :: l) = c :: l := stripLead_of_head _ (by simpa using hc)
      rw [h1]
      exact ⟨by simp, rfl⟩

theorem stripLead_append_of_ne (X Y : List Nat) (h : stripLead X ≠ []) :
    stripLead (X ++ Y) = stripLead X ++ Y := by
  induction X with
  | nil => exact absurd rfl h
  | cons c l ih =>
    by_cases hc : c = 48
    · subst hc
      have h1 : ∀ Z, stripLead (48 :: Z) = stripLead Z := by
        intro Z; simp [stripLead, List.dropWhile]
      rw [List.cons_append, h1, h1]
      rw [h1] at h
      exact ih h
    · have h1 : ∀ Z, stripLead (c :: Z) = c :: Z :=
        fun Z => stripLead_of_head _ (by simpa using hc)
      rw [List.cons_append, h1, h1, List.cons_append]

theorem mantissa_of_last (X : List Nat) (hl : X.getLast? ≠ some 48) (hX : X ≠ []) :
    mantissa X = stripLead X ∧ stripLead X ≠ [] := by
  obtain ⟨h1, h2⟩ := stripLead_last X hl hX
  refine ⟨?_, h1⟩
  unfold mantissa
  apply stripTrail_of_last
  rw [h2]; exact hl

theorem stripTrail_ne_nil (l : List Nat) (hl : l ≠ []) (hh : l.head? ≠ some 48) :
    stripTrail l ≠ [] := by
  intro h
  obtain ⟨k, hk⟩ := stripTrail_split l
  rw [h, List.nil_append] at hk
  cases k with
  | zero => exact hl (by simpa [zeros] using hk)
  | succ k => rw [hk, zeros_succ] at hh; simp at hh

theorem shorten_A (P M R : List Nat) (k : Nat) (start dot end_ e0 : Int)
    (hM : M ≠ []) (hl : M.getLast? ≠ some 48) (hs : start = P.length)
    (hd : dot = (P.length : Int) + M.length + k) (hE : end_ = dot) :
    shorten (P ++ (M ++ (zeros k ++ R))) start dot end_ e0 =
      some (P ++ (M ++ (zeros k ++ R)), (P.length : Int) + M.length, wrap64 (e0 + k)) := by
  unfold shorten
  rw [if_pos hE]
  rw [foldZeros_eq k P M R start end_ e0 (end_ - 1) _ hM hl (by omega) (by omega)
    (by simp [zeros_length]; omega)]
  simp only []
  have : e0 + (end_ - ((P.length : Int) + M.length)) = e0 + k := by omega
  rw [this]

theorem shorten_B (P M R zs : List Nat) (start dot end_ e0 : Int)
    (hz : ∀ c ∈ zs, c = 48) (hM : M ≠ []) (hh : M.head? ≠ some 48) (hs : start = P.length)
    (hd : dot = P.length) (hE : end_ = (P.length : Int) + 1 + zs.length + M.length) :
    ∃ J, J.length = 1 + zs.length + R.length ∧
      shorten (P ++ (46 :: (zs ++ (M ++ R)))) start dot end_ e0 =
        some (P ++ (M ++ J), (P.length : Int) + M.length,
          wrap64 (e0 - ((zs.length : Int) + M.length))) := by
  unfold shorten
  have hMl : 0 < M.length := List.length_pos.mpr hM
  rw [if_neg (by omega)]
  simp only []
  rw [if_pos (by omega)]
  obtain ⟨J, hJ, hres⟩ := skipFracZeros_eq zs P [46] M R dot end_ (dot + 1)
    ((P ++ (46 :: (zs ++ (M ++ R)))).length + 1) hz hh hM (by simp) hd (by simp; omega)
    (by simp; omega) (by simp; omega)
  refine ⟨J, by simp at hJ; omega, ?_⟩
  simp only [List.singleton_append] at hres
  rw [hres]
  simp only []
  have : end_ - dot - 1 = (zs.length : Int) + M.length := by omega
  rw [this]

theorem shorten_C (P I F R : List Nat) (start dot end_ e0 : Int)
    (hI : I ≠ []) (hF : F ≠ []) (hs : start = P.length)
    (hd : dot = (P.length : Int) + I.length) (hE : end_ = dot + 1 + F.length) :
    ∃ J, J.length = 1 + R.length ∧
      shorten (P ++ (I ++ (46 :: (F ++ R)))) start dot end_ e0 =
        some (P ++ ((I ++ F) ++ J), (P.length : Int) + (I ++ F).length,
          wrap64 (e0 - (F.length : Int))) := by
  unfold shorten
  have hIl : 0 < I.length := List.length_pos.mpr hI
  have hFl : 0 < F.length := List.length_pos.mpr hF
  rw [if_neg (by omega)]
  simp only []
  rw [if_neg (by omega)]
  have h1 : slice (P ++ (I ++ (46 :: (F ++ R)))) (dot + 1) end_ = some F := by
    have := slice_mid (P ++ (I ++ [46])) F R (dot + 1) end_ (by simp; omega) (by simp; omega)
    simpa using this
  rw [h1]
  simp only []
  obtain ⟨F1, c, rfl⟩ : ∃ F1 c, F = F1 ++ [c] :=
    ⟨F.dropLast, F.getLast hF, (List.dropLast_append_getLast hF).symm⟩
  have h2 : copyAt (P ++ (I ++ (46 :: (F1 ++ [c] ++ R)))) dot (F1 ++ [c]) =
      some (P ++ (I ++ ((F1 ++ [c]) ++ (c :: R)))) := by
    have := copyAt_mid (P ++ I) (46 :: F1) (c :: R) (F1 ++ [c]) dot (by simp; omega) (by simp)
    simpa using this
  rw [h2]
  refine ⟨c :: R, by simp; omega, ?_⟩
  simp only [Option.some.injEq, Prod.mk.injEq]
  refine ⟨by simp, ?_, ?_⟩
  · simp at hE ⊢; omega
  · have : end_ - dot - 1 = ((F1 ++ [c]).length : Int) := by omega
    rw [this]

theorem signBytes_length (neg : Bool) : ((signBytes neg).length : Int) = if neg then 1 else 0 := by
  cases neg <;> simp [signBytes]

theorem signBytes_ne_nil (neg : Bool) (a : Nat) (h : neg = true) : signBytes neg ++ zeros a ≠ [] := by
  subst h; simp [signBytes]

theorem mantissa_nil_iff (ipr fr : List Nat) (hipr : ipr.head? ≠ some 48)
    (hfr : fr.getLast? ≠ some 48) : mantissa (ipr ++ fr) = [] ↔ ipr = [] ∧ fr = [] := by
  constructor
  · intro h
    by_cases hf : fr = []
    · subst hf
      refine ⟨?_, rfl⟩
      by_contra hi
      rw [List.append_nil] at h
      unfold mantissa at h
      rw [stripLead_of_head _ hipr] at h
      exact stripTrail_ne_nil _ hi hipr h
    · exfalso
      have hl : (ipr ++ fr).getLast? ≠ some 48 := by
        rw [List.getLast?_append_of_ne_nil _ hf]; exact hfr
      obtain ⟨h1, h2⟩ := mantissa_of_last (ipr ++ fr) hl (by simp [hf])
      rw [h1] at h
      exact h2 h
  · rintro ⟨rfl, rfl⟩
    rfl

theorem afterScan_eq (lg : Int → Int) (neg : Bool) (sgn ipr fr E DP num M : List Nat)
    (a b : Nat) (pt : Bool) (e0 : Int)
    (hDP : DP = if pt then 46 :: (fr ++ zeros b) else [])
    (hnum : num = sgn ++ (zeros a ++ (ipr ++ (DP ++ E))))
    (hMd : M = mantissa (ipr ++ fr))
    (hipr : ipr.head? ≠ some 48) (hfr : fr.getLast? ≠ some 48)
    (hpt : pt = false → fr = [] ∧ b = 0) (hE : E.head? ≠ some 48) :
    ∃ J, sgn.length + a + M.length + J.length = num.length ∧
      afterScan lg num neg sgn.length
          (if pt then (sgn.length : Int) + a + ipr.length else -1)
          ((sgn.length : Int) + a + ipr.length + DP.length) e0 =
        if M = [] then some zeroBytes
        else emit lg ((sgn ++ zeros a) ++ (M ++ J)) neg ((sgn ++ zeros a).length : Nat)
          (((sgn ++ zeros a).length : Nat) + (M.length : Int))
          (wrap64 (e0 + (if fr = [] then (ipr.length : Int) - M.length
            else -(fr.length : Int)))) := by
  -- the values of `dot`, `start` and `end` after the trimming loops
  have hdot : (if (if pt then (sgn.length : Int) + a + ipr.length else -1) = -1
      then ((sgn.length : Int) + a + ipr.length + DP.length)
      else (if pt then (sgn.length : Int) + a + ipr.length else -1)) =
      (sgn.length : Int) + a + ipr.length := by
    cases pt with
    | true => simp only [if_true]; rw [if_neg (by omega)]
    | false =>
      simp only [Bool.false_eq_true, if_false, if_true] at hDP ⊢
      rw [hDP]; simp
  have hrest : (ipr ++ (DP ++ E)).head? ≠ some 48 := by
    cases ipr with
    | cons c r => simpa using hipr
    | nil =>
      rw [List.nil_append]
      cases pt with
      | true => rw [hDP]; simp
      | false => rw [hDP]; simpa using hE
  have hlead : trimLeading num ((sgn.length : Int) + a + ipr.length + DP.length)
      (num.length + 1) sgn.length = some ((sgn.length : Int) + a) := by
    have := trimLeading_eq (zeros a) sgn (ipr ++ (DP ++ E))
      ((sgn.length : Int) + a + ipr.length + DP.length) (num.length + 1)
      (fun c hc => mem_zeros a c hc) hrest (by simp [zeros_length]; omega)
      (by simp [zeros_length]; omega) (by rw [hnum]; simp [zeros_length]; omega)
    rw [← hnum] at this
    simpa [zeros_length] using this
  have htrail : trimTrailing num ((sgn.length : Int) + a + ipr.length) (num.length + 1)
      ((sgn.length : Int) + a + ipr.length + DP.length - 1)
      ((sgn.length : Int) + a + ipr.length + DP.length) =
      some (if fr = [] then (sgn.length : Int) + a + ipr.length
        else (sgn.length : Int) + a + ipr.length + 1 + fr.length) := by
    cases pt with
    | false =>
      obtain ⟨hf, _⟩ := hpt rfl
      simp only [Bool.false_eq_true, if_false] at hDP
      rw [hDP, if_pos hf]
      have := trimTrailing_noDot num ((sgn.length : Int) + a + ipr.length)
        ((sgn.length : Int) + a + ipr.length) (num.length + 1) (by omega) rfl
      simpa using this
    | true =>
      simp only [if_true] at hDP
      have := trimTrailing_eq b (sgn ++ (zeros a ++ (ipr ++ [46]))) fr E
        ((sgn.length : Int) + a + ipr.length)
        ((sgn.length : Int) + a + ipr.length + DP.length - 1)
        ((sgn.length : Int) + a + ipr.length + DP.length) (num.length + 1)
        (by simp [zeros_length]; omega) (by rw [hDP]; simp [zeros_length]; omega) hfr
        (by rw [hnum, hDP]; simp [zeros_length]; omega)
      have hn : sgn ++ (zeros a ++ (ipr ++ [46])) ++ (fr ++ (zeros b ++ E)) = num := by
        rw [hnum, hDP]; simp
      rw [hn] at this
      rw [this]
      by_cases hf : fr = []
      · rw [if_pos hf, if_pos hf]
      · rw [if_neg hf, if_neg hf]
        simp [zeros_length]; omega
  unfold afterScan
  simp only []
  rw [hdot, hlead]
  simp only []
  rw [htrail]
  simp only []
  by_cases hf : fr = []
  · -- no digit is left behind the point
    subst hf
    rw [if_pos rfl]
    simp only [List.append_nil] at hMd
    have hMi : M = stripTrail ipr := by
      rw [hMd]; unfold mantissa; rw [stripLead_of_head _ hipr]
    by_cases hi : ipr = []
    · subst hi
      have hM0 : M = [] := by rw [hMi]; rfl
      refine ⟨DP ++ E, by rw [hnum, hM0]; simp [zeros_length]; omega, ?_⟩
      rw [if_pos (by simp), if_pos hM0]
    · have hMne : M ≠ [] := by rw [hMi]; exact stripTrail_ne_nil _ hi hipr
      have hil : 0 < ipr.length := List.length_pos.mpr hi
      rw [if_neg (by omega)]
      obtain ⟨k, hk⟩ := stripTrail_split ipr
      rw [← hMi] at hk
      have hlen : ipr.length = M.length + k := by
        have := congrArg List.length hk
        simpa [zeros_length] using this
      have hsh := shorten_A (sgn ++ zeros a) M (DP ++ E) k ((sgn.length : Int) + a)
        ((sgn.length : Int) + a + ipr.length) ((sgn.length : Int) + a + ipr.length) e0
        hMne (by rw [hMi]; exact stripTrail_last ipr) (by simp [zeros_length])
        (by simp [zeros_length]; omega) rfl
      have hnum2 : num = (sgn ++ zeros a) ++ (M ++ (zeros k ++ (DP ++ E))) := by
        rw [hnum]
        conv_lhs => rw [hk]
        simp
      rw [hnum2, hsh]
      refine ⟨zeros k ++ (DP ++ E), by simp [zeros_length]; omega, ?_⟩
      rw [if_neg hMne]
      simp only [if_true]
      have : (ipr.length : Int) - M.length = k := by omega
      rw [this]
      simp [zeros_length]
  · -- digits are left behind the point
    have hpt1 : pt = true := by
      cases pt with
      | true => rfl
      | false => exact absurd (hpt rfl).1 hf
    subst hpt1
    simp only [if_true] at hDP
    have hfl : 0 < fr.length := List.length_pos.mpr hf
    have hl : (ipr ++ fr).getLast? ≠ some 48 := by
      rw [List.getLast?_append_of_ne_nil _ hf]; exact hfr
    obtain ⟨hM1, hM2⟩ := mantissa_of_last (ipr ++ fr) hl (by simp [hf])
    rw [← hMd] at hM1
    have hMne : M ≠ [] := by rw [hM1]; exact hM2
    rw [if_neg hf, if_neg (by omega)]
    by_cases hi : ipr = []
    · -- nothing before the point
      subst hi
      simp only [List.nil_append, List.length_nil] at hM1 hnum ⊢
      have hsp := stripLead_split fr
      rw [← hM1] at hsp
      generalize hz : (List.takeWhile (fun x => x == 48) fr).length = c at hsp
      have hlen : fr.length = c + M.length := by
        have := congrArg List.length hsp
        simpa [zeros_length] using this
      obtain ⟨J, hJ, hsh⟩ := shorten_B (sgn ++ zeros a) M (zeros b ++ E) (zeros c)
        ((sgn.length : Int) + a) ((sgn.length : Int) + a + (0 : Nat))
        ((sgn.length : Int) + a + (0 : Nat) + 1 + fr.length) e0
        (fun x hx => mem_zeros c x hx) hMne (by rw [hM1]; exact stripLead_head fr)
        (by simp [zeros_length]) (by simp [zeros_length])
        (by simp [zeros_length]; omega)
      have hnum2 : num = (sgn ++ zeros a) ++ (46 :: (zeros c ++ (M ++ (zeros b ++ E)))) := by
        rw [hnum, hDP]
        conv_lhs => rw [hsp]
        simp
      rw [hnum2, hsh]
      refine ⟨J, by simp [zeros_length] at hJ ⊢; omega, ?_⟩
      rw [if_neg hMne, if_neg hf]
      simp only []
      have : e0 - (((zeros c).length : Int) + M.length) = e0 + -(fr.length : Int) := by
        simp [zeros_length]; omega
      rw [this]
      simp [zeros_length]
    · -- digits on both sides of the point
      have hMi : M = ipr ++ fr := by
        rw [hM1]
        apply stripLead_of_head
        cases ipr with
        | nil => exact absurd rfl hi
        | cons c r => simpa using hipr
      obtain ⟨J, hJ, hsh⟩ := shorten_C (sgn ++ zeros a) ipr fr (zeros b ++ E)
        ((sgn.length : Int) + a) ((sgn.length : Int) + a + ipr.length)
        ((sgn.length : Int) + a + ipr.length + 1 + fr.length) e0 hi hf
        (by simp [zeros_length]) (by simp [zeros_length]) rfl
      have hnum2 : num = (sgn ++ zeros a) ++ (ipr ++ (46 :: (fr ++ (zeros b ++ E)))) := by
        rw [hnum, hDP]; simp
      rw [hnum2, hsh]
      refine ⟨J, by rw [hMi]; simp [zeros_length] at hJ ⊢; omega, ?_⟩
      rw [if_neg hMne, if_neg hf, hMi]
      simp only []
      have : e0 - (fr.length : Int) = e0 + -(fr.length : Int) := by omega
      rw [this]
      simp [zeros_length]

/-! ## The scanning loop on a literal -/

theorem isDigit_iff (c : Nat) : isDigit c = true ↔ 48 ≤ c ∧ c ≤ 57 := by
  simp [isDigit]

theorem scanLoop_skip (pInt : List Nat → Option Int) (num : List Nat) :
    ∀ (ds rest : List Nat) (i dot end_ : Int),
      (∀ c ∈ ds, c ≠ 46 ∧ c ≠ 101 ∧ c ≠ 69) →
      scanLoop pInt num (ds ++ rest) i dot end_ =
        scanLoop pInt num rest (i + ds.length) dot end_ := by
  intro ds
  induction ds with
  | nil => intro rest i dot end_ _; simp
  | cons c ds ih =>
    intro rest i dot end_ h
    obtain ⟨h1, h2, h3⟩ := h c (List.mem_cons_self _ _)
    rw [List.cons_append, scanLoop]
    rw [if_neg h1, if_neg (by omega)]
    rw [ih rest (i + 1) dot end_ (fun x hx => h x (List.mem_cons_of_mem _ hx))]
    have : i + 1 + (ds.length : Int) = i + ((c :: ds).length : Nat) := by
      simp; omega
    rw [this]

theorem scanLoop_exp (pInt : List Nat → Option Int) (pre es ed : List Nat) (em : Nat)
    (i dot end_ : Int) (hi : i = pre.length) (hem : em = 101 ∨ em = 69)
    (hes : es = [] ∨ es = [43] ∨ es = [45]) (hed : ∀ c ∈ ed, isDigit c = true) :
    scanLoop pInt (pre ++ (em :: (es ++ ed))) (em :: (es ++ ed)) i dot end_ =
      (pInt ((if es = [43] then [] else es) ++ ed)).elim ScanOut.ret
        (fun e => ScanOut.go dot i e) := by
  rw [scanLoop]
  rw [if_neg (by omega), if_pos hem]
  simp only []
  have hg : getB (pre ++ (em :: (es ++ ed))) (i + 1) = (es ++ ed).head? := by
    have := getB_append_right pre (em :: (es ++ ed)) 1
    rw [hi]
    simpa [List.head?_eq_getElem?] using this
  have hd1 : (pre ++ (em :: (es ++ ed))).drop (i + 1).toNat = es ++ ed := by
    have := drop_append_toNat pre (em :: (es ++ ed)) 1
    rw [hi]
    simpa using this
  have hd2 : (pre ++ (em :: (es ++ ed))).drop (i + 2).toNat = (es ++ ed).tail := by
    have := drop_append_toNat pre (em :: (es ++ ed)) 2
    rw [hi]
    simpa using this
  rw [hg]
  rcases hes with h | h | h
  · subst h
    have hne : ed.head? ≠ some 43 := by
      cases ed with
      | nil => simp
      | cons c r =>
        have := (isDigit_iff c).mp (hed c (List.mem_cons_self _ _))
        simp; omega
    simp only [List.nil_append] at hd1 ⊢
    rw [if_neg hne, hd1]
    cases h : pInt ed <;> simp [h]
  · subst h
    simp only [List.singleton_append, List.head?_cons, if_true, List.tail_cons] at hd2 ⊢
    rw [hd2]
    cases h : pInt ed <;> simp [h]
  · subst h
    simp only [List.singleton_append, List.head?_cons] at hd1 ⊢
    rw [if_neg (by simp), hd1]
    cases h : pInt (45 :: ed) <;> simp [h]

theorem render_eq (L : Lit) : L.render = L.sg ++ (L.ip ++ (L.pointPart ++ L.expPart)) := rfl

theorem expPart_head (L : Lit) (hwf : L.WF) :
    L.expPart.head? ≠ some 48 ∧ L.expPart.head? ≠ some 43 ∧ L.expPart.head? ≠ some 45 := by
  obtain ⟨_, _, _, _, _, h6⟩ := hwf
  unfold Lit.expPart
  cases hhe : L.he with
  | false => simp
  | true =>
    rw [hhe] at h6
    simp only [if_true] at h6 ⊢
    rcases h6.1 with h | h <;> rw [h] <;> simp

theorem unsigned_head (L : Lit) (hwf : L.WF) :
    (L.ip ++ (L.pointPart ++ L.expPart)).head? ≠ some 43 ∧
    (L.ip ++ (L.pointPart ++ L.expPart)).head? ≠ some 45 := by
  obtain ⟨_, h2, _, h4, h5, _⟩ := hwf
  cases hip : L.ip with
  | cons c r =>
    have := (isDigit_iff c).mp (h2 c (by rw [hip]; exact List.mem_cons_self _ _))
    simp; omega
  | nil =>
    rw [hip, List.nil_append] at h5
    have hpt : L.pt = true := by
      cases h : L.pt with
      | true => rfl
      | false => exact absurd (h4 h) h5
    simp [Lit.pointPart, hpt]

theorem dropPlus_render (L : Lit) (hwf : L.WF) :
    dropPlus L.render = L.minus ++ (L.ip ++ (L.pointPart ++ L.expPart)) := by
  have hh := unsigned_head L hwf
  rw [render_eq]
  unfold dropPlus Lit.minus
  rcases hwf.1 with h | h | h <;> rw [h]
  · simp only [List.nil_append]
    rw [if_neg hh.1, if_neg (by simp)]
    simp
  · simp
  · simp

theorem neg_render (L : Lit) (hwf : L.WF) :
    decide (L.render.head? = some 45) = decide (L.sg = [45]) := by
  have hh := unsigned_head L hwf
  rw [render_eq]
  rcases hwf.1 with h | h | h <;> rw [h]
  · simp only [List.nil_append]
    rw [decide_eq_false hh.2]
    simp
  · simp
  · simp

theorem minus_eq (L : Lit) : L.minus = signBytes (decide (L.sg = [45])) := by
  unfold Lit.minus signBytes
  by_cases h : L.sg = [45] <;> simp [h]

theorem scanLoop_render (pInt : List Nat → Option Int) (L : Lit) (hwf : L.WF) :
    scanLoop pInt (dropPlus L.render) (dropPlus L.render) 0 (-1) (dropPlus L.render).length =
      (L.parsedExp pInt).elim ScanOut.ret (fun e0 => ScanOut.go
        (if L.pt then (L.minus.length : Int) + L.ip.length else -1)
        ((L.minus.length : Int) + L.ip.length + L.pointPart.length) e0) := by
  have hwf0 := hwf
  obtain ⟨_, h2, h3, h4, h5, h6⟩ := hwf
  have hdig : ∀ ds : List Nat, (∀ c ∈ ds, isDigit c = true) →
      ∀ c ∈ ds, c ≠ 46 ∧ c ≠ 101 ∧ c ≠ 69 := by
    intro ds hds c hc
    have := (isDigit_iff c).mp (hds c hc)
    omega
  have hms : ∀ c ∈ L.minus ++ L.ip, c ≠ 46 ∧ c ≠ 101 ∧ c ≠ 69 := by
    intro c hc
    rcases List.mem_append.mp hc with h | h
    · unfold Lit.minus at h
      split at h
      · simp at h; omega
      · simp at h
    · exact hdig _ h2 c h
  rw [dropPlus_render L hwf0]
  generalize hbody : L.minus ++ (L.ip ++ (L.pointPart ++ L.expPart)) = body
  have hb1 : body = (L.minus ++ L.ip) ++ (L.pointPart ++ L.expPart) := by
    rw [← hbody]; simp
  have hstep1 : scanLoop pInt body body 0 (-1) body.length =
      scanLoop pInt body (L.pointPart ++ L.expPart) ((L.minus.length : Int) + L.ip.length)
        (-1) body.length := by
    conv_lhs => arg 3; rw [hb1]
    rw [scanLoop_skip pInt body _ _ _ _ _ hms]
    simp
  rw [hstep1]
  -- the exponent part, reached with `dot` set or not
  have hexp : ∀ dot : Int,
      scanLoop pInt body L.expPart ((L.minus.length : Int) + L.ip.length + L.pointPart.length)
        dot body.length =
      (L.parsedExp pInt).elim ScanOut.ret (fun e0 => ScanOut.go dot
        ((L.minus.length : Int) + L.ip.length + L.pointPart.length) e0) := by
    intro dot
    unfold Lit.parsedExp
    cases hhe : L.he with
    | false =>
      have hE : L.expPart = [] := by simp [Lit.expPart, hhe]
      rw [hE, scanLoop]
      simp only [Bool.false_eq_true, if_false, Option.elim]
      rw [hb1, hE]
      simp
      omega
    | true =>
      rw [hhe] at h6
      simp only [if_true] at h6
      have hE : L.expPart = L.em :: (L.es ++ L.ed) := by simp [Lit.expPart, hhe]
      have hb2 : body = (L.minus ++ (L.ip ++ L.pointPart)) ++ (L.em :: (L.es ++ L.ed)) := by
        rw [← hbody, hE]; simp
      rw [hE]
      conv_lhs => arg 2; rw [hb2]
      rw [scanLoop_exp pInt _ L.es L.ed L.em _ dot body.length (by simp; omega) h6.1 h6.2.1
        h6.2.2.2]
      simp [Lit.expArg]
  cases hpt : L.pt with
  | false =>
    have hP : L.pointPart = [] := by simp [Lit.pointPart, hpt]
    have := hexp (-1)
    rw [hP] at this ⊢
    simpa using this
  | true =>
    have hP : L.pointPart = 46 :: L.fp := by simp [Lit.pointPart, hpt]
    have := hexp ((L.minus.length : Int) + L.ip.length)
    rw [hP] at this ⊢
    rw [List.cons_append, scanLoop, if_pos rfl]
    rw [scanLoop_skip pInt body _ _ _ _ _ (hdig _ h3)]
    simp only [if_true]
    rw [← this]
    simp
    ring_nf

theorem wrap64_range (x : Int) : -(2 ^ 63) ≤ wrap64 x ∧ wrap64 x < 2 ^ 63 := by
  unfold wrap64
  omega

theorem stripLead_zeros (n : Nat) : stripLead (zeros n) = [] := by
  have := stripLead_zeros_append n []
  simpa [stripLead] using this

theorem zeros_append_zeros (a b : Nat) : zeros a ++ zeros b = zeros (a + b) := by
  induction a with
  | zero => simp [zeros]
  | succ a ih =>
    have : a + 1 + b = (a + b) + 1 := by omega
    rw [this, zeros_succ, zeros_succ, List.cons_append, ih]

theorem mantissa_zeros (a b : Nat) (X : List Nat) :
    mantissa (zeros a ++ (X ++ zeros b)) = mantissa X := by
  unfold mantissa
  rw [stripLead_zeros_append]
  by_cases h : stripLead X = []
  · have hs := stripLead_split X
    rw [h, List.append_nil] at hs
    rw [h, hs, zeros_append_zeros, stripLead_zeros]
  · rw [stripLead_append_of_ne _ _ h, stripTrail_append_zeros]

theorem stripLead_length_zeros (a b : Nat) (X : List Nat) (h : stripLead X ≠ []) :
    (stripLead (zeros a ++ (X ++ zeros b))).length = (stripLead X).length + b := by
  rw [stripLead_zeros_append, stripLead_append_of_ne _ _ h]
  simp [zeros_length]

theorem dropPlus_length_le (l : List Nat) : (dropPlus l).length ≤ l.length := by
  unfold dropPlus
  split <;> simp

/-- The fail-soft return of `Number` on a well-formed literal: when `parse.Int`
fails on its exponent, the result is the input without a leading `+`. -/
theorem NumberWith_render_none (pInt : List Nat → Option Int) (lg : Int → Int) (L : Lit)
    (hwf : L.WF) (hpe : L.parsedExp pInt = none) :
    NumberWith pInt lg L.render = some (dropPlus L.render) := by
  have hnum0 : (if L.render.head? = some 43 then L.render.tail else L.render) =
      dropPlus L.render := rfl
  unfold NumberWith
  simp only []
  rw [hnum0, neg_render L hwf, scanLoop_render pInt L hwf, hpe]
  simp [Option.elim]

/-- The run of `Number` on a well-formed literal up to the call of `emit`: the
canonical zero when all digits are zero, and otherwise `emit` on a buffer that
holds the kept sign, the leading zeros, the canonical mantissa and the rest. -/
theorem NumberWith_front (pInt : List Nat → Option Int) (lg : Int → Int) (L : Lit)
    (hwf : L.WF) (e0 : Int) (hpe : L.parsedExp pInt = some e0) :
    ∃ J, L.minus.length + L.leadZeros + L.mant.length + J.length = (dropPlus L.render).length ∧
      NumberWith pInt lg L.render =
        if L.mant = [] then some zeroBytes
        else emit lg ((L.minus ++ zeros L.leadZeros) ++ (L.mant ++ J)) (decide (L.sg = [45]))
          ((L.minus ++ zeros L.leadZeros).length : Nat)
          (((L.minus ++ zeros L.leadZeros).length : Nat) + (L.mant.length : Int))
          (wrap64 (e0 + L.shift)) := by
  have hnum0 : (if L.render.head? = some 43 then L.render.tail else L.render) =
      dropPlus L.render := rfl
  unfold NumberWith
  simp only []
  rw [hnum0, neg_render L hwf, scanLoop_render pInt L hwf, hpe]
  simp only [Option.elim]
  -- the parts of the digits
  have hip := stripLead_split L.ip
  have ha : (List.takeWhile (fun x => x == 48) L.ip).length = L.leadZeros := rfl
  rw [ha] at hip
  obtain ⟨b, hfp⟩ := stripTrail_split L.fp
  have hipr := stripLead_head L.ip
  have hfr := stripTrail_last L.fp
  generalize hiprd : stripLead L.ip = ipr at hip hipr
  generalize hfrd : stripTrail L.fp = fr at hfp hfr
  have hpt : L.pt = false → fr = [] ∧ b = 0 := by
    intro h
    have h0 := hwf.2.2.2.1 h
    rw [h0] at hfp
    have h1 : fr = [] := by
      cases fr with
      | nil => rfl
      | cons c r => simp at hfp
    rw [h1] at hfp
    refine ⟨h1, ?_⟩
    have := congrArg List.length hfp
    simpa [zeros_length] using this.symm
  have hDP : L.pointPart = if L.pt then 46 :: (fr ++ zeros b) else [] := by
    unfold Lit.pointPart; rw [← hfp]
  have hbody : dropPlus L.render =
      L.minus ++ (zeros L.leadZeros ++ (ipr ++ (L.pointPart ++ L.expPart))) := by
    rw [dropPlus_render L hwf]
    conv_lhs => rw [hip]
    simp
  have hM : L.mant = mantissa (ipr ++ fr) := by
    unfold Lit.mant
    conv_lhs => rw [hip, hfp]
    rw [← mantissa_zeros L.leadZeros b (ipr ++ fr)]
    simp
  obtain ⟨J, hJ, hres⟩ := afterScan_eq lg (decide (L.sg = [45])) L.minus ipr fr L.expPart
    L.pointPart (dropPlus L.render) L.mant L.leadZeros b L.pt e0 hDP hbody hM hipr hfr hpt
    (expPart_head L hwf).1
  have hipl : (L.ip.length : Int) = L.leadZeros + ipr.length := by
    have := congrArg List.length hip
    simp [zeros_length] at this
    omega
  have hstart : (if decide (L.sg = [45]) = true then (1 : Int) else 0) = L.minus.length := by
    rw [minus_eq, signBytes_length]
  have hdot : (if L.pt = true then (L.minus.length : Int) + L.ip.length else -1) =
      (if L.pt = true then (L.minus.length : Int) + L.leadZeros + ipr.length else -1) := by
    rw [hipl]; simp only [add_assoc]
  have hend : (L.minus.length : Int) + L.ip.length + L.pointPart.length =
      (L.minus.length : Int) + L.leadZeros + ipr.length + L.pointPart.length := by
    rw [hipl]; simp only [add_assoc]
  refine ⟨J, hJ, ?_⟩
  rw [hstart, hdot, hend, hres]
  by_cases hM0 : L.mant = []
  · rw [if_pos hM0, if_pos hM0]
  · rw [if_neg hM0, if_neg hM0]
    -- the exponent handed to `emit`
    have hshift : (if fr = [] then (ipr.length : Int) - L.mant.length
        else -(fr.length : Int)) = L.shift := by
      have hne : stripLead (ipr ++ fr) ≠ [] := by
        intro h
        apply hM0
        rw [hM]; unfold mantissa; rw [h]; rfl
      have hsl : (stripLead (L.ip ++ L.fp)).length = (stripLead (ipr ++ fr)).length + b := by
        conv_lhs => rw [hip, hfp]
        rw [← stripLead_length_zeros L.leadZeros b (ipr ++ fr) hne]
        simp
      have hfl : (L.fp.length : Int) = fr.length + b := by
        have := congrArg List.length hfp
        simp [zeros_length] at this
        omega
      unfold Lit.shift
      rw [hsl, hfl]
      by_cases hf : fr = []
      · subst hf
        rw [if_pos rfl, List.append_nil, stripLead_of_head _ hipr]
        simp; omega
      · rw [if_neg hf]
        have hl : (ipr ++ fr).getLast? ≠ some 48 := by
          rw [List.getLast?_append_of_ne_nil _ hf]; exact hfr
        have := (mantissa_of_last (ipr ++ fr) hl (by simp [hf])).1
        rw [← hM] at this
        rw [this]
        push_cast
        omega
    rw [hshift]

/-- The closed form of `Number` with the exact integer logarithm: on the bytes
of a well-formed literal shorter than `2^62` bytes, `NumberWith` returns what
`NumberSpec` says, whatever `parse.Int` is. -/
theorem NumberWith_render (pInt : List Nat → Option Int) (L : Lit) (hwf : L.WF)
    (hlen : (L.render.length : Int) < 2 ^ 62) :
    NumberWith pInt intLog10 L.render = NumberSpec pInt L := by
  unfold NumberSpec
  cases hpe : L.parsedExp pInt with
  | none => exact NumberWith_render_none pInt intLog10 L hwf hpe
  | some e0 =>
    obtain ⟨J, hJ, hres⟩ := NumberWith_front pInt intLog10 L hwf e0 hpe
    rw [hres]
    simp only []
    by_cases hM0 : L.mant = []
    · rw [if_pos hM0, if_pos hM0]
    · rw [if_neg hM0, if_neg hM0]
      have hr := wrap64_range (e0 + L.shift)
      have hPne : decide (L.sg = [45]) = true → L.minus ++ zeros L.leadZeros ≠ [] := by
        intro h
        rw [minus_eq]
        exact signBytes_ne_nil _ _ h
      have hlen2 : (dropPlus L.render).length ≤ L.render.length := dropPlus_length_le _
      by_cases hmin : wrap64 (e0 + L.shift) = -(2 ^ 63)
      · rw [if_pos hmin, hmin]
        apply emit_minInt
        · omega
        · omega
        · simp only [List.length_append, zeros_length] at hJ ⊢
          push_cast
          omega
        · simp only [List.length_append, zeros_length] at hJ ⊢
          push_cast
          omega
      · rw [if_neg hmin]
        rw [emit_eq (L.minus ++ zeros L.leadZeros) L.mant J (decide (L.sg = [45])) _ _
          (wrap64 (e0 + L.shift)) rfl rfl hPne (by omega) hr.2
          (by simp only [List.length_append, zeros_length] at hJ ⊢; push_cast; omega)]
        have hroom : L.room = J.length := by
          unfold Lit.room
          omega
        rw [hroom, minus_eq]

/-! ## The reader of literals is sound -/

theorem takeSign_append (s : List Nat) : (takeSign s).1 ++ (takeSign s).2 = s := by
  cases s with
  | nil => rfl
  | cons c r =>
    rw [takeSign]
    by_cases h : isSign c = true
    · rw [if_pos h]; rfl
    · rw [if_neg h]; rfl

theorem takeSign_fst (s : List Nat) :
    (takeSign s).1 = [] ∨ (takeSign s).1 = [43] ∨ (takeSign s).1 = [45] := by
  cases s with
  | nil => left; rfl
  | cons c r =>
    rw [takeSign]
    by_cases h : isSign c = true
    · rw [if_pos h]
      have : c = 43 ∨ c = 45 := by simpa [isSign] using h
      rcases this with h | h <;> simp [h]
    · rw [if_neg h]; left; rfl

theorem mem_takeWhile_digit (l : List Nat) : ∀ c ∈ l.takeWhile isDigit, isDigit c = true :=
  fun _ hc => List.mem_takeWhile_imp hc

theorem parseLit_sound (s : List Nat) (L : Lit) (h : parseLit s = some L) :
    L.WF ∧ L.render = s := by
  unfold parseLit at h
  simp only [] at h
  have hs := takeSign_append s
  have hsg := takeSign_fst s
  generalize takeSign s = sr at h hs hsg
  have h1 := List.takeWhile_append_dropWhile isDigit sr.2
  generalize hr1 : sr.2.dropWhile isDigit = r1 at h h1
  have hip := mem_takeWhile_digit sr.2
  generalize sr.2.takeWhile isDigit = ip at h h1 hip
  have hfpd : ∀ c ∈ (if decide (r1.head? = some 46) = true then r1.tail.takeWhile isDigit
      else []), isDigit c = true := by
    split
    · exact mem_takeWhile_digit _
    · simp
  have hr2 : (if decide (r1.head? = some 46) = true then
      46 :: (if decide (r1.head? = some 46) = true then r1.tail.takeWhile isDigit else [])
      else []) ++
      (if decide (r1.head? = some 46) = true then r1.tail.dropWhile isDigit else r1) = r1 := by
    by_cases hp : r1.head? = some 46
    · simp only [hp, decide_True, if_true]
      cases r1 with
      | nil => simp at hp
      | cons c t =>
        simp only [List.head?_cons, Option.some.injEq] at hp
        subst hp
        simp [List.takeWhile_append_dropWhile]
    · simp [hp]
  have hptfp : decide (r1.head? = some 46) = false →
      (if decide (r1.head? = some 46) = true then r1.tail.takeWhile isDigit else []) = [] := by
    intro hh; simp [hh]
  generalize (if decide (r1.head? = some 46) = true then r1.tail.takeWhile isDigit else [])
    = fp at h hfpd hr2 hptfp
  generalize (if decide (r1.head? = some 46) = true then r1.tail.dropWhile isDigit else r1)
    = r2 at h hr2
  generalize decide (r1.head? = some 46) = pt at h hr2 hptfp
  split at h
  · cases h
  · rename_i hne
    split at h
    · -- no exponent part
      cases h
      refine ⟨⟨hsg, hip, hfpd, hptfp, hne, by simp⟩, ?_⟩
      unfold Lit.render
      simp only [Bool.false_eq_true, if_false, List.append_nil] at hr2 ⊢
      rw [hr2, h1, hs]
    · rename_i c t
      split at h
      · rename_i hc
        have he := takeSign_append t
        have hes := takeSign_fst t
        generalize takeSign t = er at h he hes
        split at h
        · rename_i hd
          cases h
          refine ⟨⟨hsg, hip, hfpd, hptfp, hne, ?_⟩, ?_⟩
          · simp only [if_true]
            refine ⟨hc, hes, hd.1, ?_⟩
            intro x hx
            exact List.all_eq_true.mp hd.2 x hx
          · unfold Lit.render
            simp only [if_true]
            rw [he]
            have : (if pt = true then 46 :: fp else []) ++ c :: t = r1 := hr2
            rw [this, h1, hs]
        · cases h
      · cases h

theorem validNumber_sound (s : List Nat) (h : validNumber s = true) :
    ∃ L, parseLit s = some L ∧ L.WF ∧ L.render = s := by
  unfold validNumber at h
  cases hp : parseLit s with
  | none => rw [hp] at h; simp at h
  | some L => exact ⟨L, rfl, parseLit_sound s L hp⟩

/-! ## `parse.Int` on the exponent of a literal -/

theorem foldl_digits_ge (ds : List Nat) : ∀ n : Nat,
    n ≤ ds.foldl (fun a c => 10 * a + (c - 48)) n := by
  induction ds with
  | nil => intro n; simp
  | cons c r ih =>
    intro n
    simp only [List.foldl_cons]
    have := ih (10 * n + (c - 48))
    omega

theorem parseIntLoop_eq (ds : List Nat) : ∀ n : Nat, (∀ c ∈ ds, isDigit c = true) →
    ds.foldl (fun a c => 10 * a + (c - 48)) n ≤ 2 ^ 63 →
    parseIntLoop ds n = some (ds.foldl (fun a c => 10 * a + (c - 48)) n) := by
  induction ds with
  | nil => intro n _ _; rfl
  | cons c r ih =>
    intro n hd hb
    simp only [List.foldl_cons] at hb ⊢
    have hc := (isDigit_iff c).mp (hd c (List.mem_cons_self _ _))
    have hge := foldl_digits_ge r (10 * n + (c - 48))
    rw [parseIntLoop]
    rw [if_neg (by omega), if_pos hc]
    have hm : (n * 10 + (c - 48)) % 2 ^ 64 = 10 * n + (c - 48) := by omega
    rw [hm]
    exact ih _ (fun x hx => hd x (List.mem_cons_of_mem _ hx)) hb

theorem parseInt_expArg (L : Lit) (hwf : L.WF) (hhe : L.he = true)
    (h1 : -(2 ^ 63) ≤ L.expVal) (h2 : L.expVal < 2 ^ 63) :
    parseInt L.expArg = some L.expVal := by
  obtain ⟨_, _, _, _, _, h6⟩ := hwf
  rw [hhe] at h6
  simp only [if_true] at h6
  obtain ⟨_, hes, hne, hd⟩ := h6
  unfold Lit.expVal at h1 h2 ⊢
  rw [if_pos hhe] at h1 h2 ⊢
  have hhead : L.ed.head? ≠ some 43 ∧ L.ed.head? ≠ some 45 := by
    cases hed : L.ed with
    | nil => simp
    | cons c r =>
      have := (isDigit_iff c).mp (hd c (by rw [hed]; exact List.mem_cons_self _ _))
      simp; omega
  unfold Lit.expArg parseInt natVal at *
  rcases hes with h | h | h
  · rw [h] at h1 h2 ⊢
    simp only [if_neg (by simp : ¬ (([] : List Nat) = [45])),
      if_neg (by simp : ¬ (([] : List Nat) = [43])), List.nil_append] at h1 h2 ⊢
    rw [if_neg (by rw [not_or]; exact hhead), decide_eq_false hhead.2]
    rw [parseIntLoop_eq L.ed 0 hd (by omega)]
    simp only []
    rw [if_neg (by simp; omega)]
    simp
  · rw [h] at h1 h2 ⊢
    simp only [if_neg (by simp : ¬ ([43] = [45])), if_true, List.nil_append] at h1 h2 ⊢
    rw [if_neg (by rw [not_or]; exact hhead), decide_eq_false hhead.2]
    rw [parseIntLoop_eq L.ed 0 hd (by omega)]
    simp only []
    rw [if_neg (by simp; omega)]
    simp
  · rw [h] at h1 h2 ⊢
    simp only [if_true, if_neg (by simp : ¬ ([45] = [43])), List.singleton_append,
      List.head?_cons, List.tail_cons] at h1 h2 ⊢
    rw [if_pos (by simp)]
    rw [parseIntLoop_eq L.ed 0 hd (by omega)]
    simp only [decide_True]
    rw [if_neg (by simp; omega)]
    simp

theorem parsedExp_parseInt (L : Lit) (hwf : L.WF)
    (h1 : -(2 ^ 63) ≤ L.expVal) (h2 : L.expVal < 2 ^ 63) :
    L.parsedExp parseInt = some L.expVal := by
  unfold Lit.parsedExp
  cases hhe : L.he with
  | true => simp only [if_true]; exact parseInt_expArg L hwf hhe h1 h2
  | false => simp [Lit.expVal, hhe]

/-! ## Literals of value zero -/

theorem natVal_eq_zero (ds : List Nat) (hd : ∀ c ∈ ds, isDigit c = true) :
    ∀ n : Nat, ds.foldl (fun a c => 10 * a + (c - 48)) n = 0 ↔ n = 0 ∧ ∀ c ∈ ds, c = 48 := by
  induction ds with
  | nil => intro n; simp
  | cons c r ih =>
    intro n
    have hc := (isDigit_iff c).mp (hd c (List.mem_cons_self _ _))
    simp only [List.foldl_cons, List.mem_cons, forall_eq_or_imp]
    rw [ih (fun x hx => hd x (List.mem_cons_of_mem _ hx))]
    constructor
    · rintro ⟨h1, h2⟩
      exact ⟨by omega, by omega, h2⟩
    · rintro ⟨h1, h2, h3⟩
      exact ⟨by omega, h3⟩

theorem mantissa_nil_of_zeros (ds : List Nat) (h : ∀ c ∈ ds, c = 48) : mantissa ds = [] := by
  have : ds = zeros ds.length := by
    unfold zeros
    exact List.eq_replicate_iff.mpr ⟨rfl, h⟩
  rw [this]
  unfold mantissa
  rw [stripLead_zeros]
  rfl

theorem zeros_of_mantissa_nil (ds : List Nat) (h : mantissa ds = []) : ∀ c ∈ ds, c = 48 := by
  unfold mantissa at h
  have h2 : stripLead ds = [] := by
    by_contra hne
    exact stripTrail_ne_nil _ hne (stripLead_head ds) h
  have hs := stripLead_split ds
  rw [h2, List.append_nil] at hs
  intro c hc
  rw [hs] at hc
  exact mem_zeros _ c hc

theorem value_eq_zero_iff (L : Lit) (hwf : L.WF) : L.value = 0 ↔ L.mant = [] := by
  have hd : ∀ c ∈ L.ip ++ L.fp, isDigit c = true := by
    intro c hc
    rcases List.mem_append.mp hc with h | h
    · exact hwf.2.1 c h
    · exact hwf.2.2.1 c h
  have hn := natVal_eq_zero (L.ip ++ L.fp) hd 0
  unfold Lit.value Lit.mant
  have h10 : (10 : ℚ) ^ (L.expVal - (L.fp.length : Int)) ≠ 0 := zpow_ne_zero _ (by norm_num)
  have hs : (if L.sg = [45] then (-1 : ℚ) else 1) ≠ 0 := by split <;> norm_num
  constructor
  · intro h
    have h0 : (natVal (L.ip ++ L.fp) : ℚ) = 0 := by
      rcases mul_eq_zero.mp h with h | h
      · rcases mul_eq_zero.mp h with h | h
        · exact absurd h hs
        · exact h
      · exact absurd h h10
    have h1 : natVal (L.ip ++ L.fp) = 0 := by exact_mod_cast h0
    exact mantissa_nil_of_zeros _ (hn.mp h1).2
  · intro h
    have h1 : natVal (L.ip ++ L.fp) = 0 := hn.mpr ⟨rfl, zeros_of_mantissa_nil _ h⟩
    rw [h1]
    simp

theorem exponentOf_eq (s : List Nat) (L : Lit) (h : parseLit s = some L) :
    exponentOf s = L.expVal := by
  unfold exponentOf; rw [h]

theorem Number_of_valid (s : List Nat) (L : Lit) (hp : parseLit s = some L)
    (hlen : (s.length : Int) < 2 ^ 62) : Number s = NumberSpec parseInt L := by
  obtain ⟨hwf, hr⟩ := parseLit_sound s L hp
  unfold Number
  rw [← hr] at hlen ⊢
  exact NumberWith_render parseInt L hwf hlen

theorem NumberSpec_zero (L : Lit) (hwf : L.WF) (he1 : -(2 ^ 63) ≤ L.expVal)
    (he2 : L.expVal < 2 ^ 63) (hm : L.mant = []) : NumberSpec parseInt L = some (bytes "0") := by
  unfold NumberSpec
  rw [parsedExp_parseInt L hwf he1 he2]
  simp only []
  rw [if_pos hm]
  rfl

theorem Number_render_zero (L : Lit) (hwf : L.WF) (he1 : -(2 ^ 63) ≤ L.expVal)
    (he2 : L.expVal < 2 ^ 63) (hm : L.mant = []) : Number L.render = some (bytes "0") := by
  obtain ⟨J, _, h⟩ := NumberWith_front parseInt intLog10 L hwf L.expVal
    (parsedExp_parseInt L hwf he1 he2)
  unfold Number
  rw [h, if_pos hm]
  rfl

/-- Claim C6, as amended: for every valid numeric literal whose value is zero
and whose exponent, if it has one, lies in the `int64` range, `Number` returns
exactly the one-byte sequence "0". -/
theorem Number_zero (s : List Nat) (hv : validNumber s = true) (hz : valueOf s = some 0)
    (he1 : -(2 ^ 63) ≤ exponentOf s) (he2 : exponentOf s < 2 ^ 63) :
    Number s = some (bytes "0") := by
  obtain ⟨L, hp, hwf, hr⟩ := validNumber_sound s hv
  rw [exponentOf_eq s L hp] at he1 he2
  have hval : L.value = 0 := by
    unfold valueOf at hz
    rw [hp] at hz
    simpa using hz
  rw [← hr]
  exact Number_render_zero L hwf he1 he2 ((value_eq_zero_iff L hwf).mp hval)

theorem valueOf_zero_of (s : List Nat) (L : Lit) (hp : parseLit s = some L)
    (h : natVal (L.ip ++ L.fp) = 0) : valueOf s = some 0 := by
  unfold valueOf
  rw [hp]
  simp [Lit.value, h]

/-- The canonical zero at concrete inputs: "-0.0e5" is a valid literal of value
zero with the exponent 5, and is mapped to "0". -/
theorem Number_zero_witness :
    validNumber (bytes "-0.0e5") = true ∧ valueOf (bytes "-0.0e5") = some 0 ∧
    Number (bytes "-0.0e5") = some (bytes "0") :=
  ⟨by decide,
   valueOf_zero_of _ ⟨[45], [48], true, [48], true, 101, [], [53]⟩ (by decide) (by decide),
   Number_zero (bytes "-0.0e5") (by decide)
     (valueOf_zero_of _ ⟨[45], [48], true, [48], true, 101, [], [53]⟩ (by decide) (by decide))
     (by decide) (by decide)⟩

/-- Claim C6 as stated fails: "0e99999999999999999999" is a valid literal of
value zero, its exponent does not fit an `int64`, and `Number` returns it
unchanged instead of "0". -/
theorem Number_zero_failSoft :
    validNumber (bytes "0e99999999999999999999") = true ∧
    valueOf (bytes "0e99999999999999999999") = some 0 ∧
    Number (bytes "0e99999999999999999999") = some (bytes "0e99999999999999999999") ∧
    Number (bytes "0e99999999999999999999") ≠ some (bytes "0") :=
  ⟨by decide,
   valueOf_zero_of _ ⟨[], [48], false, [], true, 101, [], bytes "99999999999999999999"⟩
     (by decide) (by decide),
   by decide, by decide⟩

/-! ## Signs -/



theorem withSign_WF (L : Lit) (sg : List Nat) (hwf : L.WF)
    (hsg : sg = [] ∨ sg = [43] ∨ sg = [45]) : (L.withSign sg).WF := by
  obtain ⟨_, h2, h3, h4, h5, h6⟩ := hwf
  exact ⟨hsg, h2, h3, h4, h5, h6⟩

theorem withSign_render (L : Lit) (sg : List Nat) (h : L.sg = []) :
    (L.withSign sg).render = sg ++ L.render := by
  unfold Lit.withSign Lit.render
  rw [h]
  simp

theorem unsigned_sg (u : List Nat) (L : Lit) (hp : parseLit u = some L)
    (h1 : u.head? ≠ some 43) (h2 : u.head? ≠ some 45) : L.sg = [] := by
  obtain ⟨hwf, hr⟩ := parseLit_sound u L hp
  rw [render_eq] at hr
  rcases hwf.1 with h | h | h
  · exact h
  · rw [h] at hr; rw [← hr] at h1; simp at h1
  · rw [h] at hr; rw [← hr] at h2; simp at h2

theorem NumberSpec_plus (pInt : List Nat → Option Int) (L : Lit) (hwf : L.WF) (h : L.sg = []) :
    NumberSpec pInt (L.withSign [43]) = NumberSpec pInt L := by
  have hwf2 := withSign_WF L [43] hwf (by simp)
  have hd1 := dropPlus_render L hwf
  have hd2 := dropPlus_render (L.withSign [43]) hwf2
  have hm1 : L.minus = [] := by simp [Lit.minus, h]
  have hm2 : (L.withSign [43]).minus = [] := by simp [Lit.minus, Lit.withSign]
  have hd : dropPlus (L.withSign [43]).render = dropPlus L.render := by
    rw [hd1, hd2, hm1, hm2]; rfl
  unfold NumberSpec Lit.room
  rw [hd, hm1, hm2]
  rfl

theorem NumberSpec_minus (pInt : List Nat → Option Int) (L : Lit) (hwf : L.WF) (h : L.sg = [])
    (hm : L.mant ≠ []) :
    NumberSpec pInt (L.withSign [45]) = (NumberSpec pInt L).map (fun r => 45 :: r) := by
  have hwf2 := withSign_WF L [45] hwf (by simp)
  have hd1 := dropPlus_render L hwf
  have hd2 := dropPlus_render (L.withSign [45]) hwf2
  have hm1 : L.minus = [] := by simp [Lit.minus, h]
  have hm2 : (L.withSign [45]).minus = [45] := by simp [Lit.minus, Lit.withSign]
  have hd : dropPlus (L.withSign [45]).render = 45 :: dropPlus L.render := by
    rw [hd1, hd2, hm1, hm2]; rfl
  have hmant : (L.withSign [45]).mant = L.mant := rfl
  have hshift : (L.withSign [45]).shift = L.shift := rfl
  have hpe : (L.withSign [45]).parsedExp pInt = L.parsedExp pInt := rfl
  have hlz : (L.withSign [45]).leadZeros = L.leadZeros := rfl
  have hroom : (L.withSign [45]).room = L.room := by
    unfold Lit.room
    rw [hd, hm1, hm2, hmant, hlz]
    simp
  unfold NumberSpec
  rw [hpe, hmant, hshift, hroom, hd, hm1, hm2]
  cases L.parsedExp pInt with
  | none => rfl
  | some e0 =>
    simp only []
    rw [if_neg hm, if_neg hm]
    by_cases he : wrap64 (e0 + L.shift) = -(2 ^ 63)
    · rw [if_pos he, if_pos he]; rfl
    · rw [if_neg he, if_neg he]
      cases emitSpec L.mant (wrap64 (e0 + L.shift)) L.room <;> simp

theorem valueOf_ne_zero_of (s : List Nat) (L : Lit) (hp : parseLit s = some L)
    (h : L.mant ≠ []) : valueOf s ≠ some 0 := by
  obtain ⟨hwf, _⟩ := parseLit_sound s L hp
  unfold valueOf
  rw [hp]
  simp only [Option.map_some', ne_eq, Option.some.injEq]
  intro hv
  exact h ((value_eq_zero_iff L hwf).mp hv)

theorem Number_plus (u : List Nat) (h1 : u.head? ≠ some 43) (h2 : u.head? ≠ some 45) :
    Number (43 :: u) = Number u := by
  unfold Number NumberWith
  simp [h1, h2]

/-- Claim C7, as amended: for every valid unsigned literal `u`, `Number` of `+u`
is `Number` of `u`; when the value of `u` is not zero (and `u` has fewer than
`2^62 - 1` bytes), `Number` of `-u` is `-` followed by `Number` of `u`, and
fails when that fails; when the value is zero and the exponent lies in the
`int64` range, `Number` of `-u` is "0". -/
theorem Number_sign (u : List Nat) (hv : validNumber u = true)
    (h1 : u.head? ≠ some 43) (h2 : u.head? ≠ some 45) :
    Number (43 :: u) = Number u ∧
    (valueOf u ≠ some 0 → (u.length : Int) + 1 < 2 ^ 62 →
      Number (45 :: u) = (Number u).map (fun r => 45 :: r)) ∧
    (valueOf u = some 0 → -(2 ^ 63) ≤ exponentOf u → exponentOf u < 2 ^ 63 →
      Number (45 :: u) = some (bytes "0")) := by
  obtain ⟨L, hp, hwf, hr⟩ := validNumber_sound u hv
  have hsg := unsigned_sg u L hp h1 h2
  have hren : (L.withSign [45]).render = 45 :: u := by
    rw [withSign_render L [45] hsg, hr]; rfl
  refine ⟨Number_plus u h1 h2, ?_, ?_⟩
  · intro hnz hlen
    have hu : Number u = NumberSpec parseInt L := Number_of_valid u L hp (by omega)
    have hminus : Number (45 :: u) = NumberSpec parseInt (L.withSign [45]) := by
      have := NumberWith_render parseInt (L.withSign [45]) (withSign_WF L [45] hwf (by simp))
        (by rw [hren]; simp; omega)
      rw [hren] at this
      exact this
    have hm : L.mant ≠ [] := by
      intro hm
      apply hnz
      unfold valueOf
      rw [hp]
      simp [(value_eq_zero_iff L hwf).mpr hm]
    rw [hminus, hu]
    exact NumberSpec_minus parseInt L hwf hsg hm
  · intro hz he1 he2
    rw [exponentOf_eq u L hp] at he1 he2
    have hval : L.value = 0 := by
      unfold valueOf at hz
      rw [hp] at hz
      simpa using hz
    rw [← hren]
    exact Number_render_zero (L.withSign [45]) (withSign_WF L [45] hwf (by simp)) he1 he2
      ((value_eq_zero_iff L hwf).mp hval)

/-- The sign handling at concrete inputs: "+1.50" and "1.50" both give "1.5",
"-1.50" gives "-1.5", and "-0.0" gives "0". -/
theorem Number_sign_witness :
    (Number (bytes "+1.50") = Number (bytes "1.50") ∧
      Number (bytes "-1.50") = (Number (bytes "1.50")).map (fun r => 45 :: r)) ∧
    Number (bytes "-0.0") = some (bytes "0") :=
  ⟨⟨(Number_sign (bytes "1.50") (by decide) (by decide) (by decide)).1,
    (Number_sign (bytes "1.50") (by decide) (by decide) (by decide)).2.1
      (valueOf_ne_zero_of _ ⟨[], [49], true, [53, 48], false, 0, [], []⟩ (by decide)
        (by decide)) (by decide)⟩,
   (Number_sign (bytes "0.0") (by decide) (by decide) (by decide)).2.2
      (valueOf_zero_of _ ⟨[], [48], true, [48], false, 0, [], []⟩ (by decide) (by decide))
      (by decide) (by decide)⟩

/-- Claim C7 as stated fails: "0e99999999999999999999" is a valid unsigned
literal of value zero, and `Number` of it with a `-` in front is not "0": the
exponent does not fit an `int64` and the input is returned as it is. -/
theorem Number_sign_zero_failSoft :
    validNumber (bytes "0e99999999999999999999") = true ∧
    valueOf (bytes "0e99999999999999999999") = some 0 ∧
    Number (45 :: bytes "0e99999999999999999999") ≠ some (bytes "0") :=
  ⟨by decide,
   valueOf_zero_of _ ⟨[], [48], false, [], true, 101, [], bytes "99999999999999999999"⟩
     (by decide) (by decide),
   by decide⟩

/-! ## The lengths of the parts of a literal -/

theorem anatomy (L : Lit) (hwf : L.WF) (hm : L.mant ≠ []) :
    ∃ i f b : Nat, L.ip.length = L.leadZeros + i ∧ L.fp.length = f + b ∧
      (L.pt = false → f = 0 ∧ b = 0) ∧
      (f = 0 → L.shift = (i : Int) - L.mant.length ∧ L.mant.length ≤ i) ∧
      (0 < f → L.shift = -(f : Int) ∧ (0 < i → L.mant.length = i + f) ∧
        (i = 0 → L.mant.length ≤ f)) ∧
      0 < L.mant.length := by
  have hip := stripLead_split L.ip
  have ha : L.leadZeros = (List.takeWhile (fun x => x == 48) L.ip).length := rfl
  rw [← ha] at hip
  obtain ⟨b, hfp⟩ := stripTrail_split L.fp
  have hipr := stripLead_head L.ip
  have hfr := stripTrail_last L.fp
  generalize stripLead L.ip = ipr at hip hipr
  generalize stripTrail L.fp = fr at hfp hfr
  have hM : L.mant = mantissa (ipr ++ fr) := by
    unfold Lit.mant
    conv_lhs => rw [hip, hfp]
    rw [← mantissa_zeros L.leadZeros b (ipr ++ fr)]
    simp
  have hne : stripLead (ipr ++ fr) ≠ [] := by
    intro h
    apply hm
    rw [hM]; unfold mantissa; rw [h]; rfl
  have hsl : (stripLead (L.ip ++ L.fp)).length = (stripLead (ipr ++ fr)).length + b := by
    conv_lhs => rw [hip, hfp]
    rw [← stripLead_length_zeros L.leadZeros b (ipr ++ fr) hne]
    simp
  have hipl : L.ip.length = L.leadZeros + ipr.length := by
    have := congrArg List.length hip
    simpa [zeros_length] using this
  have hfl : L.fp.length = fr.length + b := by
    have := congrArg List.length hfp
    simpa [zeros_length] using this
  refine ⟨ipr.length, fr.length, b, hipl, hfl, ?_, ?_, ?_, List.length_pos.mpr hm⟩
  · intro h
    have h0 := hwf.2.2.2.1 h
    rw [h0] at hfl
    simp at hfl
    omega
  · intro hf0
    have hf : fr = [] := List.length_eq_zero.mp hf0
    subst hf
    rw [List.append_nil] at hM hsl
    rw [stripLead_of_head _ hipr] at hsl
    have hMi : L.mant = stripTrail ipr := by
      rw [hM]; unfold mantissa; rw [stripLead_of_head _ hipr]
    obtain ⟨k, hk⟩ := stripTrail_split ipr
    rw [← hMi] at hk
    have hlen : ipr.length = L.mant.length + k := by
      have := congrArg List.length hk
      simpa [zeros_length] using this
    unfold Lit.shift
    rw [hsl]
    push_cast
    omega
  · intro hfpos
    have hf : fr ≠ [] := List.length_pos.mp hfpos
    have hl : (ipr ++ fr).getLast? ≠ some 48 := by
      rw [List.getLast?_append_of_ne_nil _ hf]; exact hfr
    have hM1 := (mantissa_of_last (ipr ++ fr) hl (by simp [hf])).1
    rw [← hM] at hM1
    refine ⟨?_, ?_, ?_⟩
    · unfold Lit.shift
      rw [hsl, ← hM1]
      push_cast
      omega
    · intro hi
      have hi2 : ipr ≠ [] := List.length_pos.mp hi
      have : stripLead (ipr ++ fr) = ipr ++ fr := by
        apply stripLead_of_head
        cases ipr with
        | nil => exact absurd rfl hi2
        | cons c r => simpa using hipr
      rw [hM1, this]
      simp
    · intro hi
      have hi2 : ipr = [] := List.length_eq_zero.mp hi
      subst hi2
      rw [List.nil_append] at hM1
      rw [hM1]
      have hs := stripLead_split fr
      have := congrArg List.length hs
      simp [zeros_length] at this
      omega

theorem expPart_length (L : Lit) (hwf : L.WF) :
    (L.he = false → L.expPart.length = 0 ∧ L.expVal = 0) ∧
    (L.he = true → L.expPart.length = 1 + L.es.length + L.ed.length ∧ 1 ≤ L.ed.length) ∧
    (L.expVal < 0 → L.he = true ∧ L.es.length = 1) := by
  obtain ⟨_, _, _, _, _, h6⟩ := hwf
  cases hhe : L.he with
  | false =>
    simp [Lit.expPart, Lit.expVal, hhe]
  | true =>
    rw [hhe] at h6
    simp only [if_true] at h6
    refine ⟨by simp, ?_, ?_⟩
    · intro _
      refine ⟨by simp [Lit.expPart, hhe]; omega, ?_⟩
      exact List.length_pos.mpr h6.2.2.1
    · intro hneg
      refine ⟨rfl, ?_⟩
      unfold Lit.expVal at hneg
      rw [if_pos hhe] at hneg
      by_cases h45 : L.es = [45]
      · rw [h45]; rfl
      · rw [if_neg h45] at hneg
        omega

theorem pointPart_length (L : Lit) :
    L.pointPart.length = if L.pt then 1 + L.fp.length else 0 := by
  unfold Lit.pointPart
  split <;> simp; omega

theorem minus_length_le (L : Lit) : L.minus.length ≤ 1 := by
  unfold Lit.minus; split <;> simp

theorem room_eq (L : Lit) (hwf : L.WF) (i : Nat) (hi : L.ip.length = L.leadZeros + i) :
    L.room = i + L.pointPart.length + L.expPart.length - L.mant.length := by
  unfold Lit.room
  rw [dropPlus_render L hwf]
  simp only [List.length_append]
  omega

theorem mem_stripTrail (ds : List Nat) : ∀ c ∈ stripTrail ds, c ∈ ds := by
  intro c hc
  obtain ⟨k, hk⟩ := stripTrail_split ds
  rw [hk]
  exact List.mem_append_left _ hc

theorem mem_mantissa (ds : List Nat) : ∀ c ∈ mantissa ds, c ∈ ds := by
  intro c hc
  have h1 := mem_stripTrail _ c hc
  unfold stripLead at h1
  exact (List.dropWhile_sublist _).subset h1

theorem mant_digits (L : Lit) (hwf : L.WF) : ∀ c ∈ L.mant, isDigit c = true := by
  intro c hc
  have := mem_mantissa _ c hc
  rcases List.mem_append.mp this with h | h
  · exact hwf.2.1 c h
  · exact hwf.2.2.1 c h

/-! ## Literals whose exponent arithmetic stays in range -/

theorem render_length (L : Lit) :
    L.render.length = L.sg.length + L.ip.length + L.pointPart.length + L.expPart.length := by
  rw [render_eq]; simp only [List.length_append]; omega

theorem shift_bound (L : Lit) (hwf : L.WF) (hm : L.mant ≠ []) :
    -(L.render.length : Int) ≤ L.shift ∧ L.shift ≤ L.render.length := by
  obtain ⟨i, f, b, h1, h2, h3, h4, h5, h6⟩ := anatomy L hwf hm
  have hr := render_length L
  have hp := pointPart_length L
  by_cases hf : f = 0
  · obtain ⟨hs, hl⟩ := h4 hf
    omega
  · obtain ⟨hs, _, _⟩ := h5 (by omega)
    have hpt : L.pt = true := by
      cases h : L.pt with
      | true => rfl
      | false => exact absurd (h3 h).1 hf
    rw [hpt] at hp
    simp only [if_true] at hp
    omega

theorem NumberSpec_inRange (L : Lit) (hwf : L.WF) (hm : L.mant ≠ [])
    (hb : (L.render.length : Int) + |L.expVal| < 2 ^ 62) :
    NumberSpec parseInt L = (emitSpec L.mant L.exp10 L.room).map (fun r => L.minus ++ r) := by
  have hs := shift_bound L hwf hm
  have habs := abs_le.mp (le_refl |L.expVal|)
  have hlen : (0 : Int) ≤ L.render.length := by omega
  unfold NumberSpec
  rw [parsedExp_parseInt L hwf (by omega) (by omega)]
  simp only []
  rw [if_neg hm]
  have hw : wrap64 (L.expVal + L.shift) = L.exp10 := by
    unfold Lit.exp10
    exact wrap64_id _ (by omega) (by omega)
  rw [hw, if_neg]
  unfold Lit.exp10
  omega

theorem fixed_fits (L : Lit) (hwf : L.WF) (hm : L.mant ≠ []) :
    (L.exp10 < 0 → 0 < L.exp10 + L.mant.length → 1 ≤ L.room) ∧
    (L.exp10 < 0 → L.exp10 + L.mant.length ≤ 0 → -2 ≤ L.exp10 + L.mant.length →
      1 - (L.exp10 + L.mant.length) ≤ (L.room : Int)) ∧
    (0 < L.exp10 → L.exp10 ≤ 2 → L.exp10 ≤ (L.room : Int)) := by
  obtain ⟨i, f, b, h1, h2, h3, h4, h5, h6⟩ := anatomy L hwf hm
  obtain ⟨e1, e2, e3⟩ := expPart_length L hwf
  have hroom := room_eq L hwf i h1
  have hp := pointPart_length L
  unfold Lit.exp10
  have hhe : L.he = false ∨ L.he = true := by cases L.he <;> simp
  have hptc : L.pt = false ∨ L.pt = true := by cases L.pt <;> simp
  by_cases hf : f = 0
  · obtain ⟨hs, hl⟩ := h4 hf
    refine ⟨?_, ?_, ?_⟩
    · intro ha hb
      have := e3 (by omega)
      have := (e2 this.1).1
      omega
    · intro ha hb hc
      have := e3 (by omega)
      have := (e2 this.1).1
      have := (e2 (e3 (by omega)).1).2
      omega
    · intro ha hb
      rcases hhe with h | h
      · have := e1 h
        omega
      · have := e2 h
        omega
  · obtain ⟨hs, hi1, hi2⟩ := h5 (by omega)
    have hpt : L.pt = true := by
      rcases hptc with h | h
      · exact absurd (h3 h).1 hf
      · exact h
    rw [hpt] at hp
    simp only [if_true] at hp
    have hml : L.mant.length ≤ i + f := by
      by_cases hi : i = 0
      · have := hi2 hi; omega
      · have := hi1 (by omega); omega
    refine ⟨?_, ?_, ?_⟩
    · intro ha hb
      omega
    · intro ha hb hc
      by_cases hneg : L.expVal < 0
      · have := e3 hneg
        have := e2 this.1
        omega
      · by_cases hi : i = 0
        · have := hi2 hi; omega
        · have := hi1 (by omega); omega
    · intro ha hb
      rcases hhe with h | h
      · have := e1 h
        omega
      · have := e2 h
        omega

/-! ## The threshold between fixed-point and scientific form -/

theorem mantissaOf_eq (s : List Nat) (L : Lit) (h : parseLit s = some L) :
    mantissaOf s = L.mant := by
  unfold mantissaOf; rw [h]

theorem exp10Of_eq (s : List Nat) (L : Lit) (h : parseLit s = some L) :
    exp10Of s = L.exp10 := by
  unfold exp10Of; rw [h]

theorem mant_ne_nil_of (s : List Nat) (L : Lit) (hp : parseLit s = some L)
    (hnz : valueOf s ≠ some 0) : L.mant ≠ [] := by
  obtain ⟨hwf, _⟩ := parseLit_sound s L hp
  intro hm
  apply hnz
  unfold valueOf
  rw [hp]
  simp [(value_eq_zero_iff L hwf).mpr hm]

theorem Number_inRange (s : List Nat) (L : Lit) (hp : parseLit s = some L)
    (hnz : valueOf s ≠ some 0) (hb : (s.length : Int) + |exponentOf s| < 2 ^ 62) :
    Number s = (emitSpec L.mant L.exp10 L.room).map (fun r => L.minus ++ r) := by
  obtain ⟨hwf, hr⟩ := parseLit_sound s L hp
  have hm := mant_ne_nil_of s L hp hnz
  rw [exponentOf_eq s L hp] at hb
  have habs : (0 : Int) ≤ |L.expVal| := abs_nonneg _
  rw [Number_of_valid s L hp (by omega)]
  exact NumberSpec_inRange L hwf hm (by rw [hr]; exact hb)

theorem not_e_of_digit (c : Nat) (h : isDigit c = true ∨ c = 46 ∨ c = 45 ∨ c = 48) :
    c ≠ 101 ∧ c ≠ 69 := by
  rcases h with h | h | h | h
  · have := (isDigit_iff c).mp h; omega
  · omega
  · omega
  · omega

/-- The threshold with the exact integer logarithm: for every valid literal
with non-zero value whose length and exponent magnitude together stay below
`2^62`, with canonical mantissa `m`, canonical exponent `e` and
`relExp = e + len(m)`: when neither `relExp < -2` nor `e > 2`, `Number` returns
a result without `e` or `E`; when `relExp < -2` or `e > 2`, every result of
`Number` contains an `e`. -/
theorem exactLog_threshold (s : List Nat) (hv : validNumber s = true)
    (hnz : valueOf s ≠ some 0) (hb : (s.length : Int) + |exponentOf s| < 2 ^ 62) :
    (¬ (exp10Of s + (mantissaOf s).length < -2 ∨ 2 < exp10Of s) →
      ∃ r, Number s = some r ∧ 101 ∉ r ∧ 69 ∉ r) ∧
    ((exp10Of s + (mantissaOf s).length < -2 ∨ 2 < exp10Of s) →
      ∀ r, Number s = some r → 101 ∈ r) := by
  obtain ⟨L, hp, hwf, hr⟩ := validNumber_sound s hv
  have hm := mant_ne_nil_of s L hp hnz
  rw [Number_inRange s L hp hnz hb, exp10Of_eq s L hp, mantissaOf_eq s L hp]
  obtain ⟨f1, f2, f3⟩ := fixed_fits L hwf hm
  have hmd := mant_digits L hwf
  have hmin : ∀ c ∈ L.minus, c = 45 := by
    intro c hc
    unfold Lit.minus at hc
    split at hc
    · simpa using hc
    · simp at hc
  unfold emitSpec
  simp only []
  constructor
  · intro hsci
    have hclean : ∀ out : List Nat,
        (∀ c ∈ out, isDigit c = true ∨ c = 46 ∨ c = 45 ∨ c = 48) →
        ∃ r, Option.map (fun r => L.minus ++ r) (some out) = some r ∧ 101 ∉ r ∧ 69 ∉ r := by
      intro out hout
      refine ⟨L.minus ++ out, rfl, ?_, ?_⟩
      · intro h
        rcases List.mem_append.mp h with h | h
        · have := hmin _ h; omega
        · exact (not_e_of_digit _ (hout _ h)).1 rfl
      · intro h
        rcases List.mem_append.mp h with h | h
        · have := hmin _ h; omega
        · exact (not_e_of_digit _ (hout _ h)).2 rfl
    by_cases h0 : L.exp10 = 0
    · rw [if_pos h0]
      exact hclean _ (fun c hc => Or.inl (hmd c hc))
    rw [if_neg h0, if_neg hsci]
    by_cases hneg : L.exp10 < 0
    · rw [if_pos hneg]
      by_cases hrel : 0 < L.exp10 + (L.mant.length : Int)
      · rw [if_pos hrel, if_pos (f1 hneg hrel)]
        apply hclean
        intro c hc
        rcases List.mem_append.mp hc with h | h
        · exact Or.inl (hmd c (List.mem_of_mem_take h))
        · rcases List.mem_cons.mp h with h | h
          · exact Or.inr (Or.inl h)
          · exact Or.inl (hmd c (List.mem_of_mem_drop h))
      · rw [if_neg hrel, if_pos (f2 hneg (by omega) (by omega))]
        apply hclean
        intro c hc
        rcases List.mem_cons.mp hc with h | h
        · exact Or.inr (Or.inl h)
        · rcases List.mem_append.mp h with h | h
          · exact Or.inr (Or.inr (Or.inr (mem_zeros _ c h)))
          · exact Or.inl (hmd c h)
    · rw [if_neg hneg, if_pos (f3 (by omega) (by omega))]
      apply hclean
      intro c hc
      rcases List.mem_append.mp hc with h | h
      · exact Or.inl (hmd c h)
      · exact Or.inr (Or.inr (Or.inr (mem_zeros _ c h)))
  · intro hsci r hres
    have h0 : L.exp10 ≠ 0 := by
      intro h
      have := List.length_pos.mpr hm
      omega
    rw [if_neg h0, if_pos hsci] at hres
    by_cases hfit : (L.mant ++ 101 :: ((if L.exp10 < 0 then [45] else []) ++
        expDigits L.exp10.natAbs)).length ≤ L.mant.length + L.room
    · rw [if_pos hfit] at hres
      simp only [Option.map_some', Option.some.injEq] at hres
      rw [← hres]
      simp
    · rw [if_neg hfit] at hres
      simp at hres

/-- Claim C8 as stated fails: "1E99999999999999999999" is a valid literal with
non-zero value and the canonical exponent 99999999999999999999, above 2, and
the result of `Number`, the input itself, contains no `e`. -/
theorem Number_threshold_failSoft :
    validNumber (bytes "1E99999999999999999999") = true ∧
    valueOf (bytes "1E99999999999999999999") ≠ some 0 ∧
    2 < exp10Of (bytes "1E99999999999999999999") ∧
    Number (bytes "1E99999999999999999999") = some (bytes "1E99999999999999999999") ∧
    101 ∉ bytes "1E99999999999999999999" :=
  ⟨by decide,
   valueOf_ne_zero_of _ ⟨[], [49], false, [], true, 69, [], bytes "99999999999999999999"⟩
     (by decide) (by decide),
   by decide, by decide, by decide⟩

/-! ## Inputs on which `Number` fails -/

theorem inv_pow_ne_hundred (N : Int) (hn : 0 ≤ N) :
    ((10 : ℚ) ^ N)⁻¹ ≠ 100 * (10 : ℚ) ^ N := by
  have hN : (1 : ℚ) ≤ 10 ^ N := one_le_zpow₀ (by norm_num) hn
  have h1 : ((10 : ℚ) ^ N)⁻¹ ≤ 1 := inv_le_one_of_one_le₀ hN
  intro h
  linarith

theorem valueOf_of_parse (s : List Nat) (L : Lit) (hp : parseLit s = some L) :
    valueOf s = some L.value := by
  unfold valueOf; rw [hp]; rfl

/-- Claim C1 fails on the code: the exponent of "100e9223372036854775807" is the
largest `int64`; folding the two trailing zeros into it wraps around, and
`Number` returns "1e-9223372036854775807", which denotes another value. -/
theorem Number_value_overflow :
    validNumber (bytes "100e9223372036854775807") = true ∧
    Number (bytes "100e9223372036854775807") = some (bytes "1e-9223372036854775807") ∧
    valueOf (bytes "1e-9223372036854775807") ≠ valueOf (bytes "100e9223372036854775807") := by
  refine ⟨by decide, by decide, ?_⟩
  rw [valueOf_of_parse (bytes "1e-9223372036854775807")
      ⟨[], [49], false, [], true, 101, [45], bytes "9223372036854775807"⟩ (by decide),
    valueOf_of_parse (bytes "100e9223372036854775807")
      ⟨[], bytes "100", false, [], true, 101, [], bytes "9223372036854775807"⟩ (by decide)]
  have h1 : natVal ([49] ++ []) = 1 := by decide
  have h2 : natVal (bytes "100" ++ []) = 100 := by decide
  have h3 : natVal (bytes "9223372036854775807") = 9223372036854775807 := by decide
  simp only [Lit.value, Lit.expVal, h1, h2, h3, if_true, List.length_nil]
  intro h
  simp at h
  exact inv_pow_ne_hundred 9223372036854775807 (by norm_num) h

set_option maxRecDepth 100000 in
/-- Claim C2 fails on the code: "1." followed by 92 digits and "e-9" (97 bytes)
has the canonical form of 93 digits and "e-101", 98 bytes; `Number` writes it
into the 97 bytes of the input and fails with an index out of range, so it
returns no result at all. -/
theorem Number_growth_panic :
    validNumber (bytes "1." ++ List.replicate 92 55 ++ bytes "e-9") = true ∧
    ¬ ∃ r, Number (bytes "1." ++ List.replicate 92 55 ++ bytes "e-9") = some r ∧
      r.length ≤ (bytes "1." ++ List.replicate 92 55 ++ bytes "e-9").length := by
  refine ⟨by decide, ?_⟩
  have h : Number (bytes "1." ++ List.replicate 92 55 ++ bytes "e-9") = none := by decide
  rw [h]
  simp

set_option maxRecDepth 100000 in
/-- Claim C3 fails on the code: on ".000" followed by 98 digits (102 bytes) the
scientific form needs 98 digits and "e-101", 103 bytes, and the write of the
last exponent digit is at index 102, outside the slice: `Number` panics. -/
theorem Number_panic :
    validNumber (bytes ".000" ++ List.replicate 98 55) = true ∧
    Number (bytes ".000" ++ List.replicate 98 55) = none := by
  decide

set_option maxRecDepth 100000 in
/-- Claim C4 fails on the code: on "0.000" followed by 98 digits `Number` has
no result (index out of range), so there is no result to apply it to again. -/
theorem Number_idempotent_panic :
    validNumber (bytes "0.000" ++ List.replicate 98 55) = true ∧
    ¬ ∃ r, Number (bytes "0.000" ++ List.replicate 98 55) = some r ∧ Number r = some r := by
  refine ⟨by decide, ?_⟩
  have h : Number (bytes "0.000" ++ List.replicate 98 55) = none := by decide
  rw [h]
  simp

/-! ## The number of decimal digits of the exponent -/

theorem expDigits_length_le (x j : Nat) (h : x < 10 ^ j) : (expDigits x).length ≤ j := by
  rw [expDigits_length]
  by_cases hx : x = 0
  · subst hx; simp
  · by_contra hlt
    have h1 := Nat.base_pow_length_digits_le 10 x (by norm_num) hx
    have h2 : 10 ^ (j + 1) ≤ 10 ^ (Nat.digits 10 x).length :=
      Nat.pow_le_pow_right (by norm_num) (by omega)
    rw [pow_succ] at h2
    omega

theorem lt_pow_expDigits (x : Nat) : x < 10 ^ (expDigits x).length := by
  rw [expDigits_length]
  exact Nat.lt_base_pow_length_digits (by norm_num)

theorem expDigits_length_mono (x y : Nat) (h : x ≤ y) :
    (expDigits x).length ≤ (expDigits y).length := by
  rw [expDigits_length, expDigits_length]
  exact Nat.le_digits_len_le 10 x y h

theorem expDigits_length_self (z : Nat) : (expDigits z).length ≤ z :=
  expDigits_length_le z z (Nat.lt_pow_self (by norm_num) z)

theorem expDigits_length_add (x y : Nat) :
    (expDigits (x + y)).length ≤ (expDigits x).length + y := by
  apply expDigits_length_le
  have h1 := lt_pow_expDigits x
  have h2 : y < 10 ^ y := Nat.lt_pow_self (by norm_num) y
  rw [pow_add]
  have h3 : 1 ≤ 10 ^ (expDigits x).length := Nat.one_le_pow _ _ (by norm_num)
  calc x + y < 10 ^ (expDigits x).length + y := by omega
    _ ≤ 10 ^ (expDigits x).length * (y + 1) := by nlinarith
    _ ≤ 10 ^ (expDigits x).length * 10 ^ y := Nat.mul_le_mul_left _ (by omega)

theorem expDigits_length_add_small (x y : Nat) (hx : 1 ≤ x) (hy : y ≤ 90) :
    (expDigits (x + y)).length ≤ (expDigits x).length + 1 := by
  apply expDigits_length_le
  have h1 := lt_pow_expDigits x
  have hp := expDigits_length_pos x (by omega)
  rw [pow_succ]
  by_cases h9 : x ≤ 9
  · have : 10 ^ 1 ≤ 10 ^ (expDigits x).length := Nat.pow_le_pow_right (by norm_num) hp
    omega
  · omega

theorem add_lt_pow_pred (c : Nat) (hc : 3 ≤ c) : c + 90 < 10 ^ (c - 1) := by
  induction c with
  | zero => omega
  | succ c ih =>
    by_cases h3 : c = 2
    · subst h3; norm_num
    · have := ih (by omega)
      have hc1 : c + 1 - 1 = (c - 1) + 1 := by omega
      rw [hc1, pow_succ]
      omega

theorem expDigits_length_frac (c k : Nat) (hc : 3 ≤ c) (hk : k ≤ 90) :
    (expDigits (c + k)).length + 1 ≤ c := by
  have := expDigits_length_le (c + k) (c - 1) (by have := add_lt_pow_pred c hc; omega)
  omega

theorem foldl_digits_lt (ds : List Nat) (hd : ∀ c ∈ ds, isDigit c = true) : ∀ n : Nat,
    ds.foldl (fun a c => 10 * a + (c - 48)) n < (n + 1) * 10 ^ ds.length := by
  induction ds with
  | nil => intro n; simp
  | cons c r ih =>
    intro n
    have hc := (isDigit_iff c).mp (hd c (List.mem_cons_self _ _))
    simp only [List.foldl_cons, List.length_cons]
    have := ih (fun x hx => hd x (List.mem_cons_of_mem _ hx)) (10 * n + (c - 48))
    have h2 : (10 * n + (c - 48) + 1) * 10 ^ r.length ≤ (n + 1) * 10 ^ (r.length + 1) := by
      rw [pow_succ]
      have : 10 * n + (c - 48) + 1 ≤ (n + 1) * 10 := by omega
      calc (10 * n + (c - 48) + 1) * 10 ^ r.length
          ≤ ((n + 1) * 10) * 10 ^ r.length := Nat.mul_le_mul_right _ this
        _ = (n + 1) * (10 ^ r.length * 10) := by ring
    omega

theorem natVal_lt (ds : List Nat) (hd : ∀ c ∈ ds, isDigit c = true) :
    natVal ds < 10 ^ ds.length := by
  have := foldl_digits_lt ds hd 0
  simpa [natVal] using this

theorem expDigits_natVal_le (ds : List Nat) (hd : ∀ c ∈ ds, isDigit c = true) :
    (expDigits (natVal ds)).length ≤ ds.length :=
  expDigits_length_le _ _ (natVal_lt ds hd)

/-! ## The length of the emitted form -/

theorem emitSpec_length (m : List Nat) (e : Int) (room : Nat) (out : List Nat)
    (h : emitSpec m e room = some out) :
    out.length = outLen m.length e ∧ out.length ≤ m.length + room := by
  unfold emitSpec at h
  unfold outLen
  simp only [] at h
  by_cases h0 : e = 0
  · rw [if_pos h0] at h ⊢
    cases h
    exact ⟨rfl, by omega⟩
  rw [if_neg h0] at h ⊢
  by_cases hsci : e + (m.length : Int) < -2 ∨ 2 < e
  · rw [if_pos hsci] at h ⊢
    by_cases hfit : (m ++ 101 :: ((if e < 0 then [45] else []) ++ expDigits e.natAbs)).length
        ≤ m.length + room
    · rw [if_pos hfit] at h
      cases h
      refine ⟨?_, hfit⟩
      by_cases hn : e < 0
      · simp [hn]; omega
      · simp [hn]; omega
    · rw [if_neg hfit] at h; cases h
  rw [if_neg hsci] at h ⊢
  by_cases hn : e < 0
  · rw [if_pos hn] at h ⊢
    by_cases hrel : 0 < e + (m.length : Int)
    · rw [if_pos hrel] at h ⊢
      by_cases hr : 1 ≤ room
      · rw [if_pos hr] at h
        cases h
        simp
        omega
      · rw [if_neg hr] at h; cases h
    · rw [if_neg hrel] at h ⊢
      by_cases hr : 1 - (e + (m.length : Int)) ≤ (room : Int)
      · rw [if_pos hr] at h
        cases h
        simp [zeros_length]
        omega
      · rw [if_neg hr] at h; cases h
  · rw [if_neg hn] at h ⊢
    by_cases hr : e ≤ (room : Int)
    · rw [if_pos hr] at h
      cases h
      simp [zeros_length]
      omega
    · rw [if_neg hr] at h; cases h

theorem emitSpec_isSome (m : List Nat) (e : Int) (room : Nat)
    (h : outLen m.length e ≤ m.length + room) : ∃ out, emitSpec m e room = some out := by
  unfold emitSpec
  unfold outLen at h
  simp only []
  by_cases h0 : e = 0
  · rw [if_pos h0]; exact ⟨_, rfl⟩
  rw [if_neg h0] at h ⊢
  by_cases hsci : e + (m.length : Int) < -2 ∨ 2 < e
  · rw [if_pos hsci] at h ⊢
    rw [if_pos]
    · exact ⟨_, rfl⟩
    · by_cases hn : e < 0
      · simp [hn] at h ⊢; omega
      · simp [hn] at h ⊢; omega
  rw [if_neg hsci] at h ⊢
  by_cases hn : e < 0
  · rw [if_pos hn] at h ⊢
    by_cases hrel : 0 < e + (m.length : Int)
    · rw [if_pos hrel] at h ⊢
      rw [if_pos (by omega)]
      exact ⟨_, rfl⟩
    · rw [if_neg hrel] at h ⊢
      rw [if_pos (by omega)]
      exact ⟨_, rfl⟩
  · rw [if_neg hn] at h ⊢
    rw [if_pos (by omega)]
    exact ⟨_, rfl⟩

theorem expVal_digits (L : Lit) (hwf : L.WF) (hhe : L.he = true) :
    (expDigits L.expVal.natAbs).length ≤ L.ed.length := by
  obtain ⟨_, _, _, _, _, h6⟩ := hwf
  rw [hhe] at h6
  simp only [if_true] at h6
  have := expDigits_natVal_le L.ed h6.2.2.2
  unfold Lit.expVal
  rw [if_pos hhe]
  split <;> simpa using this

/-- Every literal with a canonical mantissa of at most 90 digits has, behind
its leading zeros, at least as many bytes as the form that `emit` gives to its
value. -/
theorem outLen_le (L : Lit) (hwf : L.WF) (hm : L.mant ≠ []) (hk : L.mant.length ≤ 90) :
    outLen L.mant.length L.exp10 + L.leadZeros ≤
      L.ip.length + L.pointPart.length + L.expPart.length := by
  obtain ⟨i, f, b, h1, h2, h3, h4, h5, h6⟩ := anatomy L hwf hm
  obtain ⟨e1, e2, e3⟩ := expPart_length L hwf
  have hp := pointPart_length L
  have hD := expVal_digits L hwf
  have hhe : L.he = false ∨ L.he = true := by cases L.he <;> simp
  have hptc : L.pt = false ∨ L.pt = true := by cases L.pt <;> simp
  have hexp : L.exp10 = L.expVal + L.shift := rfl
  generalize L.exp10 = e at hexp
  generalize L.mant.length = k at *
  generalize L.expVal = E at *
  generalize L.shift = S at *
  generalize L.pointPart.length = PP at *
  generalize L.expPart.length = EP at *
  generalize L.ed.length = D at *
  generalize L.es.length = ES at *
  generalize L.leadZeros = a at *
  rw [h1]
  unfold outLen
  by_cases h0 : e = 0
  · -- the mantissa alone
    rw [if_pos h0]
    by_cases hf : f = 0
    · have := h4 hf; omega
    · obtain ⟨hs, hi1, hi2⟩ := h5 (by omega)
      have hpt : L.pt = true := by
        rcases hptc with h | h
        · exact absurd (h3 h).1 hf
        · exact h
      rw [hpt] at hp
      simp only [if_true] at hp
      by_cases hi : i = 0
      · have := hi2 hi; omega
      · have := hi1 (by omega); omega
  rw [if_neg h0]
  by_cases hsci : e + (k : Int) < -2 ∨ 2 < e
  · -- the scientific form
    rw [if_pos hsci]
    by_cases hf : f = 0
    · obtain ⟨hs, hl⟩ := h4 hf
      rcases hhe with h | h
      · -- no exponent part: the exponent counts trailing zeros
        obtain ⟨_, hE0⟩ := e1 h
        have hx : e.natAbs = (i - k) + 0 := by omega
        rw [hx]
        have := expDigits_length_frac (i - k) 0 (by omega) (by omega)
        rw [if_neg (by omega)]
        omega
      · obtain ⟨hEP, hD1⟩ := e2 h
        have hD2 := hD h
        by_cases hEpos : 0 < E
        · have hx : e.natAbs = E.natAbs + (i - k) := by omega
          rw [hx]
          have := expDigits_length_add E.natAbs (i - k)
          rw [if_neg (by omega)]
          omega
        · by_cases hn : e < 0
          · rw [if_pos hn]
            have := expDigits_length_mono e.natAbs E.natAbs (by omega)
            have := (e3 (by omega)).2
            omega
          · rw [if_neg hn]
            have := expDigits_length_mono e.natAbs (i - k) (by omega)
            have := expDigits_length_self (i - k)
            omega
    · obtain ⟨hs, hi1, hi2⟩ := h5 (by omega)
      have hpt : L.pt = true := by
        rcases hptc with h | h
        · exact absurd (h3 h).1 hf
        · exact h
      rw [hpt] at hp
      simp only [if_true] at hp
      by_cases hn : e < 0
      · rw [if_pos hn]
        by_cases hi : i = 0
        · -- nothing before the point: the fraction starts with zeros
          have hkf := hi2 hi
          rcases hhe with h | h
          · obtain ⟨_, hE0⟩ := e1 h
            have hx : e.natAbs = (f - k) + k := by omega
            rw [hx]
            have := expDigits_length_frac (f - k) k (by omega) hk
            omega
          · obtain ⟨hEP, hD1⟩ := e2 h
            have hD2 := hD h
            by_cases hEneg : E < 0
            · have hx : e.natAbs = (E.natAbs + k) + (f - k) := by omega
              rw [hx]
              have := expDigits_length_add (E.natAbs + k) (f - k)
              have := expDigits_length_add_small E.natAbs k (by omega) hk
              have := (e3 hEneg).2
              omega
            · have := expDigits_length_mono e.natAbs ((f - k) + k) (by omega)
              have := expDigits_length_frac (f - k) k (by omega) hk
              omega
        · -- digits on both sides of the point
          have hkf := hi1 (by omega)
          have hEneg : E < 0 := by omega
          obtain ⟨hhe1, hES⟩ := e3 hEneg
          obtain ⟨hEP, hD1⟩ := e2 hhe1
          have hD2 := hD hhe1
          have hx : e.natAbs = E.natAbs + f := by omega
          rw [hx]
          have := expDigits_length_add_small E.natAbs f (by omega) (by omega)
          omega
      · rw [if_neg hn]
        have hEpos : 0 < E := by omega
        have hhe1 : L.he = true := by
          rcases hhe with h | h
          · have := (e1 h).2; omega
          · exact h
        obtain ⟨hEP, hD1⟩ := e2 hhe1
        have hD2 := hD hhe1
        have := expDigits_length_mono e.natAbs E.natAbs (by omega)
        have hml : k ≤ i + f := by
          by_cases hi : i = 0
          · have := hi2 hi; omega
          · have := hi1 (by omega); omega
        omega
  · -- the fixed-point forms
    rw [if_neg hsci]
    by_cases hf : f = 0
    · obtain ⟨hs, hl⟩ := h4 hf
      by_cases hn : e < 0
      · rw [if_pos hn]
        obtain ⟨hhe1, hES⟩ := e3 (by omega)
        obtain ⟨hEP, hD1⟩ := e2 hhe1
        split <;> omega
      · rw [if_neg hn]
        rcases hhe with h | h
        · have := e1 h; omega
        · have := e2 h; omega
    · obtain ⟨hs, hi1, hi2⟩ := h5 (by omega)
      have hpt : L.pt = true := by
        rcases hptc with h | h
        · exact absurd (h3 h).1 hf
        · exact h
      rw [hpt] at hp
      simp only [if_true] at hp
      have hml : k ≤ i + f := by
        by_cases hi : i = 0
        · have := hi2 hi; omega
        · have := hi1 (by omega); omega
      by_cases hn : e < 0
      · rw [if_pos hn]
        by_cases hEneg : E < 0
        · obtain ⟨hhe1, hES⟩ := e3 hEneg
          obtain ⟨hEP, hD1⟩ := e2 hhe1
          by_cases hi : i = 0
          · have := hi2 hi; split <;> omega
          · have := hi1 (by omega); split <;> omega
        · by_cases hi : i = 0
          · have := hi2 hi; split <;> omega
          · have := hi1 (by omega); split <;> omega
      · rw [if_neg hn]
        have hhe1 : L.he = true := by
          rcases hhe with h | h
          · have := (e1 h).2; omega
          · exact h
        have := e2 hhe1
        omega

/-! ## The value of a literal in terms of its canonical mantissa and exponent -/

theorem foldl_zeros (t : Nat) : ∀ n : Nat,
    (zeros t).foldl (fun a c => 10 * a + (c - 48)) n = n * 10 ^ t := by
  induction t with
  | zero => intro n; simp [zeros]
  | succ t ih =>
    intro n
    rw [zeros_succ, List.foldl_cons, ih]
    ring

theorem natVal_zeros_append (a : Nat) (X : List Nat) : natVal (zeros a ++ X) = natVal X := by
  unfold natVal
  rw [List.foldl_append, foldl_zeros]
  simp

theorem natVal_append_zeros (X : List Nat) (t : Nat) :
    natVal (X ++ zeros t) = natVal X * 10 ^ t := by
  unfold natVal
  rw [List.foldl_append, foldl_zeros]

theorem digits_split (ds : List Nat) :
    ∃ a t, ds = zeros a ++ (mantissa ds ++ zeros t) ∧
      (stripLead ds).length = (mantissa ds).length + t := by
  obtain ⟨t, ht⟩ := stripTrail_split (stripLead ds)
  refine ⟨(ds.takeWhile (· == 48)).length, t, ?_, ?_⟩
  · have := stripLead_split ds
    unfold mantissa
    rw [← ht]
    exact this
  · have := congrArg List.length ht
    simpa [zeros_length, mantissa] using this

theorem natVal_mantissa (ds : List Nat) :
    ∃ t, natVal ds = natVal (mantissa ds) * 10 ^ t ∧
      (stripLead ds).length = (mantissa ds).length + t := by
  obtain ⟨a, t, h1, h2⟩ := digits_split ds
  refine ⟨t, ?_, h2⟩
  conv_lhs => rw [h1]
  rw [natVal_zeros_append, natVal_append_zeros]

/-- The value of a literal is its sign times its canonical mantissa times ten
to its canonical exponent. -/
theorem value_canonical (L : Lit) :
    L.value = (if L.sg = [45] then -1 else 1) * (natVal L.mant : ℚ) * (10 : ℚ) ^ L.exp10 := by
  obtain ⟨t, h1, h2⟩ := natVal_mantissa (L.ip ++ L.fp)
  unfold Lit.value Lit.exp10 Lit.shift Lit.mant
  rw [h1, h2]
  have h10 : (10 : ℚ) ≠ 0 := by norm_num
  have he : L.expVal + (-(L.fp.length : Int) +
      ((((mantissa (L.ip ++ L.fp)).length + t : Nat) : Int) -
        ((mantissa (L.ip ++ L.fp)).length : Int))) =
      (L.expVal - (L.fp.length : Int)) + (t : Int) := by
    push_cast; ring
  rw [he, zpow_add₀ h10, zpow_natCast]
  push_cast
  ring

theorem stripTrail_head (l : List Nat) (h : stripTrail l ≠ []) :
    (stripTrail l).head? = l.head? := by
  cases l with
  | nil => rfl
  | cons c r =>
    unfold stripTrail at h ⊢
    split
    · rename_i hc; rw [if_pos hc] at h; exact absurd rfl h
    · rfl

theorem mantissa_head (ds : List Nat) : (mantissa ds).head? ≠ some 48 := by
  unfold mantissa
  by_cases h : stripTrail (stripLead ds) = []
  · rw [h]; simp
  · rw [stripTrail_head _ h]
    exact stripLead_head ds

theorem mantissa_last (ds : List Nat) : (mantissa ds).getLast? ≠ some 48 :=
  stripTrail_last _

theorem foldl_digits_ge_mul (ds : List Nat) : ∀ n : Nat,
    n * 10 ^ ds.length ≤ ds.foldl (fun a c => 10 * a + (c - 48)) n := by
  induction ds with
  | nil => intro n; simp
  | cons c r ih =>
    intro n
    simp only [List.foldl_cons, List.length_cons]
    have := ih (10 * n + (c - 48))
    have h2 : n * 10 ^ (r.length + 1) ≤ (10 * n + (c - 48)) * 10 ^ r.length := by
      rw [pow_succ]
      calc n * (10 ^ r.length * 10) = (10 * n) * 10 ^ r.length := by ring
        _ ≤ (10 * n + (c - 48)) * 10 ^ r.length := Nat.mul_le_mul_right _ (by omega)
    omega

theorem natVal_canonical (M : List Nat) (hd : ∀ c ∈ M, isDigit c = true) (hne : M ≠ [])
    (hh : M.head? ≠ some 48) (hl : M.getLast? ≠ some 48) :
    10 ^ (M.length - 1) ≤ natVal M ∧ natVal M < 10 ^ M.length ∧ natVal M % 10 ≠ 0 := by
  refine ⟨?_, natVal_lt M hd, ?_⟩
  · cases M with
    | nil => exact absurd rfl hne
    | cons c r =>
      have hc := (isDigit_iff c).mp (hd c (List.mem_cons_self _ _))
      have hc2 : c ≠ 48 := by simpa using hh
      unfold natVal
      simp only [List.foldl_cons, List.length_cons, Nat.add_sub_cancel]
      have := foldl_digits_ge_mul r (10 * 0 + (c - 48))
      have h1 : 1 * 10 ^ r.length ≤ (10 * 0 + (c - 48)) * 10 ^ r.length :=
        Nat.mul_le_mul_right _ (by omega)
      omega
  · obtain ⟨M1, c, rfl⟩ : ∃ M1 c, M = M1 ++ [c] :=
      ⟨M.dropLast, M.getLast hne, (List.dropLast_append_getLast hne).symm⟩
    have hc := (isDigit_iff c).mp (hd c (by simp))
    have hc2 : c ≠ 48 := by simpa using hl
    unfold natVal
    rw [List.foldl_append]
    simp only [List.foldl_cons, List.foldl_nil]
    omega

theorem mant_canonical (L : Lit) (hwf : L.WF) (hm : L.mant ≠ []) :
    10 ^ (L.mant.length - 1) ≤ natVal L.mant ∧ natVal L.mant < 10 ^ L.mant.length ∧
      natVal L.mant % 10 ≠ 0 :=
  natVal_canonical L.mant (mant_digits L hwf) hm (mantissa_head _) (mantissa_last _)

theorem canonical_lt_absurd (n1 n2 : Nat) (e1 e2 : Int) (h1 : n1 % 10 ≠ 0) (hlt : e1 < e2)
    (h : (n1 : ℚ) * (10 : ℚ) ^ e1 = (n2 : ℚ) * (10 : ℚ) ^ e2) : False := by
  have h10 : (10 : ℚ) ≠ 0 := by norm_num
  obtain ⟨d, hd⟩ : ∃ d : Nat, e2 = e1 + ((d + 1 : Nat) : Int) :=
    ⟨(e2 - e1 - 1).toNat, by omega⟩
  rw [hd, zpow_add₀ h10, zpow_natCast] at h
  have hne : (10 : ℚ) ^ e1 ≠ 0 := zpow_ne_zero _ h10
  have h2 : (n1 : ℚ) = (n2 : ℚ) * (10 : ℚ) ^ (d + 1) := by
    have : (n1 : ℚ) * (10 : ℚ) ^ e1 = ((n2 : ℚ) * (10 : ℚ) ^ (d + 1)) * (10 : ℚ) ^ e1 := by
      rw [h]; ring
    exact mul_right_cancel₀ hne this
  have h3 : n1 = n2 * 10 ^ (d + 1) := by exact_mod_cast h2
  apply h1
  rw [h3, pow_succ, ← Nat.mul_assoc]
  exact Nat.mul_mod_left _ _

theorem canonical_inj (b1 b2 : Bool) (n1 n2 : Nat) (e1 e2 : Int)
    (p1 : 0 < n1) (p2 : 0 < n2) (h1 : n1 % 10 ≠ 0) (h2 : n2 % 10 ≠ 0)
    (h : (if b1 then (-1 : ℚ) else 1) * (n1 : ℚ) * (10 : ℚ) ^ e1 =
      (if b2 then (-1 : ℚ) else 1) * (n2 : ℚ) * (10 : ℚ) ^ e2) :
    b1 = b2 ∧ n1 = n2 ∧ e1 = e2 := by
  have h10 : (10 : ℚ) ≠ 0 := by norm_num
  have q1 : (0 : ℚ) < (n1 : ℚ) * (10 : ℚ) ^ e1 :=
    mul_pos (by exact_mod_cast p1) (zpow_pos (by norm_num) _)
  have q2 : (0 : ℚ) < (n2 : ℚ) * (10 : ℚ) ^ e2 :=
    mul_pos (by exact_mod_cast p2) (zpow_pos (by norm_num) _)
  have hcore : (n1 : ℚ) * (10 : ℚ) ^ e1 = (n2 : ℚ) * (10 : ℚ) ^ e2 → n1 = n2 ∧ e1 = e2 := by
    intro hc
    have he : e1 = e2 := by
      rcases lt_trichotomy e1 e2 with hlt | heq | hgt
      · exact absurd hc (fun hc => canonical_lt_absurd n1 n2 e1 e2 h1 hlt hc)
      · exact heq
      · exact absurd hc.symm (fun hc => canonical_lt_absurd n2 n1 e2 e1 h2 hgt hc)
    refine ⟨?_, he⟩
    rw [he] at hc
    have hne : (10 : ℚ) ^ e2 ≠ 0 := zpow_ne_zero _ h10
    have := mul_right_cancel₀ hne hc
    exact_mod_cast this
  cases b1 <;> cases b2
  · simp only [Bool.false_eq_true, if_false, one_mul] at h
    exact ⟨rfl, hcore h⟩
  · simp only [Bool.false_eq_true, if_false, if_true, one_mul] at h
    exfalso
    have : (-1 : ℚ) * (n2 : ℚ) * (10 : ℚ) ^ e2 = -((n2 : ℚ) * (10 : ℚ) ^ e2) := by ring
    rw [this] at h
    linarith
  · simp only [Bool.false_eq_true, if_false, if_true, one_mul] at h
    exfalso
    have : (-1 : ℚ) * (n1 : ℚ) * (10 : ℚ) ^ e1 = -((n1 : ℚ) * (10 : ℚ) ^ e1) := by ring
    rw [this] at h
    linarith
  · simp only [if_true] at h
    refine ⟨rfl, hcore ?_⟩
    have a1 : (-1 : ℚ) * (n1 : ℚ) * (10 : ℚ) ^ e1 = -((n1 : ℚ) * (10 : ℚ) ^ e1) := by ring
    have a2 : (-1 : ℚ) * (n2 : ℚ) * (10 : ℚ) ^ e2 = -((n2 : ℚ) * (10 : ℚ) ^ e2) := by ring
    rw [a1, a2] at h
    exact neg_injective h

theorem length_of_pow_bounds (n k1 k2 : Nat) (a1 : 10 ^ (k1 - 1) ≤ n) (b1 : n < 10 ^ k1)
    (a2 : 10 ^ (k2 - 1) ≤ n) (b2 : n < 10 ^ k2) (p1 : 0 < k1) (p2 : 0 < k2) : k1 = k2 := by
  by_contra hne
  rcases Nat.lt_or_gt_of_ne hne with h | h
  · have : 10 ^ k1 ≤ 10 ^ (k2 - 1) := Nat.pow_le_pow_right (by norm_num) (by omega)
    omega
  · have : 10 ^ k2 ≤ 10 ^ (k1 - 1) := Nat.pow_le_pow_right (by norm_num) (by omega)
    omega

/-- Two well-formed literals of the same non-zero value have the same sign,
canonical mantissas of the same length and the same canonical exponent. -/
theorem same_value_same_form (L1 L2 : Lit) (w1 : L1.WF) (w2 : L2.WF)
    (m1 : L1.mant ≠ []) (m2 : L2.mant ≠ []) (h : L1.value = L2.value) :
    L1.minus = L2.minus ∧ L1.mant.length = L2.mant.length ∧ L1.exp10 = L2.exp10 := by
  obtain ⟨a1, b1, c1⟩ := mant_canonical L1 w1 m1
  obtain ⟨a2, b2, c2⟩ := mant_canonical L2 w2 m2
  rw [value_canonical L1, value_canonical L2] at h
  have p1 : 0 < natVal L1.mant := by
    have : 0 < 10 ^ (L1.mant.length - 1) := Nat.pos_pow_of_pos _ (by norm_num)
    omega
  have p2 : 0 < natVal L2.mant := by
    have : 0 < 10 ^ (L2.mant.length - 1) := Nat.pos_pow_of_pos _ (by norm_num)
    omega
  have h' : (if decide (L1.sg = [45]) = true then (-1 : ℚ) else 1) * (natVal L1.mant : ℚ) *
      (10 : ℚ) ^ L1.exp10 =
      (if decide (L2.sg = [45]) = true then (-1 : ℚ) else 1) * (natVal L2.mant : ℚ) *
      (10 : ℚ) ^ L2.exp10 := by
    simpa using h
  obtain ⟨hs, hn, he⟩ := canonical_inj _ _ _ _ _ _ p1 p2 c1 c2 h'
  refine ⟨?_, ?_, he⟩
  · unfold Lit.minus
    have : (L1.sg = [45]) ↔ (L2.sg = [45]) := by
      simpa using hs
    by_cases hh : L1.sg = [45]
    · rw [if_pos hh, if_pos (this.mp hh)]
    · rw [if_neg hh, if_neg (fun h2 => hh (this.mpr h2))]
  · rw [hn] at a1 b1
    exact length_of_pow_bounds _ _ _ a1 b1 a2 b2 (List.length_pos.mpr m1)
      (List.length_pos.mpr m2)

/-! ## The shortest representation -/

theorem valueOf_eq_of_canonical (s t : List Nat) (Ls Lt : Lit)
    (hs : parseLit s = some Ls) (ht : parseLit t = some Lt)
    (h1 : decide (Lt.sg = [45]) = decide (Ls.sg = [45]))
    (h2 : natVal Lt.mant = natVal Ls.mant) (h3 : Lt.exp10 = Ls.exp10) :
    valueOf t = valueOf s := by
  rw [valueOf_of_parse s Ls hs, valueOf_of_parse t Lt ht, value_canonical Ls,
    value_canonical Lt, h2, h3]
  have : (Lt.sg = [45]) ↔ (Ls.sg = [45]) := by simpa using h1
  by_cases hh : Ls.sg = [45]
  · rw [if_pos hh, if_pos (this.mpr hh)]
  · rw [if_neg hh, if_neg (fun h => hh (this.mp h))]

theorem valid_length_pos (t : List Nat) (L : Lit) (hp : parseLit t = some L) :
    1 ≤ t.length := by
  obtain ⟨hwf, hr⟩ := parseLit_sound t L hp
  have h5 := hwf.2.2.2.2.1
  rw [← hr, render_length, pointPart_length]
  have : 0 < (L.ip ++ L.fp).length := List.length_pos.mpr h5
  simp only [List.length_append] at this
  have hpt : L.pt = false → L.fp = [] := hwf.2.2.2.1
  cases h : L.pt with
  | true => simp; omega
  | false =>
    have := hpt h
    simp [this] at *
    omega

theorem minus_le_sg (L : Lit) : L.minus.length ≤ L.sg.length := by
  unfold Lit.minus
  split
  · rename_i h; rw [h]
  · simp

/-- The shortest form with the exact integer logarithm: for every valid literal
`s` whose canonical mantissa has at most 90 digits and whose length and
exponent magnitude together stay below `2^62`, `Number` returns a result, and
it is no longer than any valid literal `t` that denotes the same value. -/
theorem exactLog_shortest (s t : List Nat) (hv : validNumber s = true)
    (ht : validNumber t = true) (hval : valueOf t = valueOf s)
    (hk : (mantissaOf s).length ≤ 90)
    (hb : (s.length : Int) + |exponentOf s| < 2 ^ 62) :
    ∃ r, Number s = some r ∧ r.length ≤ t.length := by
  obtain ⟨Ls, hps, ws, hrs⟩ := validNumber_sound s hv
  obtain ⟨Lt, hpt, wt, hrt⟩ := validNumber_sound t ht
  rw [mantissaOf_eq s Ls hps] at hk
  have habs : (0 : Int) ≤ |exponentOf s| := abs_nonneg _
  have habs2 := abs_le.mp (le_refl |exponentOf s|)
  by_cases hz : Ls.mant = []
  · -- the value is zero
    refine ⟨bytes "0", ?_, valid_length_pos t Lt hpt⟩
    rw [Number_of_valid s Ls hps (by omega)]
    rw [exponentOf_eq s Ls hps] at hb habs habs2
    exact NumberSpec_zero Ls ws (by omega) (by omega) hz
  · have hnz : valueOf s ≠ some 0 := valueOf_ne_zero_of s Ls hps hz
    have hzt : Lt.mant ≠ [] := by
      intro h
      apply hnz
      rw [← hval, valueOf_of_parse t Lt hpt, (value_eq_zero_iff Lt wt).mpr h]
    have hv2 : Ls.value = Lt.value := by
      rw [valueOf_of_parse s Ls hps, valueOf_of_parse t Lt hpt] at hval
      exact (Option.some.inj hval).symm
    obtain ⟨hmin, hlen, hexp⟩ := same_value_same_form Ls Lt ws wt hz hzt hv2
    rw [Number_inRange s Ls hps hnz hb]
    -- the form fits behind the mantissa of `s`
    obtain ⟨i, _, _, hi, _⟩ := anatomy Ls ws hz
    have hroom := room_eq Ls ws i hi
    have hs := outLen_le Ls ws hz hk
    obtain ⟨out, hout⟩ := emitSpec_isSome Ls.mant Ls.exp10 Ls.room (by omega)
    obtain ⟨hol, _⟩ := emitSpec_length _ _ _ _ hout
    refine ⟨Ls.minus ++ out, by rw [hout]; rfl, ?_⟩
    -- and `t` is at least as long
    have htl := outLen_le Lt wt hzt (by omega)
    rw [← hlen, ← hexp] at htl
    have hsg := minus_le_sg Lt
    rw [← hrt, render_length, List.length_append, hol, hmin]
    omega

/-- Claim C5 as stated fails: "1.0e99999999999999999999" is returned unchanged
(its exponent does not fit an `int64`), while "1e99999999999999999999" denotes
the same value and is two bytes shorter. -/
theorem Number_not_shortest :
    validNumber (bytes "1.0e99999999999999999999") = true ∧
    validNumber (bytes "1e99999999999999999999") = true ∧
    valueOf (bytes "1e99999999999999999999") = valueOf (bytes "1.0e99999999999999999999") ∧
    Number (bytes "1.0e99999999999999999999") = some (bytes "1.0e99999999999999999999") ∧
    (bytes "1e99999999999999999999").length < (bytes "1.0e99999999999999999999").length :=
  ⟨by decide, by decide,
   valueOf_eq_of_canonical (bytes "1.0e99999999999999999999") (bytes "1e99999999999999999999")
      ⟨[], [49], true, [48], true, 101, [], bytes "99999999999999999999"⟩
      ⟨[], [49], false, [], true, 101, [], bytes "99999999999999999999"⟩
      (by decide) (by decide) (by decide) (by decide) (by decide),
   by decide, by decide⟩

/-! ## What holds whenever `Number` returns -/

theorem window_le (L : Lit) (hwf : L.WF) (hm : L.mant ≠ []) :
    L.minus.length + L.leadZeros + L.mant.length + L.room = (dropPlus L.render).length := by
  obtain ⟨i, f, b, h1, h2, h3, h4, h5, h6⟩ := anatomy L hwf hm
  have hp := pointPart_length L
  unfold Lit.room
  rw [dropPlus_render L hwf]
  simp only [List.length_append]
  by_cases hf : f = 0
  · have := h4 hf; omega
  · obtain ⟨_, hi1, hi2⟩ := h5 (by omega)
    have hpt : L.pt = true := by
      cases h : L.pt with
      | true => rfl
      | false => exact absurd (h3 h).1 hf
    rw [hpt] at hp
    simp only [if_true] at hp
    by_cases hi : i = 0
    · have := hi2 hi; omega
    · have := hi1 (by omega); omega

/-- Whenever `Number` returns on a valid literal (of fewer than `2^62` bytes),
the result is no longer than the input. -/
theorem Number_nongrowth (s r : List Nat) (hv : validNumber s = true)
    (hlen : (s.length : Int) < 2 ^ 62) (h : Number s = some r) : r.length ≤ s.length := by
  obtain ⟨L, hp, hwf, hr⟩ := validNumber_sound s hv
  rw [Number_of_valid s L hp hlen] at h
  have hdl := dropPlus_length_le L.render
  rw [hr] at hdl
  unfold NumberSpec at h
  cases hpe : L.parsedExp parseInt with
  | none =>
    rw [hpe] at h
    simp only [Option.some.injEq] at h
    rw [← h, hr]; exact hdl
  | some e0 =>
    rw [hpe] at h
    simp only [] at h
    by_cases hm : L.mant = []
    · rw [if_pos hm] at h
      cases h
      exact valid_length_pos s L hp
    · rw [if_neg hm] at h
      by_cases hmin : wrap64 (e0 + L.shift) = -(2 ^ 63)
      · rw [if_pos hmin] at h; cases h
      · rw [if_neg hmin] at h
        cases ho : emitSpec L.mant (wrap64 (e0 + L.shift)) L.room with
        | none => rw [ho] at h; cases h
        | some out =>
          rw [ho] at h
          simp only [Option.map_some', Option.some.injEq] at h
          obtain ⟨_, hle⟩ := emitSpec_length _ _ _ _ ho
          have hw := window_le L hwf hm
          rw [hr] at hw
          rw [← h, List.length_append]
          omega

/-! ## The reader of literals is complete -/

theorem span_digits (a b : List Nat) (ha : ∀ c ∈ a, isDigit c = true)
    (hb : ∀ c, b.head? = some c → isDigit c = false) :
    (a ++ b).takeWhile isDigit = a ∧ (a ++ b).dropWhile isDigit = b := by
  induction a with
  | nil =>
    cases b with
    | nil => simp
    | cons c r =>
      have := hb c rfl
      simp [List.takeWhile, List.dropWhile, this]
  | cons c r ih =>
    have hc := ha c (List.mem_cons_self _ _)
    obtain ⟨h1, h2⟩ := ih (fun x hx => ha x (List.mem_cons_of_mem _ hx))
    simp [List.takeWhile, List.dropWhile, hc, h1, h2]

theorem takeSign_of_sign (sg X : List Nat) (hsg : sg = [] ∨ sg = [43] ∨ sg = [45])
    (hX : X.head? ≠ some 43 ∧ X.head? ≠ some 45) : takeSign (sg ++ X) = (sg, X) := by
  rcases hsg with h | h | h <;> subst h
  · cases X with
    | nil => rfl
    | cons c r =>
      have h1 : c ≠ 43 := by simpa using hX.1
      have h2 : c ≠ 45 := by simpa using hX.2
      simp [takeSign, isSign, h1, h2]
  · simp [takeSign, isSign]
  · simp [takeSign, isSign]

theorem parseLit_render (L : Lit) (hwf : L.WF) : parseLit L.render = some L := by
  have hu := unsigned_head L hwf
  have hep := expPart_head L hwf
  obtain ⟨h1, h2, h3, h4, h5, h6⟩ := hwf
  have hepd : ∀ c, L.expPart.head? = some c → isDigit c = false := by
    intro c hc
    unfold Lit.expPart at hc
    cases hhe : L.he with
    | false => rw [hhe] at hc; simp at hc
    | true =>
      rw [hhe] at hc h6
      simp only [if_true, List.head?_cons, Option.some.injEq] at hc h6
      rcases h6.1 with h | h <;> rw [← hc, h] <;> decide
  have hppd : ∀ c, (L.pointPart ++ L.expPart).head? = some c → isDigit c = false := by
    intro c hc
    unfold Lit.pointPart at hc
    cases hpt : L.pt with
    | false => rw [hpt] at hc; simp only [Bool.false_eq_true, if_false, List.nil_append] at hc
               exact hepd c hc
    | true =>
      rw [hpt] at hc
      simp only [if_true, List.cons_append, List.head?_cons, Option.some.injEq] at hc
      rw [← hc]; decide
  unfold parseLit
  rw [render_eq, takeSign_of_sign L.sg _ h1 hu]
  simp only []
  obtain ⟨s1, s2⟩ := span_digits L.ip (L.pointPart ++ L.expPart) h2 hppd
  rw [s1, s2]
  cases hpt : L.pt with
  | false =>
    have hfp : L.fp = [] := h4 hpt
    have hpp : L.pointPart = [] := by simp [Lit.pointPart, hpt]
    rw [hpp, List.nil_append]
    have h46 : L.expPart.head? ≠ some 46 := by
      unfold Lit.expPart
      cases hhe : L.he with
      | false => simp
      | true =>
        rw [hhe] at h6
        simp only [if_true] at h6 ⊢
        rcases h6.1 with h | h <;> rw [h] <;> simp
    rw [decide_eq_false h46]
    simp only [Bool.false_eq_true, if_false, List.append_nil]
    rw [hfp, List.append_nil] at h5
    rw [if_neg h5]
    cases hhe : L.he with
    | false =>
      rw [hhe] at h6
      simp only [Bool.false_eq_true, if_false] at h6
      have : L.expPart = [] := by simp [Lit.expPart, hhe]
      rw [this]
      simp only []
      cases L
      simp_all
    | true =>
      rw [hhe] at h6
      simp only [if_true] at h6
      have : L.expPart = L.em :: (L.es ++ L.ed) := by simp [Lit.expPart, hhe]
      rw [this]
      simp only []
      rw [if_pos h6.1]
      have hed : L.ed.head? ≠ some 43 ∧ L.ed.head? ≠ some 45 := by
        cases hd : L.ed with
        | nil => simp
        | cons c r =>
          have := (isDigit_iff c).mp (h6.2.2.2 c (by rw [hd]; exact List.mem_cons_self _ _))
          simp; omega
      rw [takeSign_of_sign L.es L.ed h6.2.1 hed]
      simp only []
      rw [if_pos ⟨h6.2.2.1, List.all_eq_true.mpr h6.2.2.2⟩]
      cases L
      simp_all
  | true =>
    have hpp : L.pointPart = 46 :: L.fp := by simp [Lit.pointPart, hpt]
    rw [hpp]
    simp only [List.cons_append, List.head?_cons, decide_True, if_true, List.tail_cons]
    obtain ⟨t1, t2⟩ := span_digits L.fp L.expPart h3 hepd
    rw [t1, t2, if_neg h5]
    cases hhe : L.he with
    | false =>
      rw [hhe] at h6
      simp only [Bool.false_eq_true, if_false] at h6
      have : L.expPart = [] := by simp [Lit.expPart, hhe]
      rw [this]
      simp only []
      cases L
      simp_all
    | true =>
      rw [hhe] at h6
      simp only [if_true] at h6
      have : L.expPart = L.em :: (L.es ++ L.ed) := by simp [Lit.expPart, hhe]
      rw [this]
      simp only []
      rw [if_pos h6.1]
      have hed : L.ed.head? ≠ some 43 ∧ L.ed.head? ≠ some 45 := by
        cases hd : L.ed with
        | nil => simp
        | cons c r =>
          have := (isDigit_iff c).mp (h6.2.2.2 c (by rw [hd]; exact List.mem_cons_self _ _))
          simp; omega
      rw [takeSign_of_sign L.es L.ed h6.2.1 hed]
      simp only []
      rw [if_pos ⟨h6.2.2.1, List.all_eq_true.mpr h6.2.2.2⟩]
      cases L
      simp_all

/-! ## The literal that `emit` writes -/

theorem mant_Canonical (L : Lit) (hwf : L.WF) (hm : L.mant ≠ []) : Canonical L.mant :=
  ⟨mant_digits L hwf, hm, mantissa_head _, mantissa_last _⟩

theorem emitSpec_render (sg m : List Nat) (e : Int) (room : Nat) (out : List Nat)
    (h : emitSpec m e room = some out) : (outLit sg m e).render = sg ++ out := by
  unfold emitSpec at h
  unfold outLit
  simp only [] at h
  by_cases h0 : e = 0
  · rw [if_pos h0] at h ⊢
    cases h
    simp [Lit.render]
  rw [if_neg h0] at h ⊢
  by_cases hsci : e + (m.length : Int) < -2 ∨ 2 < e
  · rw [if_pos hsci] at h ⊢
    by_cases hfit : (m ++ 101 :: ((if e < 0 then [45] else []) ++ expDigits e.natAbs)).length
        ≤ m.length + room
    · rw [if_pos hfit] at h
      cases h
      simp [Lit.render]
    · rw [if_neg hfit] at h
      cases h
  rw [if_neg hsci] at h ⊢
  by_cases hn : e < 0
  · rw [if_pos hn] at h ⊢
    by_cases hrel : 0 < e + (m.length : Int)
    · rw [if_pos hrel] at h ⊢
      split at h
      · cases h
        simp [Lit.render]
      · cases h
    · rw [if_neg hrel] at h ⊢
      split at h
      · cases h
        simp [Lit.render]
      · cases h
  · rw [if_neg hn] at h ⊢
    split at h
    · cases h
      simp [Lit.render]
    · cases h

theorem zeros_digits (n : Nat) : ∀ c ∈ zeros n, isDigit c = true := by
  intro c hc
  rw [mem_zeros n c hc]
  decide

theorem expDigits_digits (x : Nat) : ∀ c ∈ expDigits x, isDigit c = true := by
  intro c hc
  unfold expDigits at hc
  simp only [List.mem_map, List.mem_reverse] at hc
  obtain ⟨d, hd, rfl⟩ := hc
  have := Nat.digits_lt_base (by norm_num : 1 < 10) hd
  rw [isDigit_iff]
  omega

theorem expDigits_ne_nil (x : Nat) (hx : 0 < x) : expDigits x ≠ [] :=
  List.length_pos.mp (expDigits_length_pos x hx)

theorem outLit_WF (sg m : List Nat) (e : Int) (hsg : sg = [] ∨ sg = [45]) (hc : Canonical m) :
    (outLit sg m e).WF := by
  obtain ⟨hd, hne, _, _⟩ := hc
  have hsg3 : sg = [] ∨ sg = [43] ∨ sg = [45] := by
    rcases hsg with h | h
    · exact Or.inl h
    · exact Or.inr (Or.inr h)
  unfold outLit
  by_cases h0 : e = 0
  · rw [if_pos h0]
    exact ⟨hsg3, hd, by simp, by simp, by simpa using hne, by simp⟩
  rw [if_neg h0]
  by_cases hsci : e + (m.length : Int) < -2 ∨ 2 < e
  · rw [if_pos hsci]
    refine ⟨hsg3, hd, by simp, by simp, by simpa using hne, ?_⟩
    rw [if_pos rfl]
    refine ⟨Or.inl rfl, ?_, expDigits_ne_nil _ (by omega), expDigits_digits _⟩
    split
    · exact Or.inr (Or.inr rfl)
    · exact Or.inl rfl
  rw [if_neg hsci]
  by_cases hn : e < 0
  · rw [if_pos hn]
    by_cases hrel : 0 < e + (m.length : Int)
    · rw [if_pos hrel]
      refine ⟨hsg3, fun c hc => hd c (List.mem_of_mem_take hc),
        fun c hc => hd c (List.mem_of_mem_drop hc), by simp, ?_, by simp⟩
      simp only [List.take_append_drop]
      exact hne
    · rw [if_neg hrel]
      refine ⟨hsg3, by simp, ?_, by simp, by intro h; simp at h; exact hne h.2, by simp⟩
      intro c hc
      rcases List.mem_append.mp hc with h | h
      · exact zeros_digits _ c h
      · exact hd c h
  · rw [if_neg hn]
    refine ⟨hsg3, ?_, by simp, by simp, by intro h; simp at h; exact hne h.1, by simp⟩
    intro c hc
    rcases List.mem_append.mp hc with h | h
    · exact hd c h
    · exact zeros_digits _ c h

theorem mantissa_canonical (m : List Nat) (hc : Canonical m) :
    mantissa m = m ∧ stripLead m = m := by
  obtain ⟨_, _, hh, hl⟩ := hc
  have h1 := stripLead_of_head m hh
  refine ⟨?_, h1⟩
  unfold mantissa
  rw [h1]
  exact stripTrail_of_last m hl

theorem natVal_expDigits (x : Nat) : natVal (expDigits x) = x := by
  have key : ∀ l : List Nat, natVal (l.reverse.map (· + 48)) = Nat.ofDigits 10 l := by
    intro l
    induction l with
    | nil => rfl
    | cons d l ih =>
      unfold natVal at ih ⊢
      simp only [List.reverse_cons, List.map_append, List.map_cons, List.map_nil,
        List.foldl_append, List.foldl_cons, List.foldl_nil, Nat.ofDigits_cons]
      rw [ih]
      omega
  unfold expDigits
  rw [key, Nat.ofDigits_digits]

theorem takeWhile_of_head (l : List Nat) (h : l.head? ≠ some 48) :
    (l.takeWhile (· == 48)).length = 0 := by
  cases l with
  | nil => rfl
  | cons c r =>
    have : c ≠ 48 := by simpa using h
    rw [List.takeWhile_cons_of_neg (by simpa using this)]
    rfl

theorem take_head (m : List Nat) (n : Nat) (hn : 0 < n) : (m.take n).head? = m.head? := by
  cases m with
  | nil => simp
  | cons c r =>
    obtain ⟨j, rfl⟩ : ∃ j, n = j + 1 := ⟨n - 1, by omega⟩
    simp

/-- The parts of the literal that `emit` writes: its canonical mantissa is `m`,
its canonical exponent is `e`, it has no leading zeros before the point. -/
theorem outLit_parts (sg m : List Nat) (e : Int) (hc : Canonical m) :
    (outLit sg m e).mant = m ∧ (outLit sg m e).exp10 = e ∧ (outLit sg m e).sg = sg ∧
      (outLit sg m e).leadZeros = 0 := by
  obtain ⟨hmm, hsl⟩ := mantissa_canonical m hc
  obtain ⟨hd, hne, hh, hl⟩ := hc
  have hk : 0 < m.length := List.length_pos.mpr hne
  unfold outLit
  by_cases h0 : e = 0
  · rw [if_pos h0]
    refine ⟨?_, ?_, rfl, takeWhile_of_head m hh⟩
    · simp [Lit.mant, hmm]
    · simp [Lit.exp10, Lit.shift, Lit.mant, Lit.expVal, hmm, hsl, h0]
  rw [if_neg h0]
  by_cases hsci : e + (m.length : Int) < -2 ∨ 2 < e
  · rw [if_pos hsci]
    refine ⟨?_, ?_, rfl, takeWhile_of_head m hh⟩
    · simp [Lit.mant, hmm]
    · simp only [Lit.exp10, Lit.shift, Lit.mant, Lit.expVal, List.append_nil, hmm, hsl,
        if_true, natVal_expDigits, List.length_nil]
      by_cases hn : e < 0
      · simp only [if_pos hn, if_true]
        omega
      · simp only [if_neg hn]
        rw [if_neg (by simp)]
        omega
  rw [if_neg hsci]
  by_cases hn : e < 0
  · rw [if_pos hn]
    by_cases hrel : 0 < e + (m.length : Int)
    · rw [if_pos hrel]
      refine ⟨?_, ?_, rfl, ?_⟩
      · simp [Lit.mant, hmm]
      · simp only [Lit.exp10, Lit.shift, Lit.mant, Lit.expVal, List.take_append_drop, hmm, hsl,
          List.length_drop]
        simp
        omega
      · have := take_head m (e + (m.length : Int)).toNat (by omega)
        exact takeWhile_of_head _ (by rw [this]; exact hh)
    · rw [if_neg hrel]
      have hmz : mantissa (zeros (-(e + (m.length : Int))).toNat ++ m) = m := by
        have := mantissa_zeros (-(e + (m.length : Int))).toNat 0 m
        rw [show zeros 0 = [] from rfl, List.append_nil] at this
        exact this.trans hmm
      have hsz : stripLead (zeros (-(e + (m.length : Int))).toNat ++ m) = m := by
        rw [stripLead_zeros_append, hsl]
      refine ⟨?_, ?_, rfl, rfl⟩
      · simp only [Lit.mant, List.nil_append]
        exact hmz
      · simp only [Lit.exp10, Lit.shift, Lit.mant, Lit.expVal, List.nil_append, hmz, hsz,
          List.length_append, zeros_length]
        simp
        omega
  · rw [if_neg hn]
    have hmz : mantissa (m ++ zeros e.toNat) = m := by
      have := mantissa_zeros 0 e.toNat m
      rw [show zeros 0 = [] from rfl, List.nil_append] at this
      exact this.trans hmm
    have hsz : stripLead (m ++ zeros e.toNat) = m ++ zeros e.toNat := by
      apply stripLead_of_head
      cases m with
      | nil => exact absurd rfl hne
      | cons c r => simpa using hh
    have hhz : (m ++ zeros e.toNat).head? ≠ some 48 := by
      cases m with
      | nil => exact absurd rfl hne
      | cons c r => simpa using hh
    refine ⟨?_, ?_, rfl, takeWhile_of_head _ hhz⟩
    · simp only [Lit.mant, List.append_nil]
      exact hmz
    · simp only [Lit.exp10, Lit.shift, Lit.mant, Lit.expVal, List.append_nil, hmz, hsz,
        List.length_append, zeros_length, List.length_nil]
      simp
      omega

theorem emitSpec_indep (m : List Nat) (e : Int) (r1 r2 : Nat) (o1 o2 : List Nat)
    (h1 : emitSpec m e r1 = some o1) (h2 : emitSpec m e r2 = some o2) : o1 = o2 := by
  have a := emitSpec_render [] m e r1 o1 h1
  have b := emitSpec_render [] m e r2 o2 h2
  rw [a] at b
  simpa using b

theorem minus_cases (L : Lit) : L.minus = [] ∨ L.minus = [45] := by
  unfold Lit.minus
  split
  · exact Or.inr rfl
  · exact Or.inl rfl

theorem minus_of_sg (L : Lit) (h : L.sg = [] ∨ L.sg = [45]) : L.minus = L.sg := by
  unfold Lit.minus
  rcases h with h | h <;> rw [h] <;> simp

theorem sign_factor (L : Lit) :
    (if L.minus = [45] then (-1 : ℚ) else 1) = (if L.sg = [45] then (-1 : ℚ) else 1) := by
  unfold Lit.minus
  by_cases h : L.sg = [45] <;> simp [h]

theorem outLit_expVal (sg m : List Nat) (e : Int) : |(outLit sg m e).expVal| ≤ |e| := by
  unfold outLit
  by_cases h0 : e = 0
  · rw [if_pos h0]; simp [Lit.expVal]
  rw [if_neg h0]
  by_cases hsci : e + (m.length : Int) < -2 ∨ 2 < e
  · rw [if_pos hsci]
    simp only [Lit.expVal, if_true, natVal_expDigits]
    by_cases hn : e < 0
    · simp only [if_pos hn, if_true]
      rw [abs_le]; have := abs_nonneg e; have := abs_le.mp (le_refl |e|)
      constructor <;> omega
    · simp only [if_neg hn]
      rw [if_neg (by simp)]
      rw [abs_le]; have := abs_nonneg e; have := abs_le.mp (le_refl |e|)
      constructor <;> omega
  rw [if_neg hsci]
  by_cases hn : e < 0
  · rw [if_pos hn]
    split <;> simp [Lit.expVal]
  · rw [if_neg hn]; simp [Lit.expVal]

/-- What `Number` returns on a valid literal of non-zero value whose exponent
arithmetic stays in range: the bytes of the literal `outLit` of its sign, its
canonical mantissa and its canonical exponent. -/
theorem Number_some_outLit (s r : List Nat) (L : Lit) (hp : parseLit s = some L)
    (hm : L.mant ≠ []) (hb : (s.length : Int) + |exponentOf s| < 2 ^ 62)
    (h : Number s = some r) :
    r = (outLit L.minus L.mant L.exp10).render ∧
      ∃ out, emitSpec L.mant L.exp10 L.room = some out ∧ r = L.minus ++ out := by
  have hnz := valueOf_ne_zero_of s L hp hm
  rw [Number_inRange s L hp hnz hb] at h
  cases ho : emitSpec L.mant L.exp10 L.room with
  | none => rw [ho] at h; cases h
  | some out =>
    rw [ho] at h
    simp only [Option.map_some', Option.some.injEq] at h
    refine ⟨?_, out, rfl, h.symm⟩
    rw [emitSpec_render L.minus _ _ _ _ ho, h]

/-- Whenever `Number` returns on a valid literal whose length and exponent
magnitude together stay below `2^62`, the result denotes the same value. -/
theorem Number_value (s r : List Nat) (hv : validNumber s = true)
    (hb : (s.length : Int) + |exponentOf s| < 2 ^ 62) (h : Number s = some r) :
    valueOf r = valueOf s := by
  obtain ⟨L, hp, hwf, hr⟩ := validNumber_sound s hv
  have habs : (0 : Int) ≤ |exponentOf s| := abs_nonneg _
  have habs2 := abs_le.mp (le_refl |exponentOf s|)
  by_cases hm : L.mant = []
  · rw [Number_of_valid s L hp (by omega)] at h
    rw [exponentOf_eq s L hp] at hb habs habs2
    rw [NumberSpec_zero L hwf (by omega) (by omega) hm] at h
    cases h
    rw [valueOf_of_parse s L hp, (value_eq_zero_iff L hwf).mpr hm]
    exact valueOf_zero_of _ ⟨[], [48], false, [], false, 0, [], []⟩ (by decide) (by decide)
  · obtain ⟨hro, _⟩ := Number_some_outLit s r L hp hm hb h
    have hc := mant_Canonical L hwf hm
    have hwf2 := outLit_WF L.minus L.mant L.exp10 (minus_cases L) hc
    obtain ⟨p1, p2, p3, _⟩ := outLit_parts L.minus L.mant L.exp10 hc
    rw [hro, valueOf_of_parse _ _ (parseLit_render _ hwf2), valueOf_of_parse s L hp,
      value_canonical, value_canonical L, p1, p2, p3, sign_factor]

/-- Whenever `Number` returns on a valid literal (twice its length and its
exponent magnitude together below `2^62`), the result is a fixed point. -/
theorem Number_idempotent (s r : List Nat) (hv : validNumber s = true)
    (hb : 2 * (s.length : Int) + |exponentOf s| < 2 ^ 62) (h : Number s = some r) :
    Number r = some r := by
  obtain ⟨L, hp, hwf, hr⟩ := validNumber_sound s hv
  have habs : (0 : Int) ≤ |exponentOf s| := abs_nonneg _
  have habs2 := abs_le.mp (le_refl |exponentOf s|)
  by_cases hm : L.mant = []
  · rw [Number_of_valid s L hp (by omega)] at h
    rw [exponentOf_eq s L hp] at hb habs habs2
    rw [NumberSpec_zero L hwf (by omega) (by omega) hm] at h
    cases h
    decide
  · have hle := Number_nongrowth s r hv (by omega) h
    obtain ⟨hro, out, hout, hrout⟩ := Number_some_outLit s r L hp hm (by omega) h
    have hc := mant_Canonical L hwf hm
    have hwf2 := outLit_WF L.minus L.mant L.exp10 (minus_cases L) hc
    obtain ⟨p1, p2, p3, p4⟩ := outLit_parts L.minus L.mant L.exp10 hc
    have hmn : (outLit L.minus L.mant L.exp10).minus = L.minus := by
      rw [minus_of_sg _ (by rw [p3]; exact minus_cases L), p3]
    have hsb := shift_bound L hwf hm
    have hev := outLit_expVal L.minus L.mant L.exp10
    have he10 : |L.exp10| ≤ |L.expVal| + L.render.length := by
      unfold Lit.exp10
      rw [abs_le]
      have := abs_le.mp (le_refl |L.expVal|)
      constructor <;> omega
    rw [exponentOf_eq s L hp] at hb
    rw [hr] at he10
    have hb0 := abs_nonneg L.expVal
    have hm2 : (outLit L.minus L.mant L.exp10).mant ≠ [] := by rw [p1]; exact hm
    unfold Number
    rw [hro, NumberWith_render parseInt _ hwf2 (by rw [← hro]; omega),
      NumberSpec_inRange _ hwf2 hm2 (by rw [← hro]; omega), p1, p2, hmn]
    -- the room behind the mantissa is what the form needs
    have hw := window_le _ hwf2 hm2
    rw [p1, p4, hmn, dropPlus_render _ hwf2, hmn] at hw
    have hrl : (outLit L.minus L.mant L.exp10).render.length = L.minus.length + out.length := by
      rw [← hro, hrout, List.length_append]
    rw [render_eq, p3] at hrl
    simp only [List.length_append] at hw hrl
    obtain ⟨hol, _⟩ := emitSpec_length _ _ _ _ hout
    obtain ⟨out2, hout2⟩ := emitSpec_isSome L.mant L.exp10
      (outLit L.minus L.mant L.exp10).room (by omega)
    rw [hout2, emitSpec_indep _ _ _ _ _ _ hout2 hout]
    simp only [Option.map_some']
    rw [← hrout, ← hro]

/-- Totality for short mantissas: `Number` returns on every valid literal whose
canonical mantissa has at most 90 digits and whose length and exponent
magnitude together stay below `2^62`: no read or write leaves the slice. -/
theorem Number_total (s : List Nat) (hv : validNumber s = true)
    (hk : (mantissaOf s).length ≤ 90)
    (hb : (s.length : Int) + |exponentOf s| < 2 ^ 62) : ∃ r, Number s = some r := by
  obtain ⟨L, hp, hwf, hr⟩ := validNumber_sound s hv
  rw [mantissaOf_eq s L hp] at hk
  have habs : (0 : Int) ≤ |exponentOf s| := abs_nonneg _
  have habs2 := abs_le.mp (le_refl |exponentOf s|)
  by_cases hz : L.mant = []
  · refine ⟨bytes "0", ?_⟩
    rw [Number_of_valid s L hp (by omega)]
    rw [exponentOf_eq s L hp] at hb habs habs2
    exact NumberSpec_zero L hwf (by omega) (by omega) hz
  · have hnz : valueOf s ≠ some 0 := valueOf_ne_zero_of s L hp hz
    rw [Number_inRange s L hp hnz hb]
    obtain ⟨i, _, _, hi, _⟩ := anatomy L hwf hz
    have hroom := room_eq L hwf i hi
    have hs := outLen_le L hwf hz hk
    obtain ⟨out, hout⟩ := emitSpec_isSome L.mant L.exp10 L.room (by omega)
    exact ⟨L.minus ++ out, by rw [hout]; rfl⟩

/-! ## `ContentType` equals its reference definition -/

theorem isWhitespace_ne_quote (c : Nat) (h : isWhitespace c = true) : c ≠ 34 := by
  intro hc
  subst hc
  simp [isWhitespace] at h

theorem slice_prefix (m post : List Nat) (hi : Int) (hhi : hi = m.length) :
    slice (m ++ post) 0 hi = some m := by
  have := slice_mid [] m post 0 hi (by simp) (by simpa using hhi)
  simpa using this

theorem slice_suffix (pre m : List Nat) (lo hi : Int) (hlo : lo = pre.length)
    (hhi : hi = (pre.length : Int) + m.length) : slice (pre ++ m) lo hi = some m := by
  have := slice_mid pre m [] lo hi hlo hhi
  simpa using this

theorem contentEnd_eq (K G P : List Nat) (j start : Int) (hj : j = K.length)
    (hs : start = (K.length : Int) + G.length) (h0 : start = 0 → K = [] ∧ G = []) :
    contentEnd (K ++ (G ++ P)) j start = some (toLower (K ++ P)) := by
  unfold contentEnd
  by_cases hst : start = 0
  · obtain ⟨hK, hG⟩ := h0 hst
    subst hK hG
    simp [hst]
  · rw [if_pos hst]
    have h1 : slice (K ++ (G ++ P)) start ((K ++ (G ++ P)).length : Int) = some P := by
      have := slice_suffix (K ++ G) P start ((K ++ (G ++ P)).length : Int)
        (by simp [hs]) (by simp; omega)
      simpa using this
    rw [h1]
    simp only []
    have hlen : ((G ++ P).take P.length).length = P.length := by simp
    have h2 : copyAt (K ++ (G ++ P)) j P = some (K ++ (P ++ (G ++ P).drop P.length)) := by
      have := copyAt_mid K ((G ++ P).take P.length) ((G ++ P).drop P.length) P j hj hlen
      rwa [List.take_append_drop] at this
    rw [h2]
    simp only []
    have hc : copyCount (K ++ (G ++ P)) j P = P.length := by
      unfold copyCount
      simp [hj]
    simp only [hc]
    have h3 : slice (K ++ (P ++ (G ++ P).drop P.length)) 0 (j + P.length) = some (K ++ P) := by
      have := slice_prefix (K ++ P) ((G ++ P).drop P.length) (j + P.length) (by simp [hj])
      simpa using this
    rw [h3]
    rfl

theorem contentLoop_keep (R : List Nat) : ∀ (K G P : List Nat) (q : Bool) (i j start : Int),
    i = (K.length : Int) + G.length + P.length → j = K.length →
    start = (K.length : Int) + G.length → (start = 0 → K = [] ∧ G = []) →
    (contentLoop R.length i (K ++ (G ++ (P ++ R))) j start q).bind
      (fun r => contentEnd r.1 r.2.1 r.2.2) = some (toLower (K ++ (P ++ keepBytes q R))) := by
  induction R with
  | nil =>
    intro K G P q i j start _ hj hs h0
    simp only [List.length_nil, contentLoop, Option.some_bind, List.append_nil, keepBytes]
    exact contentEnd_eq K G P j start hj hs h0
  | cons c R ih =>
    intro K G P q i j start hi hj hs h0
    have hget : getB (K ++ (G ++ (P ++ c :: R))) i = some c := by
      have := getB_mid (K ++ (G ++ P)) c R i (by simp [hi]; omega)
      simpa using this
    simp only [List.length_cons, contentLoop, hget]
    by_cases hw : (!q && isWhitespace c) = true
    · have hc34 : c ≠ 34 := by
        apply isWhitespace_ne_quote
        simp only [Bool.and_eq_true] at hw
        exact hw.2
      rw [if_pos hw]
      simp only [keepBytes, if_pos hw, if_neg hc34]
      by_cases hst : start = 0
      · obtain ⟨hK, hG⟩ := h0 hst
        subst hK hG
        simp only [hst, ne_eq, not_true_eq_false, if_false]
        have := ih P [c] [] q (i + 1) (j + i) (i + 1)
          (by simp [hi]) (by simp [hi, hj]) (by simp [hi])
          (by intro h; simp [hi] at h; omega)
        simpa using this
      · rw [if_pos hst]
        have h1 : slice (K ++ (G ++ (P ++ c :: R))) start i = some P := by
          have := slice_mid (K ++ G) P (c :: R) start i (by simp [hs]) (by simp [hi])
          simpa using this
        rw [h1]
        simp only []
        have hlen : ((G ++ P).take P.length).length = P.length := by simp
        have h2 : copyAt (K ++ (G ++ (P ++ c :: R))) j P
            = some (K ++ (P ++ ((G ++ P).drop P.length ++ c :: R))) := by
          have := copyAt_mid K ((G ++ P).take P.length) ((G ++ P).drop P.length ++ c :: R) P j
            hj hlen
          rw [← List.append_assoc ((G ++ P).take P.length), List.take_append_drop] at this
          simpa using this
        rw [h2]
        simp only []
        have hc : copyCount (K ++ (G ++ (P ++ c :: R))) j P = P.length := by
          unfold copyCount
          simp [hj]
          omega
        rw [hc]
        have := ih (K ++ P) ((G ++ P).drop P.length ++ [c]) [] q (i + 1) (j + P.length) (i + 1)
          (by simp [hi]; omega) (by simp [hj]) (by simp [hi]; omega)
          (by intro h; simp [hi] at h; omega)
        simpa using this
    · rw [if_neg hw]
      simp only [keepBytes, if_neg hw]
      by_cases hc34 : c = 34
      · rw [if_pos hc34]
        simp only [if_pos hc34]
        have := ih K G (P ++ [c]) (!q) (i + 1) j start (by simp [hi]; omega) hj hs h0
        simpa using this
      · rw [if_neg hc34]
        simp only [if_neg hc34]
        have := ih K G (P ++ [c]) q (i + 1) j start (by simp [hi]; omega) hj hs h0
        simpa using this

theorem ContentType_keep (b : List Nat) :
    ContentType b = some ((keepBytes false b).map toLowerByte) := by
  have := contentLoop_keep b [] [] [] false 0 0 0 (by simp) (by simp) (by simp) (by simp)
  simp only [List.nil_append] at this
  unfold ContentType
  cases h : contentLoop b.length 0 b 0 0 false with
  | none => rw [h] at this; simp at this
  | some r =>
    obtain ⟨b1, j, start⟩ := r
    rw [h] at this
    simpa [toLower] using this

/-- Claim C11: for every byte sequence `b`, `ContentType` returns the reference
definition: the bytes of `b` without the whitespace outside double quotes, in
their order, lower-cased. -/
theorem ContentType_eq_spec (b : List Nat) : ContentType b = some (ContentTypeSpec b) := by
  unfold ContentTypeSpec
  exact ContentType_keep b

theorem keepBytes_append (xs : List Nat) : ∀ (q : Bool) (ys : List Nat),
    keepBytes q (xs ++ ys) = keepBytes q xs ++
      keepBytes (xs.foldl (fun q c => if c = 34 then !q else q) q) ys := by
  induction xs with
  | nil => intro q ys; simp [keepBytes]
  | cons x xs ih =>
    intro q ys
    simp only [List.cons_append, keepBytes, List.foldl_cons]
    split <;> simp [ih]

theorem keepBytes_get (b : List Nat) (i c : Nat) (h : b.get? i = some c)
    (hq : quoteState b i = true) : (keepBytes false b).get? (keptBefore b i) = some c := by
  have hi : i < b.length := by
    rw [List.get?_eq_some] at h
    exact h.1
  have hsplit : b = b.take i ++ c :: b.drop (i + 1) := by
    have hd : b.drop i = c :: b.drop (i + 1) := by
      rw [List.drop_eq_getElem_cons hi]
      rw [List.get?_eq_getElem?, List.getElem?_eq_getElem hi] at h
      simp only [Option.some.injEq] at h
      rw [h]
    rw [← hd, List.take_append_drop]
  unfold quoteState at hq
  unfold keptBefore
  have h2 : keepBytes false b = keepBytes false (b.take i) ++
      c :: keepBytes (if c = 34 then false else true) (b.drop (i + 1)) := by
    conv_lhs => rw [hsplit]
    rw [keepBytes_append, hq]
    simp [keepBytes]
  rw [h2, List.get?_eq_getElem?, List.getElem?_append_right (le_refl _)]
  simp

/-- Claim C12, as amended: for every byte sequence `b` and every byte of `b`
that lies inside a double-quoted region, `ContentType` returns a result in
which that byte appears lower-cased, at the index given by the number of
bytes kept before it. -/
theorem ContentType_quoted (b : List Nat) (i c : Nat) (h : b.get? i = some c)
    (hq : quoteState b i = true) :
    ∃ out, ContentType b = some out ∧ out.get? (keptBefore b i) = some (toLowerByte c) := by
  refine ⟨_, ContentType_keep b, ?_⟩
  have := keepBytes_get b i c h hq
  rw [List.get?_eq_getElem?] at this ⊢
  rw [List.getElem?_map, this]
  rfl

/-- The quoted bytes of the example: the `U` at index 22 of
` Text/HTML ; Charset="UTF 8" ` lies inside the quotes and appears as `u` at
index 19 of the result. -/
theorem ContentType_quoted_witness :
    ∃ out, ContentType contentExample = some out ∧ out.get? 19 = some 117 :=
  ContentType_quoted contentExample 22 85 (by decide) (by decide)

/-- Claim C12 as stated fails: on ` Text/HTML ; Charset="UTF 8" ` the result is
`text/html;charset="utf 8"`, in which the quoted `UTF 8` is lower-cased: the
byte `U` at index 22 lies inside the quotes and the result has `u` in its
place, and no `U` at all. -/
theorem ContentType_quoted_lowered :
    ContentType contentExample
      = some (bytes "text/html;charset=" ++ [34] ++ bytes "utf 8" ++ [34]) ∧
    contentExample.get? 22 = some 85 ∧ quoteState contentExample 22 = true ∧
    keptBefore contentExample 22 = 19 ∧
    (bytes "text/html;charset=" ++ [34] ++ bytes "utf 8" ++ [34]).get? 19 = some 117 ∧
    85 ∉ bytes "text/html;charset=" ++ [34] ++ bytes "utf 8" ++ [34] := by
  decide

/-! ## The encoding choice of `DataURI` -/

/-- Claim C13: for every parser, every dispatch function and every byte
sequence that the parser rejects, `DataURI` returns the byte sequence
unchanged and does not call the dispatch function. -/
theorem DataURI_malformed (P : List Nat → Option (List Nat × List Nat))
    (m : List Nat → List Nat → List Nat) (d : List Nat) (h : P d = none) :
    DataURIWith P m d = (d, []) := by
  unfold DataURIWith
  rw [h]

/-- The malformed input `data:text/html;abc`, without a comma, is rejected by
the parser and returned as it is, with no call of the dispatch function. -/
theorem DataURI_malformed_witness :
    parseDataURI (bytes "data:text/html;abc") = none ∧
    DataURIWith parseDataURI identityDispatch (bytes "data:text/html;abc")
      = (bytes "data:text/html;abc", []) :=
  ⟨by decide, DataURI_malformed parseDataURI identityDispatch (bytes "data:text/html;abc")
    (by decide)⟩

theorem costLoopFull_ge (p : List Nat) : ∀ a : Nat, a ≤ costLoopFull p a := by
  induction p with
  | nil => intro a; simp [costLoopFull]
  | cons c cs ih =>
    intro a
    simp only [costLoopFull]
    by_cases hc : isUnreserved c = true
    · rw [if_pos hc]
      have := ih (a + 1)
      omega
    · rw [if_neg hc]
      have := ih (a + 2)
      omega

theorem costLoop_gt_iff (base64Len : Nat) (p : List Nat) : ∀ a : Nat,
    costLoop base64Len p a > base64Len ↔ costLoopFull p a > base64Len := by
  induction p with
  | nil => intro a; simp [costLoop, costLoopFull]
  | cons c cs ih =>
    intro a
    simp only [costLoop, costLoopFull]
    by_cases h : (if isUnreserved c = true then a + 1 else a + 2) > base64Len
    · rw [if_pos h]
      have := costLoopFull_ge cs (if isUnreserved c = true then a + 1 else a + 2)
      constructor
      · intro _; omega
      · intro _; exact h
    · rw [if_neg h]
      exact ih _

/-- Claim C20: for every payload, every starting value of `asciiLen` and every
`base64Len`, the test `asciiLen > base64Len` after the loop with the `break`
has the same truth value as after a full scan without it. -/
theorem costLoop_shortCircuit (base64Len : Nat) (p : List Nat) (asciiLen : Nat) :
    decide (costLoop base64Len p asciiLen > base64Len)
      = decide (costLoopFull p asciiLen > base64Len) := by
  rw [decide_eq_decide]
  exact costLoop_gt_iff base64Len p asciiLen

theorem costLoopFull_eq (p : List Nat) : ∀ a : Nat, costLoopFull p a = a + escapeEstimate p := by
  induction p with
  | nil => intro a; simp [costLoopFull, escapeEstimate]
  | cons c cs ih =>
    intro a
    simp only [costLoopFull, ih, escapeEstimate, List.map_cons, List.sum_cons]
    split <;> omega

theorem escapedLen_le (p : List Nat) : escapedLen p ≤ p.length + escapeEstimate p := by
  induction p with
  | nil => simp [escapedLen, escapeEstimate]
  | cons c cs ih =>
    simp only [escapedLen, escapeEstimate, List.map_cons, List.sum_cons, List.length_cons] at ih ⊢
    split <;> omega

theorem escapedLen_reserved (p : List Nat) (h : ∀ c ∈ p, isUnreserved c = false) :
    escapedLen p = p.length + escapeEstimate p := by
  induction p with
  | nil => simp [escapedLen, escapeEstimate]
  | cons c cs ih =>
    have hc : isUnreserved c = false := h c (by simp)
    have := ih (fun x hx => h x (by simp [hx]))
    simp only [escapedLen, escapeEstimate, List.map_cons, List.sum_cons, List.length_cons,
      hc] at this ⊢
    simp
    omega

theorem DataURIWith_base64 (P : List Nat → Option (List Nat × List Nat))
    (m : List Nat → List Nat → List Nat) (d mt data : List Nat) (h : P d = some (mt, data))
    (hc : 7 + encodedLen (m mt data).length < (m mt data).length + escapeEstimate (m mt data)) :
    (DataURIWith P m d).1 = base64Form mt (m mt data) := by
  unfold DataURIWith base64Form
  rw [h]
  have hb : (bytes ";base64").length = 7 := by decide
  simp only [hb]
  have := (costLoop_gt_iff (7 + encodedLen (m mt data).length) (m mt data)
    (m mt data).length).mpr (by rw [costLoopFull_eq]; exact hc)
  rw [if_pos this]

theorem DataURIWith_percent (P : List Nat → Option (List Nat × List Nat))
    (m : List Nat → List Nat → List Nat) (d mt data : List Nat) (h : P d = some (mt, data))
    (hc : ¬ 7 + encodedLen (m mt data).length
      < (m mt data).length + escapeEstimate (m mt data)) :
    (DataURIWith P m d).1 = percentForm mt (m mt data) := by
  unfold DataURIWith percentForm
  rw [h]
  have hb : (bytes ";base64").length = 7 := by decide
  simp only [hb]
  have : ¬ costLoop (7 + encodedLen (m mt data).length) (m mt data) (m mt data).length
      > 7 + encodedLen (m mt data).length := by
    rw [costLoop_gt_iff, costLoopFull_eq]
    exact hc
  rw [if_neg this]

/-- Claim C14, as amended: for every minified payload `p`, `DataURI` emits the
base64 form (with `;base64` appended to the mediatype) whenever
`len(";base64")` plus the base64 length of `p` is strictly smaller than the
length of the percent-escaped payload (1 for an unreserved byte, 3 for any
other byte); and for a payload without unreserved bytes it emits the
percent-escaped form otherwise. -/
theorem DataURI_choice (P : List Nat → Option (List Nat × List Nat))
    (m : List Nat → List Nat → List Nat) (d mt data : List Nat) (h : P d = some (mt, data)) :
    (7 + encodedLen (m mt data).length < escapedLen (m mt data) →
      (DataURIWith P m d).1 = base64Form mt (m mt data)) ∧
    ((∀ c ∈ m mt data, isUnreserved c = false) →
      ¬ 7 + encodedLen (m mt data).length < escapedLen (m mt data) →
      (DataURIWith P m d).1 = percentForm mt (m mt data)) := by
  constructor
  · intro hc
    have := escapedLen_le (m mt data)
    exact DataURIWith_base64 P m d mt data h (by omega)
  · intro hall hc
    have := escapedLen_reserved (m mt data) hall
    exact DataURIWith_percent P m d mt data h (by omega)

/-- The choice at two payloads without unreserved bytes: nine bytes `!` cost
27 escaped and 19 in base64, and the base64 form is emitted; two bytes `!`
cost 6 escaped and 11 in base64, and the percent-escaped form is emitted. -/
theorem DataURI_choice_witness :
    (DataURIWith parseDataURI identityDispatch (bytes "data:,!!!!!!!!!")).1
      = bytes "data:;base64,ISEhISEhISEh" ∧
    (DataURIWith parseDataURI identityDispatch (bytes "data:,!!")).1
      = bytes "data:,%21%21" :=
  ⟨(DataURI_choice parseDataURI identityDispatch (bytes "data:,!!!!!!!!!")
      (bytes "text/plain") (bytes "!!!!!!!!!") (by decide)).1 (by decide),
   (DataURI_choice parseDataURI identityDispatch (bytes "data:,!!")
      (bytes "text/plain") (bytes "!!") (by decide)).2 (by decide) (by decide)⟩

/-- Claim C14 as stated fails: for the payload of nine bytes `!` the estimate
of the claim is 18, and `len(";base64")` plus the base64 length is 19, not
smaller; yet `DataURI` emits the base64 form, not the percent-escaped one. -/
theorem DataURI_choice_not_estimate :
    parseDataURI (bytes "data:,!!!!!!!!!") = some (bytes "text/plain", bytes "!!!!!!!!!") ∧
    escapeEstimate (bytes "!!!!!!!!!") = 18 ∧
    ¬ 7 + encodedLen (bytes "!!!!!!!!!").length < escapeEstimate (bytes "!!!!!!!!!") ∧
    DataURI identityDispatch (bytes "data:,!!!!!!!!!")
      = base64Form (bytes "text/plain") (bytes "!!!!!!!!!") ∧
    DataURI identityDispatch (bytes "data:,!!!!!!!!!")
      ≠ percentForm (bytes "text/plain") (bytes "!!!!!!!!!") := by
  decide

/-- Claim C15 fails on the code: the payload of twelve bytes `a` has only
unreserved bytes, and `DataURI` with the identity dispatch emits the base64
form `data:;base64,YWFhYWFhYWFhYWFh` of 29 bytes, with the `;base64` marker,
where the percent-escaped form `data:,aaaaaaaaaaaa` has 18 bytes. -/
theorem DataURI_printable_base64 :
    (∀ c ∈ bytes "aaaaaaaaaaaa", isUnreserved c = true) ∧
    parseDataURI (bytes "data:,aaaaaaaaaaaa") = some (bytes "text/plain", bytes "aaaaaaaaaaaa") ∧
    DataURI identityDispatch (bytes "data:,aaaaaaaaaaaa")
      = bytes "data:;base64,YWFhYWFhYWFhYWFh" ∧
    percentForm (bytes "text/plain") (bytes "aaaaaaaaaaaa") = bytes "data:,aaaaaaaaaaaa" := by
  decide

/-- Claim C16 fails on the code: the parser decodes `data:text/plainbase64,abcd`
to the mediatype `text/plainbase64` and the payload `abcd`; `DataURI` with the
identity dispatch returns `data:base64,abcd`, which the same parser decodes as
base64 to the three bytes 105, 183, 29, not to `abcd`. -/
theorem DataURI_roundTrip_fails :
    parseDataURI (bytes "data:text/plainbase64,abcd")
      = some (bytes "text/plainbase64", bytes "abcd") ∧
    DataURI identityDispatch (bytes "data:text/plainbase64,abcd") = bytes "data:base64,abcd" ∧
    parseDataURI (bytes "data:base64,abcd") = some (bytes "text/plain", [105, 183, 29]) := by
  decide

/-! ## The three forms that `Number` writes -/

theorem minusOf_eq (s : List Nat) (L : Lit) (hwf : L.WF) (hr : L.render = s) :
    minusOf s = L.minus := by
  have := neg_render L hwf
  rw [hr] at this
  unfold minusOf Lit.minus
  by_cases h : s.head? = some 45
  · have h2 : L.sg = [45] := by simpa [h] using this
    rw [if_pos h, if_pos h2]
  · have h2 : ¬ L.sg = [45] := by simpa [h] using this
    rw [if_neg h, if_neg h2]

theorem mant_length_le (L : Lit) (hwf : L.WF) (hm : L.mant ≠ []) :
    L.mant.length ≤ L.render.length := by
  obtain ⟨i, f, b, hi, hf, hpt, h0, h1, _⟩ := anatomy L hwf hm
  rw [render_length]
  have hpp : L.fp.length ≤ L.pointPart.length := by
    unfold Lit.pointPart
    cases hp : L.pt with
    | true => simp
    | false =>
      have := hpt hp
      simp only [Bool.false_eq_true, if_false, List.length_nil]
      omega
  by_cases hf0 : f = 0
  · have := h0 hf0; omega
  · have := h1 (by omega)
    by_cases hi0 : i = 0
    · have := this.2.2 hi0; omega
    · have := this.2.1 (by omega); omega

theorem fixed_inRange (L : Lit) (hwf : L.WF) (hm : L.mant ≠ [])
    (hlen : (L.render.length : Int) < 2 ^ 60) (h1 : -2 ≤ L.exp10 + (L.mant.length : Int))
    (h2 : L.exp10 ≤ 2) : (L.render.length : Int) + |L.expVal| < 2 ^ 62 := by
  have hs := shift_bound L hwf hm
  have hml := mant_length_le L hwf hm
  have he : L.exp10 = L.expVal + L.shift := rfl
  have habs : |L.expVal| ≤ 2 * (L.render.length : Int) + 2 := by
    rw [abs_le]
    constructor <;> omega
  omega

theorem Number_fixed_inRange (s : List Nat) (L : Lit) (hp : parseLit s = some L)
    (hwf : L.WF) (hr : L.render = s) (hm : L.mant ≠ []) (hlen : (s.length : Int) < 2 ^ 60)
    (h1 : -2 ≤ L.exp10 + (L.mant.length : Int)) (h2 : L.exp10 ≤ 2) :
    Number s = (emitSpec L.mant L.exp10 L.room).map (fun r => L.minus ++ r) := by
  have hb := fixed_inRange L hwf hm (by rw [hr]; exact hlen) h1 h2
  rw [hr] at hb
  apply Number_inRange s L hp (valueOf_ne_zero_of s L hp hm)
  rw [exponentOf_eq s L hp]
  exact hb

/-- The scientific form with the exact integer logarithm: for every valid
literal with non-zero value, in range and with `e + len(m) < -2` or `e > 2`,
every result of `Number` is the sign, the digits of `m`, `e`, a `-` for a
negative exponent and the decimal digits of `|e|`; and `Number` returns this
result when `m` has at most 90 digits. -/
theorem exactLog_scientific (s : List Nat) (hv : validNumber s = true)
    (hnz : valueOf s ≠ some 0) (hb : (s.length : Int) + |exponentOf s| < 2 ^ 62)
    (hsci : exp10Of s + (mantissaOf s).length < -2 ∨ 2 < exp10Of s) :
    (∀ r, Number s = some r →
      r = minusOf s ++ (mantissaOf s ++ 101 ::
        ((if exp10Of s < 0 then [45] else []) ++ expDigits (exp10Of s).natAbs))) ∧
    ((mantissaOf s).length ≤ 90 →
      Number s = some (minusOf s ++ (mantissaOf s ++ 101 ::
        ((if exp10Of s < 0 then [45] else []) ++ expDigits (exp10Of s).natAbs)))) := by
  obtain ⟨L, hp, hwf, hr⟩ := validNumber_sound s hv
  have hm := mant_ne_nil_of s L hp hnz
  simp only [exp10Of_eq s L hp, mantissaOf_eq s L hp] at hsci ⊢
  rw [minusOf_eq s L hwf hr, Number_inRange s L hp hnz hb]
  have h0 : L.exp10 ≠ 0 := by
    intro h
    have := List.length_pos.mpr hm
    omega
  have hform : emitSpec L.mant L.exp10 L.room =
      if (L.mant ++ 101 :: ((if L.exp10 < 0 then [45] else []) ++
        expDigits L.exp10.natAbs)).length ≤ L.mant.length + L.room
      then some (L.mant ++ 101 :: ((if L.exp10 < 0 then [45] else []) ++
        expDigits L.exp10.natAbs)) else none := by
    unfold emitSpec
    simp only []
    rw [if_neg h0, if_pos hsci]
  have hall : ∀ r, (emitSpec L.mant L.exp10 L.room).map (fun r => L.minus ++ r) = some r →
      r = L.minus ++ (L.mant ++ 101 :: ((if L.exp10 < 0 then [45] else []) ++
        expDigits L.exp10.natAbs)) := by
    intro r hres
    rw [hform] at hres
    by_cases hfit : (L.mant ++ 101 :: ((if L.exp10 < 0 then [45] else []) ++
        expDigits L.exp10.natAbs)).length ≤ L.mant.length + L.room
    · rw [if_pos hfit] at hres
      simp only [Option.map_some', Option.some.injEq] at hres
      exact hres.symm
    · rw [if_neg hfit] at hres
      simp at hres
  refine ⟨hall, ?_⟩
  intro hk
  obtain ⟨i, _, _, hi, _⟩ := anatomy L hwf hm
  have hroom := room_eq L hwf i hi
  have hs := outLen_le L hwf hm hk
  obtain ⟨out, hout⟩ := emitSpec_isSome L.mant L.exp10 L.room (by omega)
  have := hall (L.minus ++ out) (by rw [hout]; rfl)
  rw [hout, Option.map_some', this]

/-- Claim C18, as amended: for every valid literal (of fewer than `2^60`
bytes) with non-zero value whose canonical mantissa `m` and exponent `e`
satisfy `e < 0` and `-2 <= relExp <= 0`, `Number` returns, after the `-` of a
negative literal, `.` followed by `-relExp` zero digits followed by the
digits of `m`, with no `0` in front of the point. -/
theorem Number_fraction (s : List Nat) (hv : validNumber s = true)
    (hnz : valueOf s ≠ some 0) (hlen : (s.length : Int) < 2 ^ 60) (he : exp10Of s < 0)
    (h1 : -2 ≤ exp10Of s + (mantissaOf s).length)
    (h2 : exp10Of s + (mantissaOf s).length ≤ 0) :
    Number s = some (minusOf s ++ 46 ::
      (zeros (-(exp10Of s + (mantissaOf s).length)).toNat ++ mantissaOf s)) := by
  obtain ⟨L, hp, hwf, hr⟩ := validNumber_sound s hv
  have hm := mant_ne_nil_of s L hp hnz
  simp only [exp10Of_eq s L hp, mantissaOf_eq s L hp] at he h1 h2 ⊢
  rw [minusOf_eq s L hwf hr, Number_fixed_inRange s L hp hwf hr hm hlen h1 (by omega)]
  obtain ⟨_, f2, _⟩ := fixed_fits L hwf hm
  unfold emitSpec
  simp only []
  rw [if_neg (by omega), if_neg (by omega), if_pos he, if_neg (by omega),
    if_pos (f2 he h2 h1)]
  rfl

/-- The purely fractional form at a concrete input: "-0.0120" has the mantissa
"12" and the exponent -3, so `relExp = -1`, and gives "-.012". -/
theorem Number_fraction_witness : Number (bytes "-0.0120") = some (bytes "-.012") :=
  Number_fraction (bytes "-0.0120") (by decide)
    (valueOf_ne_zero_of _ ⟨[45], [48], true, bytes "0120", false, 0, [], []⟩ (by decide)
      (by decide)) (by decide) (by decide) (by decide) (by decide)

/-- Claim C18 as stated fails: "0.01" is a valid literal with non-zero value,
the mantissa "1" and the exponent -2, so `relExp = -1`; the claim gives
"0.01" and `Number` returns ".01", without the `0` in front of the point. -/
theorem Number_fraction_no_zero :
    validNumber (bytes "0.01") = true ∧ valueOf (bytes "0.01") ≠ some 0 ∧
    mantissaOf (bytes "0.01") = bytes "1" ∧ exp10Of (bytes "0.01") = -2 ∧
    Number (bytes "0.01") = some (bytes ".01") ∧
    Number (bytes "0.01") ≠ some (bytes "0." ++ zeros 1 ++ bytes "1") :=
  ⟨by decide,
   valueOf_ne_zero_of _ ⟨[], [48], true, bytes "01", false, 0, [], []⟩ (by decide) (by decide),
   by decide, by decide, by decide, by decide⟩

/-- Claim C19: for every valid literal (of fewer than `2^60` bytes) with
non-zero value whose canonical mantissa `m` and exponent `e` are not in the
scientific range, `Number` returns, after the `-` of a negative literal, `m`
followed by `e` zero digits when `0 <= e`, and `m` with a `.` inserted after
its first `relExp` digits when `e < 0` and `relExp > 0`; `m` consists of
digits, so the first form has no decimal point and the second has one. -/
theorem Number_fixed (s : List Nat) (hv : validNumber s = true)
    (hnz : valueOf s ≠ some 0) (hlen : (s.length : Int) < 2 ^ 60)
    (hfix : ¬ (exp10Of s + (mantissaOf s).length < -2 ∨ 2 < exp10Of s)) :
    (0 ≤ exp10Of s →
      Number s = some (minusOf s ++ (mantissaOf s ++ zeros (exp10Of s).toNat))) ∧
    (exp10Of s < 0 → 0 < exp10Of s + (mantissaOf s).length →
      Number s = some (minusOf s ++
        ((mantissaOf s).take (exp10Of s + (mantissaOf s).length).toNat ++ 46 ::
          (mantissaOf s).drop (exp10Of s + (mantissaOf s).length).toNat))) ∧
    (∀ c ∈ mantissaOf s, isDigit c = true) := by
  obtain ⟨L, hp, hwf, hr⟩ := validNumber_sound s hv
  have hm := mant_ne_nil_of s L hp hnz
  simp only [exp10Of_eq s L hp, mantissaOf_eq s L hp] at hfix ⊢
  rw [minusOf_eq s L hwf hr, Number_fixed_inRange s L hp hwf hr hm hlen (by omega) (by omega)]
  obtain ⟨f1, _, f3⟩ := fixed_fits L hwf hm
  unfold emitSpec
  simp only []
  refine ⟨?_, ?_, mant_digits L hwf⟩
  · intro h0
    by_cases hz : L.exp10 = 0
    · rw [if_pos hz, hz]
      simp [zeros]
    · rw [if_neg hz, if_neg hfix, if_neg (by omega), if_pos (f3 (by omega) (by omega))]
      rfl
  · intro hneg hrel
    rw [if_neg (by omega), if_neg hfix, if_pos hneg, if_pos hrel, if_pos (f1 hneg hrel)]
    rfl

/-- The fixed-point forms at concrete inputs: "1200" has the mantissa "12" and
the exponent 2 and gives "1200"; "-012.50" has the mantissa "125" and the
exponent -1 and gives "-12.5". -/
theorem Number_fixed_witness :
    Number (bytes "1200") = some (bytes "1200") ∧
    Number (bytes "-012.50") = some (bytes "-12.5") :=
  ⟨(Number_fixed (bytes "1200") (by decide)
      (valueOf_ne_zero_of _ ⟨[], bytes "1200", false, [], false, 0, [], []⟩ (by decide)
        (by decide)) (by decide) (by decide)).1 (by decide),
   (Number_fixed (bytes "-012.50") (by decide)
      (valueOf_ne_zero_of _ ⟨[45], bytes "012", true, bytes "50", false, 0, [], []⟩ (by decide)
        (by decide)) (by decide) (by decide)).2.1 (by decide) (by decide)⟩

/-- Claim C17 as stated fails: "1.0e99999999999999999999" is a valid literal
with non-zero value, the mantissa "1" and the exponent 99999999999999999999,
above 2; `Number` returns the input as it is (the exponent does not fit an
`int64`), not "1e99999999999999999999". -/
theorem Number_scientific_failSoft :
    validNumber (bytes "1.0e99999999999999999999") = true ∧
    valueOf (bytes "1.0e99999999999999999999") ≠ some 0 ∧
    mantissaOf (bytes "1.0e99999999999999999999") = bytes "1" ∧
    exp10Of (bytes "1.0e99999999999999999999") = 99999999999999999999 ∧
    Number (bytes "1.0e99999999999999999999") = some (bytes "1.0e99999999999999999999") ∧
    Number (bytes "1.0e99999999999999999999") ≠ some (bytes "1e99999999999999999999") :=
  ⟨by decide,
   valueOf_ne_zero_of _ ⟨[], [49], true, [48], true, 101, [], bytes "99999999999999999999"⟩
     (by decide) (by decide),
   by decide, by decide, by decide, by decide⟩

/-! ## Payloads of unreserved bytes -/

theorem hexDigit_ne_quote (n : Nat) : hexDigit n ≠ 34 := by
  unfold hexDigit
  split <;> omega

theorem isPlain_ne_quote (c : Nat) (h : isPlain c = true) : c ≠ 34 := by
  intro hc
  subst hc
  simp [isPlain] at h

theorem escapeQuotes_id (xs : List Nat) (h : 34 ∉ xs) : escapeQuotes xs = xs := by
  induction xs with
  | nil => rfl
  | cons x xs ih =>
    have hx : x ≠ 34 := fun hx => h (by simp [hx])
    have hxs : 34 ∉ xs := fun hm => h (by simp [hm])
    simp [escapeQuotes, hx, ih hxs]

theorem queryEscape_no_quote (p : List Nat) : 34 ∉ queryEscape p := by
  induction p with
  | nil => simp [queryEscape]
  | cons c cs ih =>
    simp only [queryEscape, List.mem_append, not_or]
    refine ⟨?_, ih⟩
    by_cases h32 : c = 32
    · simp [h32]
    · rw [if_neg h32]
      by_cases hp : isPlain c = true
      · rw [if_pos hp]
        have := isPlain_ne_quote c hp
        simp
        omega
      · rw [if_neg hp]
        have h1 := hexDigit_ne_quote (c / 16)
        have h2 := hexDigit_ne_quote (c % 16)
        simp
        omega

/-- The replacement of line 66 finds no double quote: `url.QueryEscape` has
escaped them all. -/
theorem escapeQuotes_queryEscape (p : List Nat) :
    escapeQuotes (queryEscape p) = queryEscape p :=
  escapeQuotes_id _ (queryEscape_no_quote p)

theorem queryEscape_length_unreserved (p : List Nat) (h : ∀ c ∈ p, isUnreserved c = true) :
    (queryEscape p).length = p.length := by
  induction p with
  | nil => simp [queryEscape]
  | cons c cs ih =>
    have hc : isUnreserved c = true := h c (by simp)
    have := ih (fun x hx => h x (by simp [hx]))
    simp only [queryEscape, List.length_append, List.length_cons, this]
    by_cases h32 : c = 32
    · simp [h32]; omega
    · rw [if_neg h32]
      have hp : isPlain c = true := by
        simp only [isUnreserved, isPlain, Bool.or_eq_true, Bool.and_eq_true, decide_eq_true_eq,
          beq_iff_eq] at hc ⊢
        omega
      rw [if_pos hp]
      simp
      omega

theorem escapeEstimate_unreserved (p : List Nat) (h : ∀ c ∈ p, isUnreserved c = true) :
    escapeEstimate p = p.length := by
  induction p with
  | nil => simp [escapeEstimate]
  | cons c cs ih =>
    have hc : isUnreserved c = true := h c (by simp)
    have := ih (fun x hx => h x (by simp [hx]))
    simp only [escapeEstimate, List.map_cons, List.sum_cons, List.length_cons, hc] at this ⊢
    simp
    omega

/-- What `DataURI` does with a payload of unreserved bytes only: the cost loop
ends with twice the length of the payload, so the base64 form is emitted as
soon as that exceeds `len(";base64")` plus the base64 length, which is so for
every payload of 14 or more bytes, although the percent-escaped payload is
the payload itself, with `+` for every space. -/
theorem DataURIWith_printable (P : List Nat → Option (List Nat × List Nat))
    (m : List Nat → List Nat → List Nat) (d mt data : List Nat) (h : P d = some (mt, data))
    (hall : ∀ c ∈ m mt data, isUnreserved c = true) :
    (14 ≤ (m mt data).length → (DataURIWith P m d).1 = base64Form mt (m mt data)) ∧
    ((m mt data).length ≤ 11 → (DataURIWith P m d).1 = percentForm mt (m mt data)) ∧
    (escapeQuotes (queryEscape (m mt data))).length = (m mt data).length := by
  have he := escapeEstimate_unreserved (m mt data) hall
  refine ⟨?_, ?_, ?_⟩
  · intro hn
    apply DataURIWith_base64 P m d mt data h
    rw [he]
    unfold encodedLen
    omega
  · intro hn
    apply DataURIWith_percent P m d mt data h
    rw [he]
    unfold encodedLen
    omega
  · rw [escapeQuotes_queryEscape]
    exact queryEscape_length_unreserved _ hall

/-! ## The two encodings of the payload decode back -/

theorem hexVal_hexDigit (n : Nat) (h : n < 16) : hexVal (hexDigit n) = some n := by
  interval_cases n <;> decide

theorem isPlain_ne (c : Nat) (h : isPlain c = true) : c ≠ 37 ∧ c ≠ 43 := by
  simp only [isPlain, Bool.or_eq_true, Bool.and_eq_true, decide_eq_true_eq, beq_iff_eq] at h
  omega

theorem queryUnescape_plain (c : Nat) (cs : List Nat) (h : c ≠ 37) :
    queryUnescape (c :: cs) = (queryUnescape cs).map fun r => (if c = 43 then 32 else c) :: r := by
  rcases cs with _ | ⟨x, _ | ⟨y, rest⟩⟩ <;> simp [queryUnescape, h]

/-- The percent-escaped payload decodes back: `url.QueryUnescape` of the output
of `url.QueryEscape`, after the replacement of line 66, is the payload. -/
theorem queryUnescape_queryEscape (p : List Nat) (hb : ∀ c ∈ p, c < 256) :
    queryUnescape (escapeQuotes (queryEscape p)) = some p := by
  rw [escapeQuotes_queryEscape]
  induction p with
  | nil => simp [queryEscape, queryUnescape]
  | cons c cs ih =>
    have hc : c < 256 := hb c (by simp)
    have ih2 := ih (fun x hx => hb x (by simp [hx]))
    simp only [queryEscape]
    by_cases h32 : c = 32
    · subst h32
      rw [if_pos rfl, List.singleton_append, queryUnescape_plain _ _ (by omega)]
      simp [ih2]
    · rw [if_neg h32]
      by_cases hp : isPlain c = true
      · rw [if_pos hp]
        obtain ⟨h37, h43⟩ := isPlain_ne c hp
        rw [List.singleton_append, queryUnescape_plain _ _ h37]
        simp [h43, ih2]
      · rw [if_neg hp]
        have h1 := hexVal_hexDigit (c / 16) (by omega)
        have h2 := hexVal_hexDigit (c % 16) (by omega)
        rw [List.cons_append, List.cons_append, List.cons_append, List.nil_append,
          queryUnescape]
        simp only [if_true, h1, h2, ih2, Option.some_bind, Option.map_some']
        rw [Nat.div_add_mod]

theorem b64Val_b64Char (n : Nat) (h : n < 64) : b64Val (b64Char n) = some n := by
  interval_cases n <;> decide

theorem b64Char_ne (n : Nat) : b64Char n ≠ 61 ∧ b64Char n ≠ 13 ∧ b64Char n ≠ 10 := by
  unfold b64Char
  split
  · omega
  · split
    · omega
    · split
      · omega
      · split <;> omega

theorem base64Quanta_encode (p : List Nat) (hb : ∀ c ∈ p, c < 256) :
    base64Quanta (base64Encode p) = some p := by
  induction p using base64Encode.induct with
  | case1 => simp [base64Encode, base64Quanta]
  | case2 a =>
    have ha : a < 256 := hb a (by simp)
    have h1 := b64Val_b64Char (a / 4) (by omega)
    have h2 := b64Val_b64Char (a % 4 * 16) (by omega)
    simp only [base64Encode, base64Quanta, and_self, if_true, h1, h2, Option.some_bind]
    congr 2
    omega
  | case3 a b =>
    have ha : a < 256 := hb a (by simp)
    have hb2 : b < 256 := hb b (by simp)
    have h1 := b64Val_b64Char (a / 4) (by omega)
    have h2 := b64Val_b64Char (a % 4 * 16 + b / 16) (by omega)
    have h3 := b64Val_b64Char (b % 16 * 4) (by omega)
    have hne := (b64Char_ne (b % 16 * 4)).1
    simp only [base64Encode, base64Quanta, hne, false_and, if_false, and_self, if_true, h1, h2,
      h3, Option.some_bind]
    congr 2
    · omega
    · congr 1
      omega
  | case4 a b c rest ih =>
    have ha : a < 256 := hb a (by simp)
    have hb2 : b < 256 := hb b (by simp)
    have hc : c < 256 := hb c (by simp)
    have ih2 := ih (fun x hx => hb x (by simp [hx]))
    have h1 := b64Val_b64Char (a / 4) (by omega)
    have h2 := b64Val_b64Char (a % 4 * 16 + b / 16) (by omega)
    have h3 := b64Val_b64Char (b % 16 * 4 + c / 64) (by omega)
    have h4 := b64Val_b64Char (c % 64) (by omega)
    have hne3 := (b64Char_ne (b % 16 * 4 + c / 64)).1
    have hne4 := (b64Char_ne (c % 64)).1
    simp only [base64Encode, base64Quanta, hne3, hne4, false_and, if_false, h1, h2, h3, h4,
      Option.some_bind, ih2, Option.map_some']
    congr 2
    · omega
    · congr 1
      · omega
      · congr 1
        omega

theorem base64Encode_clean (p : List Nat) :
    ∀ x ∈ base64Encode p, x ≠ 13 ∧ x ≠ 10 := by
  induction p using base64Encode.induct with
  | case1 => simp [base64Encode]
  | case2 a =>
    intro x hx
    simp only [base64Encode, List.mem_cons, List.mem_singleton, List.not_mem_nil, or_false] at hx
    rcases hx with h | h | h | h
    · rw [h]; exact (b64Char_ne _).2
    · rw [h]; exact (b64Char_ne _).2
    · omega
    · omega
  | case3 a b =>
    intro x hx
    simp only [base64Encode, List.mem_cons, List.mem_singleton, List.not_mem_nil, or_false] at hx
    rcases hx with h | h | h | h
    · rw [h]; exact (b64Char_ne _).2
    · rw [h]; exact (b64Char_ne _).2
    · rw [h]; exact (b64Char_ne _).2
    · omega
  | case4 a b c rest ih =>
    intro x hx
    simp only [base64Encode, List.mem_cons] at hx
    rcases hx with h | h | h | h | h
    · rw [h]; exact (b64Char_ne _).2
    · rw [h]; exact (b64Char_ne _).2
    · rw [h]; exact (b64Char_ne _).2
    · rw [h]; exact (b64Char_ne _).2
    · exact ih x h

/-- The base64 payload decodes back: `base64.StdEncoding.Decode` of the output
of `Encode` is the payload. -/
theorem base64Decode_encode (p : List Nat) (hb : ∀ c ∈ p, c < 256) :
    base64Decode (base64Encode p) = some p := by
  unfold base64Decode
  have hf : (base64Encode p).filter (fun c => !(c == 13 || c == 10)) = base64Encode p := by
    rw [List.filter_eq_self]
    intro x hx
    have := base64Encode_clean p x hx
    simp [this.1, this.2]
  rw [hf]
  exact base64Quanta_encode p hb

/-- The length of the base64 payload is the length that `DataURI` allocates for
it, `base64Len - len(";base64")`. -/
theorem base64Encode_length (p : List Nat) : (base64Encode p).length = encodedLen p.length := by
  induction p using base64Encode.induct with
  | case1 => simp [base64Encode, encodedLen]
  | case2 a => simp [base64Encode, encodedLen]
  | case3 a b => simp [base64Encode, encodedLen]
  | case4 a b c rest ih =>
    simp only [base64Encode, List.length_cons, ih, encodedLen]
    omega

/-! ## The round trip through the parser -/

theorem scanURI_no_marker (data : List Nat) (X : List Nat) : ∀ (mt seg : List Nat),
    44 ∉ X → hasMarker X seg = false →
    ∃ mt2, scanURI (X ++ 44 :: data) false mt seg = finishURI false mt2 data := by
  induction X with
  | nil =>
    intro mt seg _ hm
    simp only [hasMarker, decide_eq_false_iff_not] at hm
    refine ⟨mt ++ trimWhitespace seg, ?_⟩
    simp [scanURI, hm]
  | cons c rest ih =>
    intro mt seg hc hm
    have hc44 : c ≠ 44 := fun h => hc (by simp [h])
    have hrest : 44 ∉ rest := fun h => hc (by simp [h])
    simp only [hasMarker] at hm
    by_cases h61 : c = 61
    · rw [if_pos h61] at hm
      obtain ⟨mt2, h2⟩ := ih (mt ++ trimWhitespace seg ++ [c]) [] hrest hm
      refine ⟨mt2, ?_⟩
      rw [← h2]
      simp [scanURI, h61]
    · rw [if_neg h61] at hm
      by_cases h59 : c = 59
      · rw [if_pos h59] at hm
        simp only [Bool.or_eq_false_iff, decide_eq_false_iff_not] at hm
        obtain ⟨mt2, h2⟩ := ih (mt ++ trimWhitespace seg ++ [c]) [] hrest hm.2
        refine ⟨mt2, ?_⟩
        rw [← h2]
        simp [scanURI, h59, hm.1]
      · rw [if_neg h59] at hm
        obtain ⟨mt2, h2⟩ := ih mt (seg ++ [c]) hrest hm
        refine ⟨mt2, ?_⟩
        rw [← h2]
        simp [scanURI, h61, h59, hc44]

theorem scanURI_marker_tail (data : List Nat) (b : Bool) (mt seg : List Nat) :
    ∃ mt2, scanURI (bytes ";base64" ++ 44 :: data) b mt seg = finishURI true mt2 data := by
  have hb : bytes ";base64" = [59, 98, 97, 115, 101, 54, 52] := by decide
  have h1 : trimWhitespace [98, 97, 115, 101, 54, 52] = bytes "base64" := by decide
  have h2 : trimWhitespace [59, 98, 97, 115, 101, 54, 52] ≠ bytes "base64" := by decide
  rw [hb]
  by_cases hm : trimWhitespace seg = bytes "base64"
  · refine ⟨mt.dropLast ++ trimWhitespace [59, 98, 97, 115, 101, 54, 52], ?_⟩
    simp [scanURI, hm, h2]
  · refine ⟨(mt ++ trimWhitespace seg ++ [59]).dropLast, ?_⟩
    simp [scanURI, hm, h1]

theorem scanURI_marker (data : List Nat) (X : List Nat) : ∀ (b : Bool) (mt seg : List Nat),
    44 ∉ X →
    ∃ mt2, scanURI (X ++ (bytes ";base64" ++ 44 :: data)) b mt seg = finishURI true mt2 data := by
  induction X with
  | nil =>
    intro b mt seg _
    exact scanURI_marker_tail data b mt seg
  | cons c rest ih =>
    intro b mt seg hc
    have hc44 : c ≠ 44 := fun h => hc (by simp [h])
    have hrest : 44 ∉ rest := fun h => hc (by simp [h])
    by_cases h61 : c = 61
    · obtain ⟨mt2, h2⟩ := ih b (mt ++ trimWhitespace seg ++ [c]) [] hrest
      refine ⟨mt2, ?_⟩
      rw [← h2]
      simp [scanURI, h61]
    · by_cases h59 : c = 59
      · by_cases hm : trimWhitespace seg = bytes "base64"
        · obtain ⟨mt2, h2⟩ := ih true mt.dropLast [c] hrest
          refine ⟨mt2, ?_⟩
          rw [← h2]
          simp [scanURI, h59, hm]
        · obtain ⟨mt2, h2⟩ := ih b (mt ++ trimWhitespace seg ++ [c]) [] hrest
          refine ⟨mt2, ?_⟩
          rw [← h2]
          simp [scanURI, h59, hm]
      · obtain ⟨mt2, h2⟩ := ih b mt (seg ++ [c]) hrest
        refine ⟨mt2, ?_⟩
        rw [← h2]
        simp [scanURI, h61, h59, hc44]

theorem startsWith_append (p : List Nat) : ∀ (xs ys : List Nat), p.length ≤ xs.length →
    startsWith (xs ++ ys) p = startsWith xs p := by
  induction p with
  | nil => intro xs ys _; cases xs <;> simp [startsWith]
  | cons a p ih =>
    intro xs ys h
    cases xs with
    | nil => simp at h
    | cons x xs =>
      have := ih xs ys (by simpa using h)
      simp only [List.cons_append, startsWith, List.append_eq, this]

theorem startsWith_short (p : List Nat) : ∀ (xs ys : List Nat) (c : Nat), c ∉ p →
    xs.length < p.length → startsWith (xs ++ c :: ys) p = false := by
  induction p with
  | nil => intro xs ys c _ h; simp at h
  | cons a p ih =>
    intro xs ys c hc h
    have hca : c ≠ a := fun e => hc (by simp [e])
    have hcp : c ∉ p := fun e => hc (by simp [e])
    cases xs with
    | nil => simp [startsWith, hca]
    | cons x xs =>
      have := ih xs ys c hcp (by simpa using h)
      simp only [List.cons_append, startsWith, List.append_eq, this]
      simp

theorem compactMediatype_marker (mt : List Nat) :
    compactMediatype (mt ++ bytes ";base64") = compactMediatype mt ++ bytes ";base64" := by
  have hb : bytes ";base64" = 59 :: bytes "base64" := by decide
  have hl : (bytes "text/plain").length = 10 := by decide
  have h59 : 59 ∉ bytes "text/plain" := by decide
  unfold compactMediatype
  rw [hl]
  by_cases hlen : 10 ≤ mt.length
  · rw [startsWith_append _ _ _ (by rw [hl]; exact hlen)]
    by_cases hs : startsWith mt (bytes "text/plain") = true
    · rw [if_pos ⟨by simp; omega, hs⟩, if_pos ⟨hlen, hs⟩, List.drop_append_of_le_length hlen]
    · rw [if_neg (fun h => hs h.2), if_neg (fun h => hs h.2)]
  · have hs : startsWith (mt ++ bytes ";base64") (bytes "text/plain") = false := by
      rw [hb]
      exact startsWith_short _ _ _ 59 h59 (by rw [hl]; omega)
    rw [if_neg (fun h => by rw [hs] at h; exact absurd h.2 (by simp)),
      if_neg (fun h => hlen h.1)]

theorem compactMediatype_mem (mt : List Nat) (c : Nat) (h : c ∈ compactMediatype mt) :
    c ∈ mt := by
  unfold compactMediatype at h
  split at h
  · exact List.mem_of_mem_drop h
  · exact h

theorem trimWhitespace_mem (seg : List Nat) (c : Nat) (h : c ∈ trimWhitespace seg) :
    c ∈ seg := by
  unfold trimWhitespace at h
  rw [List.mem_reverse] at h
  have := (List.dropWhile_sublist isWhitespace).subset h
  rw [List.mem_reverse] at this
  exact (List.dropWhile_sublist isWhitespace).subset this

theorem finishURI_no_comma (b : Bool) (mt data mt2 p : List Nat) (hmt : 44 ∉ mt)
    (h : finishURI b mt data = some (mt2, p)) : 44 ∉ mt2 := by
  have htp : 44 ∉ bytes "text/plain" := by decide
  have hm : 44 ∉ (if mt = [] ∨ mt.head? = some 59 then bytes "text/plain" else mt) := by
    split
    · exact htp
    · exact hmt
  unfold finishURI at h
  simp only [] at h
  cases b with
  | true =>
    simp only [if_true] at h
    cases hd : base64Decode data with
    | none => rw [hd] at h; simp at h
    | some x =>
      rw [hd] at h
      simp only [Option.map_some', Option.some.injEq, Prod.mk.injEq] at h
      rw [← h.1]
      exact hm
  | false =>
    simp only [Bool.false_eq_true, if_false, Option.some.injEq, Prod.mk.injEq] at h
    rw [← h.1]
    exact hm

theorem scanURI_no_comma (input : List Nat) : ∀ (b : Bool) (mt seg mt2 p : List Nat),
    44 ∉ mt → 44 ∉ seg → scanURI input b mt seg = some (mt2, p) → 44 ∉ mt2 := by
  induction input with
  | nil => intro b mt seg mt2 p _ _ h; simp [scanURI] at h
  | cons c rest ih =>
    intro b mt seg mt2 p hmt hseg h
    have htrim : 44 ∉ trimWhitespace seg := fun e => hseg (trimWhitespace_mem seg 44 e)
    have hdl : 44 ∉ mt.dropLast := fun e => hmt (List.mem_of_mem_dropLast e)
    simp only [scanURI] at h
    by_cases hsep : c = 61 ∨ c = 59 ∨ c = 44
    · rw [if_pos hsep] at h
      by_cases hmk : c ≠ 61 ∧ trimWhitespace seg = bytes "base64"
      · rw [if_pos hmk] at h
        by_cases hc : c = 44
        · rw [if_pos hc] at h
          exact finishURI_no_comma true _ rest mt2 p hdl h
        · rw [if_neg hc] at h
          exact ih true _ [c] mt2 p hdl (by simp; omega) h
      · rw [if_neg hmk] at h
        by_cases hc : c = 44
        · rw [if_neg (by omega), ] at h
          refine finishURI_no_comma b _ rest mt2 p ?_ h
          simp only [List.mem_append, not_or]
          exact ⟨hmt, htrim⟩
        · rw [if_pos hc] at h
          refine ih b _ [] mt2 p ?_ (by simp) h
          simp only [List.mem_append, List.mem_singleton, not_or]
          exact ⟨⟨hmt, htrim⟩, fun e => hc e.symm⟩
    · rw [if_neg hsep] at h
      refine ih b mt (seg ++ [c]) mt2 p hmt ?_ h
      simp only [List.mem_append, List.mem_singleton, not_or]
      exact ⟨hseg, fun e => hsep (Or.inr (Or.inr e.symm))⟩

/-- The mediatype that the parser returns has no comma. -/
theorem parseDataURI_no_comma (d mt p : List Nat) (h : parseDataURI d = some (mt, p)) :
    44 ∉ mt := by
  unfold parseDataURI at h
  split at h
  · exact scanURI_no_comma _ false [] [] mt p (by simp) (by simp) h
  · simp at h

theorem parseDataURI_data (rest : List Nat) (h : rest ≠ []) :
    parseDataURI (bytes "data:" ++ rest) = scanURI rest false [] [] := by
  have hd : bytes "data:" = [100, 97, 116, 97, 58] := by decide
  have hl : 0 < rest.length := List.length_pos.mpr h
  unfold parseDataURI
  rw [hd]
  rw [if_pos ⟨by simp; omega, by simp⟩]
  simp

/-- The round trip of `DataURI` with the modelled parser holds outside the
defect of the mediatype: when the parser decodes `d` to a mediatype and a
payload of bytes, and finds no base64 marker in the mediatype without its
`text/plain` in front, it decodes `DataURI(d)`, for the identity dispatch, to
the same payload, whichever encoding was chosen. -/
theorem DataURI_roundTrip (d mt p : List Nat) (h : parseDataURI d = some (mt, p))
    (hb : ∀ c ∈ p, c < 256) (hm : hasMarker (compactMediatype mt) [] = false) :
    ∃ mt2, parseDataURI (DataURI identityDispatch d) = some (mt2, p) := by
  have hcomma : 44 ∉ compactMediatype mt :=
    fun e => parseDataURI_no_comma d mt p h (compactMediatype_mem mt 44 e)
  unfold DataURI
  by_cases hc : 7 + encodedLen (identityDispatch mt p).length
      < (identityDispatch mt p).length + escapeEstimate (identityDispatch mt p)
  · rw [DataURIWith_base64 parseDataURI identityDispatch d mt p h hc]
    have hform : base64Form mt (identityDispatch mt p)
        = bytes "data:" ++ (compactMediatype mt ++ (bytes ";base64" ++ 44 :: base64Encode p)) := by
      unfold base64Form identityDispatch
      rw [compactMediatype_marker]
      simp
    rw [hform, parseDataURI_data _ (by simp)]
    obtain ⟨mt2, h2⟩ := scanURI_marker (base64Encode p) (compactMediatype mt) false [] [] hcomma
    rw [h2]
    unfold finishURI
    simp only [if_true, base64Decode_encode p hb, Option.map_some']
    exact ⟨_, rfl⟩
  · rw [DataURIWith_percent parseDataURI identityDispatch d mt p h hc]
    have hform : percentForm mt (identityDispatch mt p)
        = bytes "data:" ++ (compactMediatype mt ++ 44 :: escapeQuotes (queryEscape p)) := by
      unfold percentForm identityDispatch
      simp
    rw [hform, parseDataURI_data _ (by simp)]
    obtain ⟨mt2, h2⟩ := scanURI_no_marker (escapeQuotes (queryEscape p)) (compactMediatype mt)
      [] [] hcomma hm
    rw [h2]
    unfold finishURI
    simp only [Bool.false_eq_true, if_false, queryUnescape_queryEscape p hb, Option.getD_some]
    exact ⟨_, rfl⟩

/-- The round trip at a concrete input: `data:text/html;charset=utf-8,<b>` is
decoded to the payload `<b>`, and so is what `DataURI` makes of it. -/
theorem DataURI_roundTrip_witness :
    ∃ mt2, parseDataURI (DataURI identityDispatch (bytes "data:text/html;charset=utf-8,<b>"))
      = some (mt2, bytes "<b>") :=
  DataURI_roundTrip (bytes "data:text/html;charset=utf-8,<b>") (bytes "text/html;charset=utf-8")
    (bytes "<b>") (by decide) (by decide) (by decide)

/-! ## The floating-point logarithm of line 173

Line 173 computes the number of digits of the exponent as
`int(math.Log10(float64(exp))) + 1`.  The embedding takes the floating-point
part as the parameter `lg`.  What follows holds for every `lg` that gives the
true number of decimal digits at the one exponent that is written; nothing is
assumed about `lg` elsewhere, and nothing at all outside the scientific range. -/

theorem emit_congr (lg1 lg2 : Int → Int) (num : List Nat) (neg : Bool) (start end_ exp : Int)
    (h : exp ≠ 0 → (wrap64 (exp + (end_ - start)) < -2 ∨ 2 < exp) →
      lg1 (if exp < 0 then wrap64 (-exp) else exp) = lg2 (if exp < 0 then wrap64 (-exp) else exp)) :
    emit lg1 num neg start end_ exp = emit lg2 num neg start end_ exp := by
  unfold emit
  simp only []
  by_cases h0 : exp = 0
  · rw [if_pos h0, if_pos h0]
  · rw [if_neg h0, if_neg h0]
    by_cases hsci : wrap64 (exp + (end_ - start)) < -2 ∨ 2 < exp
    · rw [if_pos hsci, if_pos hsci]
      have hl := h h0 hsci
      unfold emitSci
      by_cases hneg : exp < 0
      · rw [if_pos hneg] at hl
        simp only [if_pos hneg]
        unfold writeDigits
        simp only [hl]
      · rw [if_neg hneg] at hl
        simp only [if_neg hneg]
        unfold writeDigits
        simp only [hl]
    · rw [if_neg hsci, if_neg hsci]

/-- The closed form of `Number` for every floating-point logarithm `lg` that
gives the number of decimal digits of the exponent that is written: on a
valid literal with non-zero value whose length and exponent magnitude
together stay below `2^62`, `Number` returns the form of `emitSpec` behind the
kept sign.  The digit count is asked of `lg` in the scientific range only. -/
theorem NumberWith_inRange (lg : Int → Int) (s : List Nat) (L : Lit)
    (hp : parseLit s = some L) (hnz : valueOf s ≠ some 0)
    (hb : (s.length : Int) + |exponentOf s| < 2 ^ 62)
    (hlg : (L.exp10 + L.mant.length < -2 ∨ 2 < L.exp10) →
      lg (L.exp10.natAbs : Int) + 1 = ((expDigits L.exp10.natAbs).length : Int)) :
    NumberWith parseInt lg s = (emitSpec L.mant L.exp10 L.room).map (fun r => L.minus ++ r) := by
  obtain ⟨hwf, hr⟩ := parseLit_sound s L hp
  have hm := mant_ne_nil_of s L hp hnz
  rw [exponentOf_eq s L hp, ← hr] at hb
  have hs := shift_bound L hwf hm
  have habs := abs_le.mp (le_refl |L.expVal|)
  have hlen : (0 : Int) ≤ L.render.length := by omega
  have hpe := parsedExp_parseInt L hwf (by omega) (by omega)
  obtain ⟨J, hJ, hres⟩ := NumberWith_front parseInt lg L hwf L.expVal hpe
  have hw : wrap64 (L.expVal + L.shift) = L.exp10 := by
    unfold Lit.exp10
    exact wrap64_id _ (by omega) (by omega)
  have he : L.exp10 = L.expVal + L.shift := rfl
  have hlen2 : (dropPlus L.render).length ≤ L.render.length := dropPlus_length_le _
  have hPne : decide (L.sg = [45]) = true → L.minus ++ zeros L.leadZeros ≠ [] := by
    intro h
    rw [minus_eq]
    exact signBytes_ne_nil _ _ h
  rw [← hr, hres, if_neg hm, hw]
  have hcg : emit lg ((L.minus ++ zeros L.leadZeros) ++ (L.mant ++ J)) (decide (L.sg = [45]))
      ((L.minus ++ zeros L.leadZeros).length : Nat)
      (((L.minus ++ zeros L.leadZeros).length : Nat) + (L.mant.length : Int)) L.exp10
      = emit intLog10 ((L.minus ++ zeros L.leadZeros) ++ (L.mant ++ J)) (decide (L.sg = [45]))
      ((L.minus ++ zeros L.leadZeros).length : Nat)
      (((L.minus ++ zeros L.leadZeros).length : Nat) + (L.mant.length : Int)) L.exp10 := by
    apply emit_congr
    intro h0 hsci
    have hd : (((L.minus ++ zeros L.leadZeros).length : Nat) + (L.mant.length : Int))
        - ((L.minus ++ zeros L.leadZeros).length : Nat) = (L.mant.length : Int) := by omega
    rw [hd] at hsci
    have hml := mant_length_le L hwf hm
    rw [wrap64_id _ (by omega) (by omega)] at hsci
    have hpos : 0 < L.exp10.natAbs := by omega
    have harg : (if L.exp10 < 0 then wrap64 (-L.exp10) else L.exp10)
        = (L.exp10.natAbs : Int) := by
      by_cases hneg : L.exp10 < 0
      · rw [if_pos hneg, wrap64_id _ (by omega) (by omega)]; omega
      · rw [if_neg hneg]; omega
    rw [harg]
    have h1 := hlg hsci
    have h2 := intLog10_digits L.exp10.natAbs hpos (by omega)
    rw [expDigits_length] at h1
    omega
  rw [hcg, emit_eq (L.minus ++ zeros L.leadZeros) L.mant J (decide (L.sg = [45])) _ _
    L.exp10 rfl rfl hPne (by omega) (by omega)
    (by simp only [List.length_append, zeros_length] at hJ ⊢; push_cast; omega)]
  have hroom : L.room = J.length := by
    unfold Lit.room
    omega
  rw [hroom, minus_eq]

/-- On a valid literal in range, `Number` with any floating-point logarithm
that gives the true number of digits of the canonical exponent (asked in the
scientific range only) returns what `Number` with the exact integer logarithm
returns. -/
theorem NumberWith_exact (lg : Int → Int) (s : List Nat) (hv : validNumber s = true)
    (hb : (s.length : Int) + |exponentOf s| < 2 ^ 62)
    (hlg : (exp10Of s + (mantissaOf s).length < -2 ∨ 2 < exp10Of s) →
      lg ((exp10Of s).natAbs : Int) + 1 = ((expDigits (exp10Of s).natAbs).length : Int)) :
    NumberWith parseInt lg s = Number s := by
  obtain ⟨L, hp, hwf, hr⟩ := validNumber_sound s hv
  simp only [exp10Of_eq s L hp, mantissaOf_eq s L hp] at hlg
  by_cases hm : L.mant = []
  · have hb2 := hb
    rw [exponentOf_eq s L hp] at hb2
    have habs := abs_le.mp (le_refl |L.expVal|)
    have hlen : (0 : Int) ≤ s.length := by omega
    obtain ⟨J, _, hres⟩ := NumberWith_front parseInt lg L hwf L.expVal
      (parsedExp_parseInt L hwf (by omega) (by omega))
    rw [← hr, hres, if_pos hm, Number_render_zero L hwf (by omega) (by omega) hm]
    rfl
  · have hnz := valueOf_ne_zero_of s L hp hm
    rw [NumberWith_inRange lg s L hp hnz hb hlg, Number_inRange s L hp hnz hb]

/-- Whenever `Number` returns on a valid literal in range, with a floating-point
logarithm that gives the true number of digits of the canonical exponent, the
result denotes the same value. -/
theorem NumberWith_value (lg : Int → Int) (s r : List Nat) (hv : validNumber s = true)
    (hb : (s.length : Int) + |exponentOf s| < 2 ^ 62)
    (hlg : (exp10Of s + (mantissaOf s).length < -2 ∨ 2 < exp10Of s) →
      lg ((exp10Of s).natAbs : Int) + 1 = ((expDigits (exp10Of s).natAbs).length : Int))
    (h : NumberWith parseInt lg s = some r) : valueOf r = valueOf s := by
  rw [NumberWith_exact lg s hv hb hlg] at h
  exact Number_value s r hv hb h

/-- Whenever `Number` returns on a valid literal in range, with a floating-point
logarithm that gives the true number of digits of the canonical exponent, the
result is no longer than the input. -/
theorem NumberWith_nongrowth (lg : Int → Int) (s r : List Nat) (hv : validNumber s = true)
    (hb : (s.length : Int) + |exponentOf s| < 2 ^ 62)
    (hlg : (exp10Of s + (mantissaOf s).length < -2 ∨ 2 < exp10Of s) →
      lg ((exp10Of s).natAbs : Int) + 1 = ((expDigits (exp10Of s).natAbs).length : Int))
    (h : NumberWith parseInt lg s = some r) : r.length ≤ s.length := by
  rw [NumberWith_exact lg s hv hb hlg] at h
  have habs : (0 : Int) ≤ |exponentOf s| := abs_nonneg _
  exact Number_nongrowth s r hv (by omega) h

/-- Totality for short mantissas: `Number` returns on every valid literal in
range whose canonical mantissa has at most 90 digits, with a floating-point
logarithm that gives the true number of digits of the canonical exponent. -/
theorem NumberWith_total (lg : Int → Int) (s : List Nat) (hv : validNumber s = true)
    (hk : (mantissaOf s).length ≤ 90)
    (hb : (s.length : Int) + |exponentOf s| < 2 ^ 62)
    (hlg : (exp10Of s + (mantissaOf s).length < -2 ∨ 2 < exp10Of s) →
      lg ((exp10Of s).natAbs : Int) + 1 = ((expDigits (exp10Of s).natAbs).length : Int)) :
    ∃ r, NumberWith parseInt lg s = some r := by
  rw [NumberWith_exact lg s hv hb hlg]
  exact Number_total s hv hk hb

/-- Whenever `Number` returns on a valid literal (twice its length and its
exponent magnitude together below `2^62`), with a floating-point logarithm
that gives the true number of digits of the canonical exponent, the result is
a fixed point. -/
theorem NumberWith_idempotent (lg : Int → Int) (s r : List Nat) (hv : validNumber s = true)
    (hb : 2 * (s.length : Int) + |exponentOf s| < 2 ^ 62)
    (hlg : (exp10Of s + (mantissaOf s).length < -2 ∨ 2 < exp10Of s) →
      lg ((exp10Of s).natAbs : Int) + 1 = ((expDigits (exp10Of s).natAbs).length : Int))
    (h : NumberWith parseInt lg s = some r) : NumberWith parseInt lg r = some r := by
  have habs : (0 : Int) ≤ |exponentOf s| := abs_nonneg _
  rw [NumberWith_exact lg s hv (by omega) hlg] at h
  have hfix := Number_idempotent s r hv hb h
  obtain ⟨L, hp, hwf, hr⟩ := validNumber_sound s hv
  by_cases hm : L.mant = []
  · have hb2 := hb
    rw [exponentOf_eq s L hp] at hb2
    have habs2 := abs_le.mp (le_refl |L.expVal|)
    rw [← hr, Number_render_zero L hwf (by omega) (by omega) hm] at h
    cases h
    have hz : NumberWith parseInt lg (bytes "0") = Number (bytes "0") :=
      NumberWith_exact lg (bytes "0") (by decide) (by decide) (fun hs => absurd hs (by decide))
    rw [hz]
    exact hfix
  · have hle := Number_nongrowth s r hv (by omega) h
    obtain ⟨hro, _, _, _⟩ := Number_some_outLit s r L hp hm (by omega) h
    have hc := mant_Canonical L hwf hm
    have hwf2 := outLit_WF L.minus L.mant L.exp10 (minus_cases L) hc
    obtain ⟨p1, p2, _, _⟩ := outLit_parts L.minus L.mant L.exp10 hc
    have hpr : parseLit r = some (outLit L.minus L.mant L.exp10) := by
      rw [hro]
      exact parseLit_render _ hwf2
    have hsb := shift_bound L hwf hm
    have hev := outLit_expVal L.minus L.mant L.exp10
    have he10 : |L.exp10| ≤ |L.expVal| + L.render.length := by
      unfold Lit.exp10
      rw [abs_le]
      have := abs_le.mp (le_refl |L.expVal|)
      constructor <;> omega
    rw [exponentOf_eq s L hp] at hb
    rw [hr] at he10
    have hvr : validNumber r = true := by
      unfold validNumber
      rw [hpr]
      rfl
    have hex : NumberWith parseInt lg r = Number r := by
      apply NumberWith_exact lg r hvr
      · rw [exponentOf_eq r _ hpr]
        omega
      · rw [exp10Of_eq r _ hpr, mantissaOf_eq r _ hpr, p1, p2]
        rw [exp10Of_eq s L hp, mantissaOf_eq s L hp] at hlg
        exact hlg
    rw [hex]
    exact hfix

/-- Claim C8, as amended: for every valid literal with non-zero value whose
length and exponent magnitude together stay below `2^62`, with canonical
mantissa `m`, canonical exponent `e` and `relExp = e + len(m)`, and for every
floating-point logarithm: when neither `relExp < -2` nor `e > 2`, `Number`
returns a result without `e` or `E`; when `relExp < -2` or `e > 2`, `m` has at
most 90 digits and the logarithm of line 173 gives the true number of digits
of `|e|`, `Number` returns a result that contains an `e`. -/
theorem Number_threshold (lg : Int → Int) (s : List Nat) (hv : validNumber s = true)
    (hnz : valueOf s ≠ some 0) (hb : (s.length : Int) + |exponentOf s| < 2 ^ 62) :
    (¬ (exp10Of s + (mantissaOf s).length < -2 ∨ 2 < exp10Of s) →
      ∃ r, NumberWith parseInt lg s = some r ∧ 101 ∉ r ∧ 69 ∉ r) ∧
    ((exp10Of s + (mantissaOf s).length < -2 ∨ 2 < exp10Of s) →
      (mantissaOf s).length ≤ 90 →
      lg ((exp10Of s).natAbs : Int) + 1 = ((expDigits (exp10Of s).natAbs).length : Int) →
      ∃ r, NumberWith parseInt lg s = some r ∧ 101 ∈ r) := by
  constructor
  · intro hfix
    rw [NumberWith_exact lg s hv hb (fun h => absurd h hfix)]
    exact (exactLog_threshold s hv hnz hb).1 hfix
  · intro hsci hk hlg
    rw [NumberWith_exact lg s hv hb (fun _ => hlg)]
    obtain ⟨r, hr⟩ := Number_total s hv hk hb
    exact ⟨r, hr, (exactLog_threshold s hv hnz hb).2 hsci r hr⟩

/-- The threshold at concrete inputs, with the exact logarithm: "0.0123" has
`relExp = -1` and gives a result without `e`; "1000" has the exponent 3, of
one digit, and gives a result with an `e`. -/
theorem Number_threshold_witness :
    (∃ r, NumberWith parseInt intLog10 (bytes "0.0123") = some r ∧ 101 ∉ r ∧ 69 ∉ r) ∧
    (∃ r, NumberWith parseInt intLog10 (bytes "1000") = some r ∧ 101 ∈ r) :=
  ⟨(Number_threshold intLog10 (bytes "0.0123") (by decide)
      (valueOf_ne_zero_of _ ⟨[], [48], true, bytes "0123", false, 0, [], []⟩ (by decide)
        (by decide)) (by decide)).1 (by decide),
   (Number_threshold intLog10 (bytes "1000") (by decide)
      (valueOf_ne_zero_of _ ⟨[], bytes "1000", false, [], false, 0, [], []⟩ (by decide)
        (by decide)) (by decide)).2 (by decide) (by decide)
      (by rw [show exp10Of (bytes "1000") = 3 from by decide]; norm_num [expDigits]; decide)⟩

/-- Claim C17, as amended: for every valid literal with non-zero value whose
length and exponent magnitude together stay below `2^62`, whose canonical
mantissa `m` and exponent `e` satisfy `e + len(m) < -2` or `e > 2`, and for
which the logarithm of line 173 gives the true number of digits of `|e|`,
every result of `Number` is exactly: `-` if the literal is negative, the
digits of `m`, `e`, `-` if `e < 0`, and the decimal digits of `|e|` without
leading zeros; and `Number` returns this result when `m` has at most 90
digits. -/
theorem Number_scientific (lg : Int → Int) (s : List Nat) (hv : validNumber s = true)
    (hnz : valueOf s ≠ some 0) (hb : (s.length : Int) + |exponentOf s| < 2 ^ 62)
    (hsci : exp10Of s + (mantissaOf s).length < -2 ∨ 2 < exp10Of s)
    (hlg : lg ((exp10Of s).natAbs : Int) + 1 = ((expDigits (exp10Of s).natAbs).length : Int)) :
    (∀ r, NumberWith parseInt lg s = some r →
      r = minusOf s ++ (mantissaOf s ++ 101 ::
        ((if exp10Of s < 0 then [45] else []) ++ expDigits (exp10Of s).natAbs))) ∧
    ((mantissaOf s).length ≤ 90 →
      NumberWith parseInt lg s = some (minusOf s ++ (mantissaOf s ++ 101 ::
        ((if exp10Of s < 0 then [45] else []) ++ expDigits (exp10Of s).natAbs)))) := by
  rw [NumberWith_exact lg s hv hb (fun _ => hlg)]
  exact exactLog_scientific s hv hnz hb hsci

/-- The scientific form at concrete inputs, with the exact logarithm:
"-0.00012" has the mantissa "12" and the exponent -5 and gives "-12e-5";
"120000" gives "12e4". -/
theorem Number_scientific_witness :
    NumberWith parseInt intLog10 (bytes "-0.00012") = some (bytes "-12e-5") ∧
    NumberWith parseInt intLog10 (bytes "120000") = some (bytes "12e4") :=
  ⟨((Number_scientific intLog10 (bytes "-0.00012") (by decide)
      (valueOf_ne_zero_of _ ⟨[45], [48], true, bytes "00012", false, 0, [], []⟩ (by decide)
        (by decide)) (by decide) (by decide)
      (by rw [show exp10Of (bytes "-0.00012") = -5 from by decide]
          norm_num [expDigits]
          decide)).2 (by decide)).trans (by
      rw [show exp10Of (bytes "-0.00012") = -5 from by decide,
        show mantissaOf (bytes "-0.00012") = bytes "12" from by decide,
        show minusOf (bytes "-0.00012") = [45] from by decide]
      norm_num [expDigits, bytes]
      decide),
   ((Number_scientific intLog10 (bytes "120000") (by decide)
      (valueOf_ne_zero_of _ ⟨[], bytes "120000", false, [], false, 0, [], []⟩ (by decide)
        (by decide)) (by decide) (by decide)
      (by rw [show exp10Of (bytes "120000") = 4 from by decide]
          norm_num [expDigits]
          decide)).2 (by decide)).trans (by
      rw [show exp10Of (bytes "120000") = 4 from by decide,
        show mantissaOf (bytes "120000") = bytes "12" from by decide,
        show minusOf (bytes "120000") = [] from by decide]
      norm_num [expDigits, bytes]
      decide)⟩

/-- Claim C5, as amended: for every valid literal `s` whose canonical mantissa
has at most 90 digits, whose length and exponent magnitude together stay
below `2^62`, and for which the logarithm of line 173 gives the true number of
digits of the canonical exponent (asked in the scientific range only),
`Number` returns a result, and it is no longer than any valid literal `t` that
denotes the same value. -/
theorem Number_shortest (lg : Int → Int) (s t : List Nat) (hv : validNumber s = true)
    (ht : validNumber t = true) (hval : valueOf t = valueOf s)
    (hk : (mantissaOf s).length ≤ 90)
    (hb : (s.length : Int) + |exponentOf s| < 2 ^ 62)
    (hlg : (exp10Of s + (mantissaOf s).length < -2 ∨ 2 < exp10Of s) →
      lg ((exp10Of s).natAbs : Int) + 1 = ((expDigits (exp10Of s).natAbs).length : Int)) :
    ∃ r, NumberWith parseInt lg s = some r ∧ r.length ≤ t.length := by
  rw [NumberWith_exact lg s hv hb hlg]
  exact exactLog_shortest s t hv ht hval hk hb

/-- The shortest form at concrete inputs, with the exact logarithm: "0.00100" is
mapped to a result no longer than the literal ".001" of the same value (the
form is not the scientific one, so nothing is asked of the logarithm), and
"1000", in the scientific range with the one-digit exponent 3, to a result no
longer than the literal "1e3" of the same value. -/
theorem Number_shortest_witness :
    (valueOf (bytes ".001") = valueOf (bytes "0.00100") ∧
      ∃ r, NumberWith parseInt intLog10 (bytes "0.00100") = some r ∧
        r.length ≤ (bytes ".001").length) ∧
    (valueOf (bytes "1e3") = valueOf (bytes "1000") ∧
      ∃ r, NumberWith parseInt intLog10 (bytes "1000") = some r ∧
        r.length ≤ (bytes "1e3").length) :=
  ⟨⟨valueOf_eq_of_canonical (bytes "0.00100") (bytes ".001")
      ⟨[], [48], true, bytes "00100", false, 0, [], []⟩
      ⟨[], [], true, bytes "001", false, 0, [], []⟩ (by decide) (by decide) (by decide)
      (by decide) (by decide),
    Number_shortest intLog10 (bytes "0.00100") (bytes ".001") (by decide) (by decide)
      (valueOf_eq_of_canonical (bytes "0.00100") (bytes ".001")
        ⟨[], [48], true, bytes "00100", false, 0, [], []⟩
        ⟨[], [], true, bytes "001", false, 0, [], []⟩ (by decide) (by decide) (by decide)
        (by decide) (by decide))
      (by decide) (by decide) (fun h => absurd h (by decide))⟩,
   ⟨valueOf_eq_of_canonical (bytes "1000") (bytes "1e3")
      ⟨[], bytes "1000", false, [], false, 0, [], []⟩
      ⟨[], [49], false, [], true, 101, [], [51]⟩ (by decide) (by decide) (by decide)
      (by decide) (by decide),
    Number_shortest intLog10 (bytes "1000") (bytes "1e3") (by decide) (by decide)
      (valueOf_eq_of_canonical (bytes "1000") (bytes "1e3")
        ⟨[], bytes "1000", false, [], false, 0, [], []⟩
        ⟨[], [49], false, [], true, 101, [], [51]⟩ (by decide) (by decide) (by decide)
        (by decide) (by decide))
      (by decide) (by decide)
      (fun _ => by
        rw [show exp10Of (bytes "1000") = 3 from by decide]
        norm_num [expDigits]
        decide)⟩⟩

end Minify
